import Mathlib

/-!
speeddns: probing loop and latency statistics

A shallow embedding of `internal/stats/stats.go` (`Calculate`, `percentile`) and of
`internal/benchmark/benchmark.go` (`Benchmark.testResolver`), followed by the
properties established about them.

Conventions of the embedding

* `time.Duration` is an `int64`: durations are integers, and every `+` / `-` on them
  is followed by `wrap64` (two's complement wrap-around).
* `float64` values are rationals.  Every floating-point operation of the source is
  written as the exact rational operation followed by the rounding `F.rnd` of a
  `FloatModel F`.  Two models are given: `binary64` (IEEE 754 round-to-nearest-even
  with correctly rounded square root, normal range) and `exactArith` (no rounding).
  General statements are proved for every `F` that satisfies `FloatModel.Lawful`, the
  standard model of floating-point arithmetic, which both do.
* The external effects of the probing loop (the DNS query, the context's `Done`
  channel) are read from an explicit `World`.
-/

namespace SpeedDNS

/-! ## Machine integers and floating point -/

/-- A `time.Duration`, a count of nanoseconds held in an `int64`. -/
abbrev Duration := Int

/-- The least `int64`, `math.MinInt64`. -/
def minInt64 : Int := -(2 ^ 63)

/-- The greatest `int64`, `math.MaxInt64`. -/
def maxInt64 : Int := 2 ^ 63 - 1

/-- The values an `int64` can hold. -/
def isInt64 (x : Int) : Prop := minInt64 ≤ x ∧ x ≤ maxInt64

instance (x : Int) : Decidable (isInt64 x) := by
  unfold isInt64; exact inferInstance

/-- Two's complement wrap-around of an exact integer result to `int64`. -/
def wrap64 (x : Int) : Int := (x + 2 ^ 63) % 2 ^ 64 - 2 ^ 63

/-- Truncation of a rational toward zero (the integer part). -/
def truncQ (q : ℚ) : Int := Int.tdiv q.num q.den

/-- Conversion `int64(x)` / `time.Duration(x)` of a `float64`: the fractional part is
discarded; a value outside the `int64` range gives the amd64 result `-2^63` (the Go
specification leaves that case to the implementation). -/
def toInt64 (q : ℚ) : Int :=
  if isInt64 (truncQ q) then truncQ q else minInt64

/-- Binary logarithm of a positive natural number, rounded down; `fuel` bounds the
number of halvings. -/
def log2Fuel : Nat → Nat → Nat
  | 0, _ => 0
  | fuel + 1, n => if n < 2 then 0 else log2Fuel fuel (n / 2) + 1

/-- Binary logarithm of a positive natural number, rounded down (`n` halvings are
more than enough). -/
def natLog2 (n : Nat) : Nat := log2Fuel n n

/-- Binary logarithm of a positive rational, rounded down: the `e` with
`2^e ≤ a < 2^(e+1)`. -/
def ratLog2 (a : ℚ) : Int :=
  let e : Int := (natLog2 a.num.natAbs : Int) - (natLog2 a.den : Int)
  if a < (2 : ℚ) ^ e then e - 1 else e

/-- Integer square root, found bit by bit from bit `k - 1` downwards. -/
def sqrtLoop : Nat → Nat → Nat → Nat
  | 0, _, r => r
  | k + 1, n, r =>
    if (r + 2 ^ k) * (r + 2 ^ k) ≤ n then sqrtLoop k n (r + 2 ^ k) else sqrtLoop k n r

/-- Integer square root: the root has at most `natLog2 n / 2 + 1` bits. -/
def natSqrt (n : Nat) : Nat := sqrtLoop (natLog2 n / 2 + 1) n 0

/-- IEEE 754 binary64 rounding, round-to-nearest with ties to even, of a rational in
the normal range (53 significant bits; overflow and subnormals do not arise from
`int64` operands). -/
def roundNearestEven (q : ℚ) : ℚ :=
  if q = 0 then 0 else
    let a : ℚ := |q|
    let ulp : ℚ := (2 : ℚ) ^ (ratLog2 a - 52)
    let m : ℚ := a / ulp
    let f : Int := ⌊m⌋
    let r : ℚ := m - f
    let n : Int :=
      if r < 1 / 2 then f
      else if 1 / 2 < r then f + 1
      else if f % 2 = 0 then f else f + 1
    (if q < 0 then -1 else 1) * ((n : ℚ) * ulp)

/-- Correctly rounded binary64 square root of a non-negative rational (`math.Sqrt`);
the argument here is a variance, never negative. -/
def sqrtNearest (q : ℚ) : ℚ :=
  if q ≤ 0 then 0 else
    let h : Int := ratLog2 q / 2
    let ulp : ℚ := (2 : ℚ) ^ (h - 52)
    let s : ℚ := q / (ulp * ulp)
    let m : Nat := natSqrt ⌊s⌋₊
    let n : Nat := if ((m : ℚ) + 1 / 2) * ((m : ℚ) + 1 / 2) < s then m + 1 else m
    (n : ℚ) * ulp

/-- The arithmetic of `float64`: `rnd` maps the exact result of an operation to the
value that is stored, `sqrt` is `math.Sqrt`. -/
structure FloatModel where
  rnd : ℚ → ℚ
  sqrt : ℚ → ℚ

/-- The arithmetic of the hardware: IEEE 754 binary64. -/
def binary64 : FloatModel where
  rnd := roundNearestEven
  sqrt := sqrtNearest

/-- Arithmetic without rounding error.  Only the integer part of a square root is
ever observed (`time.Duration(math.Sqrt(v))`), so `sqrt` returns that integer part. -/
def exactArith : FloatModel where
  rnd := id
  sqrt := fun q => (natSqrt ⌊q⌋₊ : ℚ)

/-- The standard model of floating-point arithmetic: a rounded result is within
relative error `2^-53` of the exact one, integers up to `2^53` are stored exactly,
and the square root of zero is zero. -/
structure FloatModel.Lawful (F : FloatModel) : Prop where
  rnd_err : ∀ q : ℚ, |F.rnd q - q| ≤ |q| / 2 ^ 53
  rnd_int : ∀ z : Int, |z| ≤ 2 ^ 53 → F.rnd (z : ℚ) = (z : ℚ)
  sqrt_zero : F.sqrt 0 = 0

/-! ## internal/stats/stats.go -/

/-- Summary holds calculated statistics. -/
structure Summary where
  Count : Nat := 0
  Min : Duration := 0
  Max : Duration := 0
  Mean : Duration := 0
  Median : Duration := 0
  StdDev : Duration := 0
  P50 : Duration := 0
  P75 : Duration := 0
  P90 : Duration := 0
  P95 : Duration := 0
  P99 : Duration := 0
  deriving DecidableEq, Repr

/-- Slice indexing `s[i]` with an `int` index.  Where the source would panic on an
index out of range the value is 0; the indices `percentile` computes are in range
(`percentile_index_in_range`). -/
def at_ (s : List Duration) (i : Int) : Duration :=
  if 0 ≤ i then s.getD i.toNat 0 else 0

/-- The function `percentile`: the p-th percentile of a sorted slice, by linear
interpolation. -/
def percentile (F : FloatModel) (sorted : List Duration) (p : ℚ) : Duration :=
  if sorted.length = 0 then 0
  else if sorted.length = 1 then at_ sorted 0
  else
    let rank : ℚ := F.rnd (F.rnd (p / 100) * F.rnd (((sorted.length : Int) - 1 : Int) : ℚ))
    let lower : Int := toInt64 rank
    let upper : Int := lower + 1
    let upper : Int := if upper ≥ sorted.length then (sorted.length : Int) - 1 else upper
    let fraction : ℚ := F.rnd (rank - F.rnd (lower : ℚ))
    wrap64 (at_ sorted lower +
      toInt64 (F.rnd (fraction * F.rnd ((wrap64 (at_ sorted upper - at_ sorted lower) : Int) : ℚ))))

/-- The result of `sort.Slice(sorted, func(i, j) { sorted[i] < sorted[j] })`: the
samples in ascending order (for integers the ascending rearrangement is unique, so
the sorting algorithm does not matter). -/
def sortAscending (rtts : List Duration) : List Duration :=
  rtts.insertionSort (· ≤ ·)

/-- The accumulation `for _, rtt := range sorted { sum += rtt }`. -/
def sumDurations (sorted : List Duration) : Duration :=
  sorted.foldl (fun sum rtt => wrap64 (sum + rtt)) 0

/-- The accumulation `sumSquares += diff * diff` of squared deviations from `mean`, in
`float64`, the product and the sum rounded one after the other (as on amd64, where the
compiler does not fuse them). -/
def sumSquares (F : FloatModel) (sorted : List Duration) (mean : Duration) : ℚ :=
  sorted.foldl
    (fun acc rtt =>
      let diff : ℚ := F.rnd ((wrap64 (rtt - mean) : Int) : ℚ)
      F.rnd (acc + F.rnd (diff * diff)))
    0

/-- The function `Calculate`: all statistics of a sequence of RTT samples. -/
def Calculate (F : FloatModel) (rtts : List Duration) : Summary :=
  if rtts.length = 0 then {}
  else
    let sorted := sortAscending rtts
    let sum := sumDurations sorted
    let mean : Duration := Int.tdiv sum (sorted.length : Int)
    let variance : ℚ := F.rnd (sumSquares F sorted mean / F.rnd ((sorted.length : Int) : ℚ))
    let stdDev : Duration := toInt64 (F.sqrt variance)
    { Count := sorted.length
      Min := at_ sorted 0
      Max := at_ sorted ((sorted.length : Int) - 1)
      Mean := mean
      Median := percentile F sorted 50
      StdDev := stdDev
      P50 := percentile F sorted 50
      P75 := percentile F sorted 75
      P90 := percentile F sorted 90
      P95 := percentile F sorted 95
      P99 := percentile F sorted 99 }

/-- The interpolation rule in the words of the specification, as an exact rational:
`r = (p/100) × (n−1)`, `lo = floor(r)`, `hi = min(lo+1, n−1)`, `frac = r − lo`, and the value
`sorted[lo] + frac × (sorted[hi] − sorted[lo])`. -/
def interpolationFormula (sorted : List Duration) (p : ℚ) : ℚ :=
  let n : Nat := sorted.length
  let r : ℚ := p / 100 * ((n : ℚ) - 1)
  let lo : Nat := ⌊r⌋₊
  let hi : Nat := min (lo + 1) (n - 1)
  let frac : ℚ := r - (lo : ℚ)
  (sorted.getD lo 0 : ℚ) + frac * ((sorted.getD hi 0 : ℚ) - (sorted.getD lo 0 : ℚ))

/-- The same rule carried out the way a `time.Duration` can hold its result: every
arithmetic operation is rounded by `F`, and the interpolation term
`frac × (sorted[hi] − sorted[lo])` is cut to a whole number of nanoseconds (its
fractional part is discarded) before it is added to `sorted[lo]`. -/
def interpolate (F : FloatModel) (sorted : List Duration) (p : ℚ) : Duration :=
  let n : Nat := sorted.length
  let r : ℚ := F.rnd (F.rnd (p / 100) * F.rnd ((n : ℚ) - 1))
  let lo : Nat := ⌊r⌋₊
  let hi : Nat := min (lo + 1) (n - 1)
  let frac : ℚ := F.rnd (r - F.rnd (lo : ℚ))
  sorted.getD lo 0 +
    truncQ (F.rnd (frac * F.rnd ((sorted.getD hi 0 : ℚ) - (sorted.getD lo 0 : ℚ))))

/-! ## internal/resolver/builtin.go, internal/dns/client.go -/

/-- Resolver represents a DNS resolver with metadata. -/
structure Resolver where
  Name : String := ""
  Provider : String := ""
  IPv4 : List String := []
  IPv6 : List String := []
  Description : String := ""
  Features : List String := []
  deriving DecidableEq, Repr

/-- What one call of `c.client.ExchangeContext` hands back: the reply's `Rcode` and
number of answers, the measured round-trip time, and the error (by its message). -/
structure Exchange where
  Rcode : Int := 0
  Answers : Nat := 0
  rtt : Duration := 0
  err : Option String := none
  deriving DecidableEq, Repr

/-- The environment of one run of `testResolver`: for the k-th pass through the loop
body (k = 0, 1, ...), whether `ctx.Done()` is ready at the `select`, and what the
exchange made by the k-th `Query` returns. -/
structure World where
  done : Nat → Bool
  exchange : Nat → Exchange

/-- QueryResult holds the result of a single DNS query. -/
structure QueryResult where
  Resolver : String := ""
  Domain : String := ""
  QueryType : Nat := 0
  RTT : Duration := 0
  Success : Bool := false
  Error : Option String := none
  ResponseCode : Int := 0
  AnswerCount : Nat := 0
  deriving DecidableEq, Repr

/-- The response code `dns.RcodeSuccess`. -/
def RcodeSuccess : Int := 0

/-- The record type `mdns.TypeA`. -/
def TypeA : Nat := 1

/-- The method `Client.Query`, applied to what the exchange returned. -/
def Query (x : Exchange) (server domain : String) (qtype : Nat) : QueryResult :=
  let result : QueryResult := { Resolver := server, Domain := domain, QueryType := qtype }
  match x.err with
  | some err => { result with Error := some err, Success := false }
  | none =>
    { result with
      RTT := x.rtt
      Success := decide (x.Rcode = RcodeSuccess)
      ResponseCode := x.Rcode
      AnswerCount := x.Answers }

/-! ## internal/benchmark/benchmark.go -/

/-- Config holds benchmark configuration.  `Iterations` is an iteration count, a
natural number here: the source stores it in an `int`, and with a negative value and a
non-empty domain list the `make` call that opens `testResolver` has a negative capacity
and panics before any query; `testResolver` below is the function on the configurations
on which it returns, and `RawConfig` with `rttCapacity` expresses the others for
`Run`. -/
structure Config where
  Timeout : Duration := 0
  Iterations : Nat := 0
  Concurrency : Int := 0
  UseTCP : Bool := false
  IncludeIPv6 : Bool := false
  Domains : List String := []
  deriving DecidableEq, Repr

/-- ResolverResult holds aggregated results for a resolver. -/
structure ResolverResult where
  Resolver : SpeedDNS.Resolver := {}
  Address : String := ""
  Queries : Nat := 0
  Successes : Nat := 0
  Failures : Nat := 0
  RTTs : List Duration := []
  Stats : Summary := {}
  Errors : List String := []
  deriving DecidableEq, Repr

/-- The constant `maxConsecutiveFailures` of `testResolver`. -/
def maxConsecutiveFailures : Nat := 3

/-- The note appended by the bailout branch. -/
def bailoutNote : String := "early bailout: resolver unreachable"

/-- The local variables of `testResolver` that live across loop iterations. -/
structure LoopState where
  result : ResolverResult
  consecutiveFailures : Nat
  deriving DecidableEq, Repr

/-- How one pass through the loop body ends: falling through to the next pass, or
`return result`. -/
inductive Flow where
  | next (s : LoopState)
  | ret (r : ResolverResult)
  deriving DecidableEq, Repr

/-- The guarded append `if len(result.Errors) < 5 { result.Errors = append(...) }`. -/
def capture (result : ResolverResult) (msg : String) : ResolverResult :=
  if result.Errors.length < 5 then { result with Errors := result.Errors ++ [msg] } else result

/-- The body of the inner loop of `testResolver` for one domain.  The number of
queries issued so far is also the number of earlier passes, which indexes the
`World`. -/
def loopBody (F : FloatModel) (w : World) (addr : String) (s : LoopState) (domain : String) :
    Flow :=
  if w.done s.result.Queries then
    Flow.ret { s.result with Stats := Calculate F s.result.RTTs }
  else
    let qr := Query (w.exchange s.result.Queries) addr domain TypeA
    let result : ResolverResult := { s.result with Queries := s.result.Queries + 1 }
    if qr.Success then
      let result : ResolverResult := { result with Successes := result.Successes + 1 }
      let result : ResolverResult := { result with RTTs := result.RTTs ++ [qr.RTT] }
      Flow.next { result := result, consecutiveFailures := 0 }
    else
      let result : ResolverResult := { result with Failures := result.Failures + 1 }
      let consecutiveFailures : Nat := s.consecutiveFailures + 1
      if result.Successes = 0 ∧ consecutiveFailures ≥ maxConsecutiveFailures then
        let result : ResolverResult := capture result bailoutNote
        Flow.ret { result with Stats := Calculate F result.RTTs }
      else
        let result : ResolverResult :=
          match qr.Error with
          | some err => capture result err
          | none => result
        Flow.next { result := result, consecutiveFailures := consecutiveFailures }

/-- The inner loop `for _, domain := range b.config.Domains`. -/
def rangeDomains (F : FloatModel) (w : World) (addr : String) :
    List String → LoopState → Flow
  | [], s => Flow.next s
  | domain :: rest, s =>
    match loopBody F w addr s domain with
    | Flow.next s1 => rangeDomains F w addr rest s1
    | Flow.ret r => Flow.ret r

/-- The outer loop `for i := 0; i < b.config.Iterations; i++`, by the number of
iterations still to run. -/
def iterate (F : FloatModel) (w : World) (addr : String) (domains : List String) :
    Nat → LoopState → Flow
  | 0, s => Flow.next s
  | n + 1, s =>
    match rangeDomains F w addr domains s with
    | Flow.next s1 => iterate F w addr domains n s1
    | Flow.ret r => Flow.ret r

/-- The method `Benchmark.testResolver`: all test queries against one address. -/
def testResolver (F : FloatModel) (config : Config) (w : World) (res : Resolver)
    (addr : String) : ResolverResult :=
  let result : ResolverResult := { Resolver := res, Address := addr, RTTs := [] }
  match iterate F w addr config.Domains config.Iterations
      { result := result, consecutiveFailures := 0 } with
  | Flow.next s => { s.result with Stats := Calculate F s.result.RTTs }
  | Flow.ret r => r

/-! ## Vocabulary for statements about `testResolver` -/

/-- The domains in the order the nested loops visit them: the whole domain list, once
per iteration. -/
def schedule (config : Config) : List String :=
  (List.replicate config.Iterations config.Domains).flatten

/-- The outcomes of the queries for the domains `ds`, the first of them being the
`k`-th query of the run. -/
def outcomes (w : World) (addr : String) : Nat → List String → List QueryResult
  | _, [] => []
  | k, domain :: rest => Query (w.exchange k) addr domain TypeA :: outcomes w addr (k + 1) rest

/-- The sequence of query outcomes of a run that issues every scheduled query. -/
def issued (config : Config) (w : World) (addr : String) : List QueryResult :=
  outcomes w addr 0 (schedule config)

/-- The round-trip times of the successful queries, in issue order. -/
def rttsOf (qs : List QueryResult) : List Duration :=
  (qs.filter (fun q => q.Success)).map (fun q => q.RTT)

/-- The messages of the error values carried by failed queries, in issue order. -/
def errorsOf (qs : List QueryResult) : List String :=
  qs.filterMap (fun q => if q.Success then none else q.Error)

/-- The effect on `result` of one query outcome when the loop body falls through to
the next pass (neither the deadline branch nor the bailout branch is taken). -/
def record (result : ResolverResult) (qr : QueryResult) : ResolverResult :=
  if qr.Success then
    { result with
      Queries := result.Queries + 1
      Successes := result.Successes + 1
      RTTs := result.RTTs ++ [qr.RTT] }
  else
    let failed : ResolverResult :=
      { result with Queries := result.Queries + 1, Failures := result.Failures + 1 }
    match qr.Error with
    | some err => capture failed err
    | none => failed

/-- The result returned when the loop is left with `result` in hand: the summary of
the samples collected is filled in. -/
def finish (F : FloatModel) (result : ResolverResult) : ResolverResult :=
  { result with Stats := Calculate F result.RTTs }

/-- The result returned by the bailout branch, entered on a failed query with
`result` the value before that query. -/
def bailout (F : FloatModel) (result : ResolverResult) : ResolverResult :=
  finish F
    (capture { result with Queries := result.Queries + 1, Failures := result.Failures + 1 }
      bailoutNote)

/-- The number of failed queries at the head of a sequence of outcomes. -/
def leadingFailures (qs : List QueryResult) : Nat :=
  (qs.takeWhile (fun q => !q.Success)).length

/-- The consecutive-failure counter after a pass that falls through. -/
def consecutive (count : Nat) (qr : QueryResult) : Nat :=
  if qr.Success then 0 else count + 1

/-- The state in which `testResolver` enters its loops. -/
def initialState (res : Resolver) (addr : String) : LoopState :=
  { result := { Resolver := res, Address := addr, RTTs := [] }, consecutiveFailures := 0 }

/-- Where the run stands after at most `n` passes through the loop body. -/
def afterPasses (F : FloatModel) (config : Config) (w : World) (res : Resolver)
    (addr : String) (n : Nat) : Flow :=
  rangeDomains F w addr ((schedule config).take n) (initialState res addr)

/-- The `Errors` list held at a point of the run. -/
def Flow.errors : Flow → List String
  | Flow.next s => s.result.Errors
  | Flow.ret r => r.Errors

/-- The value `testResolver` returns when its loops end in this way. -/
def Flow.result (F : FloatModel) : Flow → ResolverResult
  | Flow.next s => finish F s.result
  | Flow.ret r => r

/-! ## Sample runs -/

/-- Five iterations over three domains: 15 scheduled queries. -/
def sampleConfig : Config :=
  { Iterations := 5, Domains := ["example.com", "iana.org", "github.com"] }

/-- A run in which the first three queries fail with an error and every later one
would be answered in 7 ms; the deadline never elapses. -/
def unreachableWorld : World where
  done := fun _ => false
  exchange := fun k =>
    if k = 0 then { err := some "e1" }
    else if k = 1 then { err := some "e2" }
    else if k = 2 then { err := some "e3" }
    else { rtt := 7000000 }

/-- A run in which the first query is answered in 7 ms and every later query fails
with an error; the deadline never elapses. -/
def flakyWorld : World where
  done := fun _ => false
  exchange := fun k => if k = 0 then { rtt := 7000000 } else { err := some "i/o timeout" }

/-- The run of `flakyWorld`, with the deadline elapsed from the check before the fifth
query onwards. -/
def deadlineWorld : World where
  done := fun k => decide (4 ≤ k)
  exchange := flakyWorld.exchange

/-- A run whose deadline has elapsed before the first query. -/
def elapsedWorld : World where
  done := fun _ => true
  exchange := flakyWorld.exchange

/-- The loop state of the `flakyWorld` run after three passes: one success, then two
failures. -/
def flakyAfterThree : LoopState :=
  { result :=
      { Address := "192.0.2.1", Queries := 3, Successes := 1, Failures := 2,
        RTTs := [7000000], Errors := ["i/o timeout", "i/o timeout"] }
    consecutiveFailures := 2 }

/-- The loop state of the `deadlineWorld` run after four passes: one success, then
three failures. -/
def deadlineAfterFour : LoopState :=
  { result :=
      { Address := "192.0.2.1", Queries := 4, Successes := 1, Failures := 3,
        RTTs := [7000000], Errors := ["i/o timeout", "i/o timeout", "i/o timeout"] }
    consecutiveFailures := 3 }

/-- The loop state of the `unreachableWorld` run after two passes: two failures. -/
def unreachableAfterTwo : LoopState :=
  { result :=
      { Address := "192.0.2.1", Queries := 2, Successes := 0, Failures := 2,
        RTTs := [], Errors := ["e1", "e2"] }
    consecutiveFailures := 2 }

/-! ## Vocabulary for statements about the standard deviation -/

/-- Arithmetic of precision `B`: a rounded result is within relative error `1/B` of the
exact one, integers up to `B` are stored exactly, and the square root brackets whole
numbers: it is at least `k` from `k²` on, and below `k` up to `k² × (1 − 2/B)`.
`binary64` has precision `2^53`; arithmetic without rounding has every precision. -/
structure FloatModel.Precise (F : FloatModel) (B : Nat) : Prop where
  rnd_err : ∀ q : ℚ, |F.rnd q - q| ≤ |q| / B
  rnd_int : ∀ z : Int, |z| ≤ B → F.rnd (z : ℚ) = (z : ℚ)
  sqrt_ge : ∀ (q : ℚ) (k : Nat), (k : ℚ) ^ 2 ≤ q → q ≤ B → (k : ℚ) ≤ F.sqrt q
  sqrt_lt : ∀ (q : ℚ) (k : Nat), 0 ≤ q → 0 < k → (k : ℚ) ≤ B →
    q ≤ (k : ℚ) ^ 2 * (1 - 2 / B) → F.sqrt q < (k : ℚ)

/-- The sum of the squared deviations of the samples from `c`, as an exact integer. -/
def squaredDeviations (xs : List Duration) (c : Int) : Int :=
  (xs.map (fun x => (x - c) * (x - c))).sum

/-- The population variance in the words of the specification: the sum of the squared
deviations of the samples from their arithmetic mean, divided by the sample count. -/
def populationVariance (xs : List Duration) : ℚ :=
  let n : ℚ := (xs.length : ℚ)
  let mean : ℚ := ((xs.sum : Int) : ℚ) / n
  (xs.map (fun x : Int => ((x : ℚ) - mean) * ((x : ℚ) - mean))).sum / n

/-! ## internal/output -/

/-- The loop that opens the three formatters:
`for _, r := range results { if r.Successes > 0 { validResults = append(validResults, r) } }`. -/
def validResults (results : List ResolverResult) : List ResolverResult :=
  results.filter (fun r => decide (r.Successes > 0))

/-- The comparison the formatters hand to `sort.Slice`:
`validResults[i].Stats.Mean < validResults[j].Stats.Mean`. -/
def lessMean (a b : ResolverResult) : Bool :=
  decide (a.Stats.Mean < b.Stats.Mean)

/-- The contract of the library call `sort.Slice(validResults, less)` with the
comparison `lessMean`: the slice is rearranged, and afterwards no element is less than
one that stands before it.  The order among results of equal mean is not fixed by the
library (the sort is not stable), so the call is a parameter of the formatters. -/
def SortSliceSpec (sortSlice : List ResolverResult → List ResolverResult) : Prop :=
  ∀ l : List ResolverResult,
    (sortSlice l).Perm l ∧ (sortSlice l).Pairwise (fun a b => lessMean b a = false)

/-- One way to meet the contract: insertion sort by mean. -/
def sortByMean (l : List ResolverResult) : List ResolverResult :=
  l.insertionSort (fun a b => a.Stats.Mean ≤ b.Stats.Mean)

/-- The method `time.Duration.Microseconds`: whole microseconds, the rest cut off. -/
def Microseconds (d : Duration) : Int :=
  Int.tdiv d 1000

/-- The expression `float64(d.Microseconds()) / 1000`. -/
def millis (F : FloatModel) (d : Duration) : ℚ :=
  F.rnd (F.rnd ((Microseconds d : Int) : ℚ) / 1000)

/-- The expression `float64(r.Successes) / float64(r.Queries) * 100`.  With
`r.Queries = 0` the division has no finite value (`+Inf` or `NaN`): `none`. -/
def successRate (F : FloatModel) (r : ResolverResult) : Option ℚ :=
  if r.Queries = 0 then none
  else some (F.rnd (F.rnd (F.rnd (r.Successes : ℚ) / F.rnd (r.Queries : ℚ)) * 100))

/-- JSONResult is a JSON-friendly result structure. -/
structure JSONResult where
  Rank : Nat
  Name : String
  Provider : String
  Address : String
  AvgMs : ℚ
  MinMs : ℚ
  MaxMs : ℚ
  MedianMs : ℚ
  P75Ms : ℚ
  P90Ms : ℚ
  P95Ms : ℚ
  P99Ms : ℚ
  StdDevMs : ℚ
  SuccessRate : Option ℚ
  Queries : Nat
  Successes : Nat
  Failures : Nat
  deriving DecidableEq

/-- The anonymous struct `Summary` of `JSONOutput`. -/
structure JSONSummary where
  TotalResolvers : Nat := 0
  SuccessfulOnly : Nat := 0
  deriving DecidableEq

/-- JSONOutput wraps the results with metadata. -/
structure JSONOutput where
  Results : List JSONResult := []
  Summary : JSONSummary := {}
  deriving DecidableEq

/-- The `JSONResult` literal built in the body of `for i, r := range validResults`. -/
def jsonRow (F : FloatModel) (i : Nat) (r : ResolverResult) : JSONResult where
  Rank := i + 1
  Name := r.Resolver.Name
  Provider := r.Resolver.Provider
  Address := r.Address
  AvgMs := millis F r.Stats.Mean
  MinMs := millis F r.Stats.Min
  MaxMs := millis F r.Stats.Max
  MedianMs := millis F r.Stats.Median
  P75Ms := millis F r.Stats.P75
  P90Ms := millis F r.Stats.P90
  P95Ms := millis F r.Stats.P95
  P99Ms := millis F r.Stats.P99
  StdDevMs := millis F r.Stats.StdDev
  SuccessRate := successRate F r
  Queries := r.Queries
  Successes := r.Successes
  Failures := r.Failures

/-- The method `JSONFormatter.Format`, up to the value `output` that it hands to the
JSON encoder (the encoding itself is the library's). -/
def JSONFormatter.Format (F : FloatModel)
    (sortSlice : List ResolverResult → List ResolverResult)
    (results : List ResolverResult) : JSONOutput :=
  let validResults := sortSlice (validResults results)
  { Results := validResults.mapIdx (fun i r => jsonRow F i r)
    Summary :=
      { TotalResolvers := results.length
        SuccessfulOnly := validResults.length } }

/-- The cells that open a row of `TableFormatter.Format`: `fmt.Sprintf("%d", i+1)`,
`r.Resolver.Name`, `r.Address`.  The cells after them render durations and a
percentage through `fmt` and are not modelled. -/
def tableCells (i : Nat) (r : ResolverResult) : List String :=
  [toString (i + 1), r.Resolver.Name, r.Address]

/-- The rows appended by `TableFormatter.Format`, each cut to its first three cells. -/
def TableFormatter.rows (sortSlice : List ResolverResult → List ResolverResult)
    (results : List ResolverResult) : List (List String) :=
  (sortSlice (validResults results)).mapIdx tableCells

/-- The count `failedCount := len(results) - len(validResults)` that
`TableFormatter.Format` reports after the table. -/
def TableFormatter.failedCount (sortSlice : List ResolverResult → List ResolverResult)
    (results : List ResolverResult) : Int :=
  (results.length : Int) - ((sortSlice (validResults results)).length : Int)

/-- The cells that open a data row of `CSVFormatter.Format`: `fmt.Sprintf("%d", i+1)`,
`r.Resolver.Name`, `r.Resolver.Provider`, `r.Address`.  The cells after them render
numbers through `fmt` and are not modelled. -/
def csvCells (i : Nat) (r : ResolverResult) : List String :=
  [toString (i + 1), r.Resolver.Name, r.Resolver.Provider, r.Address]

/-- The data rows written by `CSVFormatter.Format`, each cut to its first four
cells. -/
def CSVFormatter.rows (sortSlice : List ResolverResult → List ResolverResult)
    (results : List ResolverResult) : List (List String) :=
  (sortSlice (validResults results)).mapIdx csvCells

/-- Three results: one ranked second, one that failed every query, one ranked first. -/
def sampleResults : List ResolverResult :=
  [ { Resolver := { Name := "alpha", Provider := "A" }, Address := "192.0.2.1",
      Queries := 5, Successes := 5, Stats := { Count := 5, Mean := 30000000 } },
    { Resolver := { Name := "beta", Provider := "B" }, Address := "192.0.2.2",
      Queries := 3, Failures := 3 },
    { Resolver := { Name := "gamma", Provider := "C" }, Address := "192.0.2.3",
      Queries := 4, Successes := 3, Failures := 1,
      Stats := { Count := 3, Mean := 10000000 } } ]

/-! ## internal/benchmark/benchmark.go: `Run` -/

/-- AllAddresses returns all IP addresses for this resolver: the IPv4 list, followed by
the IPv6 list when `includeIPv6` is set. -/
def Resolver.AllAddresses (r : Resolver) (includeIPv6 : Bool) : List String :=
  let addrs : List String := []
  let addrs : List String := addrs ++ r.IPv4
  if includeIPv6 then addrs ++ r.IPv6 else addrs

/-- Config as the source declares it and as `main` fills it from the flags, which it
passes on unchecked: `Iterations` is an `int` and may be negative.  This is the
configuration a `Benchmark` holds. -/
structure RawConfig where
  Timeout : Duration := 0
  Iterations : Int := 0
  Concurrency : Int := 0
  UseTCP : Bool := false
  IncludeIPv6 : Bool := false
  Domains : List String := []
  deriving DecidableEq, Repr

/-- The configuration as the loops of `testResolver` read it:
`for i := 0; i < b.config.Iterations; i++` runs `Iterations` times, and not at all when
`Iterations` is negative. -/
def RawConfig.toConfig (c : RawConfig) : Config :=
  { Timeout := c.Timeout
    Iterations := c.Iterations.toNat
    Concurrency := c.Concurrency
    UseTCP := c.UseTCP
    IncludeIPv6 := c.IncludeIPv6
    Domains := c.Domains }

/-- Benchmark runs DNS benchmarks.  The field `client` of the source is represented by
the worlds in which the probes run. -/
structure Benchmark where
  config : RawConfig := {}
  resolvers : List Resolver := []
  deriving DecidableEq, Repr

/-- The capacity of the slice with which `testResolver` opens:
`make([]time.Duration, 0, b.config.Iterations*len(b.config.Domains))`.  `make` panics
when the capacity is negative; a capacity that is not negative is taken to be granted
(one beyond the address space, or a product that wraps around in `int`, is not
considered). -/
def rttCapacity (b : Benchmark) : Int :=
  b.config.Iterations * (b.config.Domains.length : Int)

/-- Progress reports benchmark progress. -/
structure Progress where
  Resolver : String := ""
  Address : String := ""
  Total : Nat := 0
  Current : Nat := 0
  deriving DecidableEq, Repr

/-- The count `total` that `Run` computes up front:
`for _, res := range b.resolvers { total += len(res.AllAddresses(...)) }`. -/
def countTotal (b : Benchmark) : Nat :=
  b.resolvers.foldl (fun total res => total + (res.AllAddresses b.config.IncludeIPv6).length) 0

/-- The `(res, addr)` pairs in the order the nested dispatch loops of `Run` visit them;
the task with index `i` is the goroutine started for the `i`-th pair. -/
def addressTasks (b : Benchmark) : List (Resolver × String) :=
  b.resolvers.flatMap
    (fun res => (res.AllAddresses b.config.IncludeIPv6).map (fun addr => (res, addr)))

/-- The capacity of `resultsChan`: `len(b.resolvers)*4`. -/
def resultsCap (b : Benchmark) : Nat :=
  b.resolvers.length * 4

/-- What a call of `Run` meets besides the benchmark: the float arithmetic, the
environment of the probe of each task, and whether a progress channel is passed
(`progress != nil`).  The receiver of the progress channel is taken to accept every
event offered to it. -/
structure RunEnv where
  F : FloatModel
  worlds : Nat → World
  progress : Bool

/-- Where a task goroutine stands: the statement it executes next. -/
inductive TaskPC where
  /-- The `go` statement for this task has not been executed. -/
  | unstarted
  /-- Next: `sem <- struct{}{}`. -/
  | acquire
  /-- Inside `b.testResolver(ctx, r, address)`, holding a slot. -/
  | probing
  /-- Next: `resultsChan <- result`. -/
  | send (result : ResolverResult)
  /-- Next: `mu.Lock()`. -/
  | lock
  /-- Next: `current++`. -/
  | increment
  /-- Next: `progress <- Progress{...}`. -/
  | emit
  /-- Next: `mu.Unlock()`. -/
  | unlock
  /-- Next: the deferred `<-sem`. -/
  | release
  /-- Next: the deferred `wg.Done()`. -/
  | wgDone
  /-- The goroutine has ended. -/
  | exited
  deriving DecidableEq, Repr

/-- Where the goroutine that called `Run` stands. -/
inductive MainPC where
  /-- In the nested dispatch loops. -/
  | dispatch
  /-- In `for result := range resultsChan`. -/
  | collect
  /-- After `return results, nil`. -/
  | returned
  deriving DecidableEq, Repr

/-- Where the goroutine `go func() { wg.Wait(); close(resultsChan) }()` stands. -/
inductive CloserPC where
  | unstarted
  /-- Next: return from `wg.Wait()`. -/
  | wait
  /-- Next: `close(resultsChan)`. -/
  | close
  | exited
  deriving DecidableEq, Repr

/-- The state of a call of `Run`: the program counters of its goroutines and the
variables they share. -/
structure RunState where
  main : MainPC := .dispatch
  closer : CloserPC := .unstarted
  /-- One program counter per address task. -/
  pcs : List TaskPC := []
  /-- Number of `go` statements executed by the dispatch loops. -/
  dispatched : Nat := 0
  /-- The counter of `wg`. -/
  wg : Nat := 0
  /-- Number of tokens in the channel `sem`. -/
  sem : Nat := 0
  /-- The buffer of `resultsChan`, oldest first. -/
  resultsChan : List ResolverResult := []
  /-- Whether `resultsChan` is closed. -/
  closed : Bool := false
  /-- Whether `mu` is locked. -/
  mu : Bool := false
  current : Nat := 0
  /-- The events sent on `progress` so far, oldest first. -/
  progress : List Progress := []
  results : List ResolverResult := []
  deriving DecidableEq, Repr

/-- The scheduling steps of a call of `Run`: which goroutine executes its next
statement. -/
inductive Action where
  /-- The caller executes `wg.Add(1)` and the `go` statement of the next task. -/
  | dispatch
  /-- The caller leaves the dispatch loops and starts the closing goroutine. -/
  | startCloser
  | acquire (i : Nat)
  /-- The call of `testResolver` of task `i` returns. -/
  | probe (i : Nat)
  | send (i : Nat)
  | lock (i : Nat)
  | increment (i : Nat)
  | emit (i : Nat)
  | unlock (i : Nat)
  | release (i : Nat)
  | wgDone (i : Nat)
  /-- The closing goroutine returns from `wg.Wait()`. -/
  | waited
  | close
  /-- The caller receives a result in `for result := range resultsChan`. -/
  | receive
  /-- The caller finds `resultsChan` closed and drained, and returns. -/
  | ret
  deriving DecidableEq, Repr

/-- Where a task continues after `resultsChan <- result`: in the block guarded by
`if progress != nil`, or, without a progress channel, in its deferred calls. -/
def afterSend : Bool → TaskPC
  | true => .lock
  | false => .release

/-- The state in which `Run` enters its dispatch loops.  `make(chan struct{}, n)` with
a negative `n` panics: there is no such state then. -/
def initial (b : Benchmark) : Option RunState :=
  if b.config.Concurrency < 0 then none
  else some { pcs := List.replicate (addressTasks b).length TaskPC.unstarted }

/-- One step of one goroutine, or `none` if the goroutine is not at that statement or
the statement blocks.  A send on `sem` or `resultsChan` blocks while the buffer is
full, a receive while it is empty, `mu.Lock()` while the mutex is held, `wg.Wait()`
while the counter is positive.  (`resultsChan` has capacity 0 only if there is no
resolver, hence no task to send on it; a send on a closed channel, which would panic, is
given no step.)  A call of `testResolver` whose opening `make` has a negative capacity
panics, and the panic ends the process: the call never returns, `.probe` has no step.
The other goroutines are not stopped here, so the states reached are those of the
process and, after a panic, some more. -/
def step (b : Benchmark) (env : RunEnv) : Action → RunState → Option RunState
  | .dispatch, s =>
    if s.main = .dispatch ∧ s.dispatched < (addressTasks b).length then
      some { s with
        wg := s.wg + 1
        pcs := s.pcs.set s.dispatched .acquire
        dispatched := s.dispatched + 1 }
    else none
  | .startCloser, s =>
    if s.main = .dispatch ∧ s.dispatched = (addressTasks b).length then
      some { s with main := .collect, closer := .wait }
    else none
  | .acquire i, s =>
    if s.pcs[i]? = some .acquire ∧ (s.sem : Int) < b.config.Concurrency then
      some { s with sem := s.sem + 1, pcs := s.pcs.set i .probing }
    else none
  | .probe i, s =>
    match (addressTasks b)[i]? with
    | some (r, address) =>
      if s.pcs[i]? = some .probing ∧ 0 ≤ rttCapacity b then
        some { s with
          pcs :=
            s.pcs.set i (.send (testResolver env.F b.config.toConfig (env.worlds i) r address)) }
      else none
    | none => none
  | .send i, s =>
    match s.pcs[i]? with
    | some (.send result) =>
      if s.closed = false ∧ s.resultsChan.length < resultsCap b then
        some { s with
          resultsChan := s.resultsChan ++ [result]
          pcs := s.pcs.set i (afterSend env.progress) }
      else none
    | _ => none
  | .lock i, s =>
    if s.pcs[i]? = some .lock ∧ s.mu = false then
      some { s with mu := true, pcs := s.pcs.set i .increment }
    else none
  | .increment i, s =>
    if s.pcs[i]? = some .increment then
      some { s with current := s.current + 1, pcs := s.pcs.set i .emit }
    else none
  | .emit i, s =>
    match (addressTasks b)[i]? with
    | some (r, address) =>
      if s.pcs[i]? = some .emit then
        some { s with
          progress := s.progress ++
            [{ Resolver := r.Name, Address := address, Total := countTotal b,
               Current := s.current }]
          pcs := s.pcs.set i .unlock }
      else none
    | none => none
  | .unlock i, s =>
    if s.pcs[i]? = some .unlock then
      some { s with mu := false, pcs := s.pcs.set i .release }
    else none
  | .release i, s =>
    if s.pcs[i]? = some .release ∧ 0 < s.sem then
      some { s with sem := s.sem - 1, pcs := s.pcs.set i .wgDone }
    else none
  | .wgDone i, s =>
    if s.pcs[i]? = some .wgDone ∧ 0 < s.wg then
      some { s with wg := s.wg - 1, pcs := s.pcs.set i .exited }
    else none
  | .waited, s =>
    if s.closer = .wait ∧ s.wg = 0 then some { s with closer := .close } else none
  | .close, s =>
    if s.closer = .close then some { s with closed := true, closer := .exited } else none
  | .receive, s =>
    match s.resultsChan with
    | result :: rest =>
      if s.main = .collect then
        some { s with results := s.results ++ [result], resultsChan := rest }
      else none
    | [] => none
  | .ret, s =>
    if s.main = .collect ∧ s.resultsChan = [] ∧ s.closed = true then
      some { s with main := .returned }
    else none

/-- The state after a schedule: the steps taken one after the other. -/
def exec (b : Benchmark) (env : RunEnv) : List Action → RunState → Option RunState
  | [], s => some s
  | a :: rest, s =>
    match step b env a s with
    | some s1 => exec b env rest s1
    | none => none

/-- The states a call of `Run` can be in: those reached from the initial state by some
schedule. -/
def Reaches (b : Benchmark) (env : RunEnv) (acts : List Action) (s : RunState) : Prop :=
  ∃ s0, initial b = some s0 ∧ exec b env acts s0 = some s

/-- The method `Benchmark.Run` under a schedule: the slice it returns, if the schedule
is an execution of the call up to its `return`. -/
def Benchmark.Run (b : Benchmark) (env : RunEnv) (acts : List Action) :
    Option (List ResolverResult) :=
  match initial b with
  | none => none
  | some s0 =>
    match exec b env acts s0 with
    | some s => if s.main = .returned then some s.results else none
    | none => none

/-- The result that the probe of task `i` returns, if it returns. -/
def taskResult (b : Benchmark) (env : RunEnv) (i : Nat) : ResolverResult :=
  match (addressTasks b)[i]? with
  | some (r, address) => testResolver env.F b.config.toConfig (env.worlds i) r address
  | none => {}

/-- The event that task `i` sends when the counter stands at `current`. -/
def taskEvent (b : Benchmark) (i : Nat) (current : Nat) : Progress :=
  match (addressTasks b)[i]? with
  | some (r, address) =>
    { Resolver := r.Name, Address := address, Total := countTotal b, Current := current }
  | none => {}

/-- The position of a program counter in the program order of a task. -/
def TaskPC.rank : TaskPC → Nat
  | .unstarted => 0
  | .acquire => 1
  | .probing => 2
  | .send _ => 3
  | .lock => 4
  | .increment => 5
  | .emit => 6
  | .unlock => 7
  | .release => 8
  | .wgDone => 9
  | .exited => 10

/-- A task holds a slot of `sem` from its `sem <- struct{}{}` to its `<-sem`. -/
def holdsSlot (pc : TaskPC) : Bool :=
  decide (2 ≤ pc.rank ∧ pc.rank ≤ 8)

/-- A task is inside its call of `testResolver`. -/
def isProbing (pc : TaskPC) : Bool :=
  decide (pc.rank = 2)

/-- A task counts in `wg` from its `go` statement to its `wg.Done()`. -/
def isLive (pc : TaskPC) : Bool :=
  decide (1 ≤ pc.rank ∧ pc.rank ≤ 9)

/-- A task holds `mu` from its `mu.Lock()` to its `mu.Unlock()`. -/
def holdsMutex (pc : TaskPC) : Bool :=
  decide (5 ≤ pc.rank ∧ pc.rank ≤ 7)

/-- A task is inside the block guarded by `if progress != nil`. -/
def inProgressBlock (pc : TaskPC) : Bool :=
  decide (4 ≤ pc.rank ∧ pc.rank ≤ 7)

/-- A task has incremented `current` and not yet sent its event. -/
def atEmit (pc : TaskPC) : Bool :=
  decide (pc.rank = 6)

/-- The steps of `step` as a relation, one rule per statement, with the condition under
which the statement is the next one of its goroutine and does not block. -/
inductive Step (b : Benchmark) (env : RunEnv) : Action → RunState → RunState → Prop where
  | dispatch (s : RunState) (hmain : s.main = .dispatch)
      (hlt : s.dispatched < (addressTasks b).length) :
      Step b env .dispatch s
        { s with
          wg := s.wg + 1
          pcs := s.pcs.set s.dispatched .acquire
          dispatched := s.dispatched + 1 }
  | startCloser (s : RunState) (hmain : s.main = .dispatch)
      (hall : s.dispatched = (addressTasks b).length) :
      Step b env .startCloser s { s with main := .collect, closer := .wait }
  | acquire (s : RunState) (i : Nat) (hpc : s.pcs[i]? = some .acquire)
      (hfree : (s.sem : Int) < b.config.Concurrency) :
      Step b env (.acquire i) s { s with sem := s.sem + 1, pcs := s.pcs.set i .probing }
  | probe (s : RunState) (i : Nat) (r : Resolver) (address : String)
      (htask : (addressTasks b)[i]? = some (r, address)) (hpc : s.pcs[i]? = some .probing)
      (hcap : 0 ≤ rttCapacity b) :
      Step b env (.probe i) s
        { s with
          pcs :=
            s.pcs.set i (.send (testResolver env.F b.config.toConfig (env.worlds i) r address)) }
  | send (s : RunState) (i : Nat) (result : ResolverResult)
      (hpc : s.pcs[i]? = some (.send result)) (hopen : s.closed = false)
      (hroom : s.resultsChan.length < resultsCap b) :
      Step b env (.send i) s
        { s with
          resultsChan := s.resultsChan ++ [result]
          pcs := s.pcs.set i (afterSend env.progress) }
  | lock (s : RunState) (i : Nat) (hpc : s.pcs[i]? = some .lock) (hmu : s.mu = false) :
      Step b env (.lock i) s { s with mu := true, pcs := s.pcs.set i .increment }
  | increment (s : RunState) (i : Nat) (hpc : s.pcs[i]? = some .increment) :
      Step b env (.increment i) s
        { s with current := s.current + 1, pcs := s.pcs.set i .emit }
  | emit (s : RunState) (i : Nat) (r : Resolver) (address : String)
      (htask : (addressTasks b)[i]? = some (r, address)) (hpc : s.pcs[i]? = some .emit) :
      Step b env (.emit i) s
        { s with
          progress := s.progress ++
            [{ Resolver := r.Name, Address := address, Total := countTotal b,
               Current := s.current }]
          pcs := s.pcs.set i .unlock }
  | unlock (s : RunState) (i : Nat) (hpc : s.pcs[i]? = some .unlock) :
      Step b env (.unlock i) s { s with mu := false, pcs := s.pcs.set i .release }
  | release (s : RunState) (i : Nat) (hpc : s.pcs[i]? = some .release) (hsem : 0 < s.sem) :
      Step b env (.release i) s { s with sem := s.sem - 1, pcs := s.pcs.set i .wgDone }
  | wgDone (s : RunState) (i : Nat) (hpc : s.pcs[i]? = some .wgDone) (hwg : 0 < s.wg) :
      Step b env (.wgDone i) s { s with wg := s.wg - 1, pcs := s.pcs.set i .exited }
  | waited (s : RunState) (hpc : s.closer = .wait) (hwg : s.wg = 0) :
      Step b env .waited s { s with closer := .close }
  | close (s : RunState) (hpc : s.closer = .close) :
      Step b env .close s { s with closed := true, closer := .exited }
  | receive (s : RunState) (result : ResolverResult) (rest : List ResolverResult)
      (hchan : s.resultsChan = result :: rest) (hmain : s.main = .collect) :
      Step b env .receive s
        { s with results := s.results ++ [result], resultsChan := rest }
  | ret (s : RunState) (hmain : s.main = .collect) (hempty : s.resultsChan = [])
      (hclosed : s.closed = true) :
      Step b env .ret s { s with main := .returned }

/-- What holds in every state of a call of `Run`: how the shared variables relate to
the program counters of the goroutines. -/
structure Inv (b : Benchmark) (env : RunEnv) (s : RunState) : Prop where
  conc : 0 ≤ b.config.Concurrency
  len : s.pcs.length = (addressTasks b).length
  disp : s.dispatched ≤ (addressTasks b).length
  unst : ∀ i pc, s.pcs[i]? = some pc → (pc = .unstarted ↔ s.dispatched ≤ i)
  sem_eq : s.sem = s.pcs.countP holdsSlot
  sem_le : (s.sem : Int) ≤ b.config.Concurrency
  wg_eq : s.wg = s.pcs.countP isLive
  mu_eq : s.pcs.countP holdsMutex = if s.mu then 1 else 0
  started : s.main = .dispatch ↔ s.closer = .unstarted
  all : s.main ≠ .dispatch → s.dispatched = (addressTasks b).length
  joined : s.closer = .close ∨ s.closer = .exited → s.wg = 0
  closed : s.closed = true ↔ s.closer = .exited
  noprog : env.progress = false → s.pcs.countP inProgressBlock = 0
  sendres : ∀ i r, s.pcs[i]? = some (.send r) → r = taskResult b env i
  returned : s.main = .returned → s.closed = true ∧ s.resultsChan = []

/-- How a schedule and the state it leads to are related: a task has taken a step
exactly if its program counter stands behind that step. -/
structure Progressed (env : RunEnv) (acts : List Action) (s : RunState) : Prop where
  acquired : ∀ i, Action.acquire i ∈ acts ↔
    True ∧ ∃ pc, s.pcs[i]? = some pc ∧ 2 ≤ pc.rank
  probed : ∀ i, Action.probe i ∈ acts ↔
    True ∧ ∃ pc, s.pcs[i]? = some pc ∧ 3 ≤ pc.rank
  sent : ∀ i, Action.send i ∈ acts ↔
    True ∧ ∃ pc, s.pcs[i]? = some pc ∧ 4 ≤ pc.rank
  incremented : ∀ i, Action.increment i ∈ acts ↔
    env.progress = true ∧ ∃ pc, s.pcs[i]? = some pc ∧ 6 ≤ pc.rank
  emitted : ∀ i, Action.emit i ∈ acts ↔
    env.progress = true ∧ ∃ pc, s.pcs[i]? = some pc ∧ 7 ≤ pc.rank
  released : ∀ i, Action.release i ∈ acts ↔
    True ∧ ∃ pc, s.pcs[i]? = some pc ∧ 9 ≤ pc.rank

/-- The tasks in the order in which they sent their result on `resultsChan`. -/
def sendOrder (acts : List Action) : List Nat :=
  acts.filterMap (fun a => match a with
    | .send i => some i
    | _ => none)

/-- The tasks in the order in which they incremented `current`. -/
def incrementOrder (acts : List Action) : List Nat :=
  acts.filterMap (fun a => match a with
    | .increment i => some i
    | _ => none)

/-- The tasks in the order in which they sent their event on `progress`. -/
def emitOrder (acts : List Action) : List Nat :=
  acts.filterMap (fun a => match a with
    | .emit i => some i
    | _ => none)

/-- How the data that a call of `Run` has published are related to its schedule: the
events sent, the counter, and the results sent. -/
structure Logged (b : Benchmark) (env : RunEnv) (acts : List Action) (s : RunState) :
    Prop where
  log : s.progress = (emitOrder acts).mapIdx (fun k i => taskEvent b i (k + 1))
  counter : s.current = (emitOrder acts).length + s.pcs.countP atEmit
  pending : ∀ j, s.pcs[j]? = some .emit → incrementOrder acts = emitOrder acts ++ [j]
  settled : s.pcs.countP atEmit = 0 → incrementOrder acts = emitOrder acts
  queue : s.results ++ s.resultsChan = (sendOrder acts).map (taskResult b env)

/-- The number of statements that a task has ahead of it. -/
def TaskPC.left (pc : TaskPC) : Nat :=
  10 - pc.rank

/-- A bound on the number of steps that a call of `Run` can still take: twice the
number of statements that its tasks have ahead of them, plus the number of results
waiting in `resultsChan`, plus the steps left to the closing goroutine and to the
caller besides receiving. -/
def stepsLeft (s : RunState) : Nat :=
  2 * (s.pcs.map TaskPC.left).sum + s.resultsChan.length +
    (match s.closer with
      | .unstarted => 2
      | .wait => 2
      | .close => 1
      | .exited => 0) +
    (match s.main with
      | .dispatch => 2
      | .collect => 1
      | .returned => 0)

/-- A benchmark of two resolvers, the first with one IPv4 address, the second with an
IPv4 and an IPv6 address, and one query per address: two tasks without IPv6, three
with. -/
def poolBenchmark (concurrency : Int) (includeIPv6 : Bool) : Benchmark :=
  { config :=
      { Iterations := 1, Concurrency := concurrency, IncludeIPv6 := includeIPv6,
        Domains := ["example.com"] }
    resolvers :=
      [ { Name := "alpha", IPv4 := ["192.0.2.1"] },
        { Name := "beta", IPv4 := ["192.0.2.2"], IPv6 := ["2001:db8::2"] } ] }

/-- The two-task benchmark with two slots as `--iterations -1` configures it. -/
def negativeBenchmark : Benchmark :=
  { config :=
      { Iterations := -1, Concurrency := 2, IncludeIPv6 := false,
        Domains := ["example.com"] }
    resolvers :=
      [ { Name := "alpha", IPv4 := ["192.0.2.1"] },
        { Name := "beta", IPv4 := ["192.0.2.2"], IPv6 := ["2001:db8::2"] } ] }

/-- An environment in which task 0 is answered in 7 ms and every other task gets an
error; a progress channel is passed or not. -/
def poolEnv (progress : Bool) : RunEnv :=
  { F := binary64
    worlds := fun i => if i = 0 then flakyWorld else unreachableWorld
    progress := progress }

/-- A schedule of the two-task benchmark with two slots in which task 0 is the first to
leave its probe, to publish its result and to end, and the last to take the mutex. -/
def overlapSchedule : List Action :=
  [.dispatch, .dispatch, .startCloser, .acquire 0, .acquire 1, .probe 0, .send 0,
    .probe 1, .send 1, .lock 1, .increment 1, .emit 1, .unlock 1, .lock 0, .increment 0,
    .emit 0, .unlock 0, .release 0, .wgDone 0, .release 1, .wgDone 1, .waited, .close,
    .receive, .receive, .ret]

/-- A schedule of the two-task benchmark with one slot: the tasks run one after the
other, task 1 first. -/
def serialSchedule : List Action :=
  [.dispatch, .dispatch, .startCloser, .acquire 1, .probe 1, .send 1, .receive, .lock 1,
    .increment 1, .emit 1, .unlock 1, .release 1, .acquire 0, .wgDone 1, .probe 0,
    .send 0, .lock 0, .increment 0, .emit 0, .unlock 0, .release 0, .wgDone 0, .waited,
    .close, .receive, .ret]

/-- The state that a schedule leads to (the empty state if it is no schedule of the
call). -/
def stateAfter (b : Benchmark) (env : RunEnv) (acts : List Action) : RunState :=
  match initial b with
  | none => {}
  | some s0 => (exec b env acts s0).getD {}

/-- A schedule of the three-task benchmark (IPv6 included) with two slots and no
progress channel; the results arrive in the order task 1, task 0, task 2. -/
def threeTaskSchedule : List Action :=
  [.dispatch, .dispatch, .dispatch, .startCloser, .acquire 0, .acquire 1, .probe 1,
    .send 1, .release 1, .wgDone 1, .acquire 2, .probe 0, .send 0, .probe 2, .send 2,
    .receive, .release 0, .release 2, .wgDone 2, .wgDone 0, .waited, .close, .receive,
    .receive, .ret]

/-! ## Properties of the arithmetic -/

theorem wrap64_of_isInt64 {x : Int} (h : isInt64 x) : wrap64 x = x := by
  unfold isInt64 minInt64 maxInt64 at h
  unfold wrap64
  omega

theorem FloatModel.Lawful.rnd_zero {F : FloatModel} (hF : F.Lawful) : F.rnd 0 = 0 := by
  have h := hF.rnd_err 0
  simpa using h

theorem log2Fuel_spec : ∀ fuel n : Nat, n ≤ fuel → 0 < n →
    2 ^ log2Fuel fuel n ≤ n ∧ n < 2 ^ (log2Fuel fuel n + 1) := by
  intro fuel
  induction fuel with
  | zero => intro n h1 h2; omega
  | succ k ih =>
    intro n h1 h2
    unfold log2Fuel
    by_cases hn : n < 2
    · simp only [hn, if_true]
      constructor
      · simpa using h2
      · simpa using hn
    · simp only [hn, if_false]
      obtain ⟨ha, hb⟩ := ih (n / 2) (by omega) (by omega)
      simp only [pow_succ] at hb ⊢
      generalize 2 ^ log2Fuel k (n / 2) = t at ha hb ⊢
      omega

theorem natLog2_spec (n : Nat) (h : 0 < n) :
    2 ^ natLog2 n ≤ n ∧ n < 2 ^ (natLog2 n + 1) :=
  log2Fuel_spec n n le_rfl h

theorem ratLog2_spec (a : ℚ) (ha : 0 < a) :
    (2 : ℚ) ^ ratLog2 a ≤ a ∧ a < (2 : ℚ) ^ (ratLog2 a + 1) := by
  have hnum : 0 < a.num := Rat.num_pos.mpr ha
  obtain ⟨hx1, hx2⟩ := natLog2_spec a.num.natAbs (Int.natAbs_pos.mpr hnum.ne')
  obtain ⟨hy1, hy2⟩ := natLog2_spec a.den a.den_pos
  set x := natLog2 a.num.natAbs with hx
  set y := natLog2 a.den with hy
  have hN : ((a.num.natAbs : ℕ) : ℚ) = (a.num : ℚ) := by
    have h : ((a.num.natAbs : ℕ) : ℤ) = a.num := Int.natAbs_of_nonneg hnum.le
    rw [← Int.cast_natCast, h]
  have hD : (0 : ℚ) < (a.den : ℚ) := by exact_mod_cast a.den_pos
  have ha_eq : a = (a.num.natAbs : ℚ) / (a.den : ℚ) := by
    rw [hN]; exact (Rat.num_div_den a).symm
  have hx1q : (2 : ℚ) ^ x ≤ (a.num.natAbs : ℚ) := by exact_mod_cast hx1
  have hx2q : (a.num.natAbs : ℚ) < (2 : ℚ) ^ (x + 1) := by exact_mod_cast hx2
  have hy1q : (2 : ℚ) ^ y ≤ (a.den : ℚ) := by exact_mod_cast hy1
  have hy2q : (a.den : ℚ) < (2 : ℚ) ^ (y + 1) := by exact_mod_cast hy2
  have h2y : (0 : ℚ) < (2 : ℚ) ^ y := by positivity
  have h2x : (0 : ℚ) < (2 : ℚ) ^ x := by positivity
  have e0 : (2 : ℚ) ^ ((x : ℤ) - (y : ℤ)) = (2 : ℚ) ^ x / (2 : ℚ) ^ y := by
    rw [zpow_sub₀ (by norm_num : (2 : ℚ) ≠ 0), zpow_natCast, zpow_natCast]
  have e1 : (2 : ℚ) ^ ((x : ℤ) - (y : ℤ) - 1) = (2 : ℚ) ^ x / (2 : ℚ) ^ (y + 1) := by
    rw [zpow_sub₀ (by norm_num : (2 : ℚ) ≠ 0), e0, zpow_one, pow_succ, div_div]
  have e2 : (2 : ℚ) ^ ((x : ℤ) - (y : ℤ) + 1) = (2 : ℚ) ^ (x + 1) / (2 : ℚ) ^ y := by
    rw [zpow_add₀ (by norm_num : (2 : ℚ) ≠ 0), e0, zpow_one, pow_succ]; ring
  have lo : (2 : ℚ) ^ ((x : ℤ) - (y : ℤ) - 1) ≤ a := by
    rw [e1, ha_eq, div_le_div_iff₀ (by positivity) hD]
    calc (2 : ℚ) ^ x * (a.den : ℚ) ≤ (a.num.natAbs : ℚ) * (a.den : ℚ) :=
          mul_le_mul_of_nonneg_right hx1q hD.le
      _ ≤ (a.num.natAbs : ℚ) * (2 : ℚ) ^ (y + 1) :=
          mul_le_mul_of_nonneg_left hy2q.le (by positivity)
  have hi : a < (2 : ℚ) ^ ((x : ℤ) - (y : ℤ) + 1) := by
    rw [e2]
    nth_rewrite 1 [ha_eq]
    rw [div_lt_div_iff₀ hD h2y]
    calc (a.num.natAbs : ℚ) * (2 : ℚ) ^ y < (2 : ℚ) ^ (x + 1) * (2 : ℚ) ^ y :=
          mul_lt_mul_of_pos_right hx2q h2y
      _ ≤ (2 : ℚ) ^ (x + 1) * (a.den : ℚ) :=
          mul_le_mul_of_nonneg_left hy1q (by positivity)
  unfold ratLog2
  simp only [← hx, ← hy]
  split_ifs with hlt
  · refine ⟨lo, ?_⟩
    simpa using hlt
  · exact ⟨not_lt.mp hlt, hi⟩

theorem sign_mul_abs (q : ℚ) : (if q < 0 then (-1 : ℚ) else 1) * |q| = q := by
  split_ifs with h
  · rw [abs_of_neg h]; ring
  · rw [abs_of_nonneg (not_lt.mp h)]; ring

theorem abs_sign (q : ℚ) : |(if q < 0 then (-1 : ℚ) else 1)| = 1 := by
  split_ifs <;> simp

theorem round_candidate_err (q ulp m : ℚ) (n e : ℤ) (hulp : ulp = (2 : ℚ) ^ (e - 52))
    (hmul : m * ulp = |q|) (he : (2 : ℚ) ^ e ≤ |q|) (hn : |(n : ℚ) - m| ≤ 1 / 2) :
    |(if q < 0 then (-1 : ℚ) else 1) * ((n : ℚ) * ulp) - q| ≤ |q| / 2 ^ 53 := by
  have hup : 0 < ulp := by rw [hulp]; positivity
  have e1 : (if q < 0 then (-1 : ℚ) else 1) * ((n : ℚ) * ulp) - q =
      (if q < 0 then (-1 : ℚ) else 1) * (((n : ℚ) - m) * ulp) := by
    have hs := sign_mul_abs q
    rw [← hmul] at hs
    linear_combination hs
  rw [e1, abs_mul, abs_sign, one_mul, abs_mul, abs_of_pos hup]
  have e2 : ulp = (2 : ℚ) ^ e / 2 ^ 52 := by
    rw [hulp, zpow_sub₀ (by norm_num : (2 : ℚ) ≠ 0)]; norm_num
  calc |(n : ℚ) - m| * ulp ≤ 1 / 2 * ulp := mul_le_mul_of_nonneg_right hn hup.le
    _ = (2 : ℚ) ^ e / 2 ^ 53 := by rw [e2]; ring
    _ ≤ |q| / 2 ^ 53 := div_le_div_of_nonneg_right he (by positivity)

theorem roundNearestEven_err (q : ℚ) : |roundNearestEven q - q| ≤ |q| / 2 ^ 53 := by
  by_cases hq : q = 0
  · simp [roundNearestEven, hq]
  have ha : 0 < |q| := abs_pos.mpr hq
  obtain ⟨he1, -⟩ := ratLog2_spec |q| ha
  unfold roundNearestEven
  simp only [hq, if_false]
  have hup : (0 : ℚ) < (2 : ℚ) ^ (ratLog2 |q| - 52) := by positivity
  have hmul : |q| / (2 : ℚ) ^ (ratLog2 |q| - 52) * (2 : ℚ) ^ (ratLog2 |q| - 52) = |q| :=
    div_mul_cancel₀ _ hup.ne'
  generalize |q| / (2 : ℚ) ^ (ratLog2 |q| - 52) = m at hmul ⊢
  have hr0 : 0 ≤ m - (⌊m⌋ : ℚ) := sub_nonneg.mpr (Int.floor_le m)
  have hr1 : m - (⌊m⌋ : ℚ) < 1 := by
    have := Int.lt_floor_add_one m
    linarith
  apply round_candidate_err q _ m _ (ratLog2 |q|) rfl hmul he1
  split_ifs with h1 h2 h3
  · rw [abs_le]; constructor <;> linarith
  · rw [abs_le]; push_cast; constructor <;> linarith
  · rw [abs_le]; constructor <;> linarith
  · rw [abs_le]; push_cast; constructor <;> linarith

theorem roundNearestEven_of_int_mantissa (q : ℚ) (k : ℤ)
    (h : |q| / (2 : ℚ) ^ (ratLog2 |q| - 52) = (k : ℚ)) : roundNearestEven q = q := by
  by_cases hq : q = 0
  · simp [roundNearestEven, hq]
  unfold roundNearestEven
  simp only [hq, if_false, h, Int.floor_intCast, sub_self]
  have hup : (0 : ℚ) < (2 : ℚ) ^ (ratLog2 |q| - 52) := by positivity
  have hmul : (k : ℚ) * (2 : ℚ) ^ (ratLog2 |q| - 52) = |q| := by
    rw [← h]; exact div_mul_cancel₀ _ hup.ne'
  have h12 : (0 : ℚ) < 1 / 2 := by norm_num
  simp only [h12, if_true]
  rw [hmul]
  exact sign_mul_abs q

theorem roundNearestEven_int (z : ℤ) (hz : |z| ≤ 2 ^ 53) : roundNearestEven (z : ℚ) = (z : ℚ) := by
  by_cases hz0 : z = 0
  · simp [roundNearestEven, hz0]
  have hq : (z : ℚ) ≠ 0 := by exact_mod_cast hz0
  have ha : 0 < |(z : ℚ)| := abs_pos.mpr hq
  obtain ⟨he1, he2⟩ := ratLog2_spec |(z : ℚ)| ha
  set e := ratLog2 |(z : ℚ)| with he
  have habs : |(z : ℚ)| = ((|z| : ℤ) : ℚ) := by push_cast; rfl
  have h1 : (1 : ℚ) ≤ |(z : ℚ)| := by
    rw [habs]
    have : (1 : ℤ) ≤ |z| := Int.one_le_abs hz0
    exact_mod_cast this
  have hle : |(z : ℚ)| ≤ (2 : ℚ) ^ (53 : ℤ) := by
    rw [habs]
    have : ((|z| : ℤ) : ℚ) ≤ ((2 ^ 53 : ℤ) : ℚ) := by exact_mod_cast hz
    rw [show ((2 : ℚ) ^ (53 : ℤ)) = ((2 ^ 53 : ℤ) : ℚ) by norm_num]
    exact this
  have he_nonneg : 0 ≤ e := by
    have : (2 : ℚ) ^ (0 : ℤ) < (2 : ℚ) ^ (e + 1) := by
      simpa using lt_of_le_of_lt h1 he2
    have := (zpow_lt_zpow_iff_right₀ (by norm_num : (1 : ℚ) < 2)).mp this
    omega
  have he_le : e ≤ 53 :=
    (zpow_le_zpow_iff_right₀ (by norm_num : (1 : ℚ) < 2)).mp (le_trans he1 hle)
  by_cases h53 : e = 53
  · have hval : |(z : ℚ)| = (2 : ℚ) ^ (53 : ℤ) := le_antisymm hle (by rw [← h53]; exact he1)
    apply roundNearestEven_of_int_mantissa _ (2 ^ 52)
    rw [← he, h53, hval]
    norm_num
  · have hk : e ≤ 52 := by omega
    obtain ⟨j, hj⟩ : ∃ j : ℕ, (j : ℤ) = 52 - e := ⟨(52 - e).toNat, by omega⟩
    apply roundNearestEven_of_int_mantissa _ (|z| * 2 ^ j)
    rw [← he, habs]
    have : e - 52 = -(j : ℤ) := by omega
    rw [this, zpow_neg, zpow_natCast]
    push_cast
    rw [div_inv_eq_mul]

/-- IEEE 754 binary64 satisfies the standard model. -/
theorem binary64_lawful : binary64.Lawful where
  rnd_err := roundNearestEven_err
  rnd_int := roundNearestEven_int
  sqrt_zero := by decide!

theorem exactArith_lawful : exactArith.Lawful where
  rnd_err := fun q => by
    simp only [exactArith, id, sub_self, abs_zero]
    positivity
  rnd_int := fun _ _ => rfl
  sqrt_zero := by decide!

theorem FloatModel.Lawful.rnd_nonneg {F : FloatModel} (hF : F.Lawful) {q : ℚ}
    (h : 0 ≤ q) : 0 ≤ F.rnd q := by
  have h1 := hF.rnd_err q
  rw [abs_of_nonneg h, abs_le] at h1
  have h2 : q / 2 ^ 53 ≤ q := div_le_self h (by norm_num)
  linarith [h1.1]

theorem FloatModel.Lawful.rnd_abs_le {F : FloatModel} (hF : F.Lawful) (q : ℚ) :
    |F.rnd q| ≤ |q| * (1 + 1 / 2 ^ 53) := by
  have h1 := hF.rnd_err q
  have h2 : |F.rnd q| ≤ |F.rnd q - q| + |q| := by
    have := abs_add (F.rnd q - q) q
    simpa using this
  have h3 : |q| * (1 + 1 / 2 ^ 53) = |q| / 2 ^ 53 + |q| := by ring
  rw [h3]
  linarith

theorem FloatModel.Lawful.rnd_natCast {F : FloatModel} (hF : F.Lawful) (n : Nat)
    (h : n ≤ 2 ^ 53) : F.rnd (n : ℚ) = (n : ℚ) := by
  have h1 := hF.rnd_int (n : Int) (by
    rw [abs_of_nonneg (Int.natCast_nonneg n)]
    exact_mod_cast h)
  simpa using h1

theorem truncQ_of_nonneg {q : ℚ} (h : 0 ≤ q) : truncQ q = ⌊q⌋ := by
  unfold truncQ
  rw [Rat.floor_def, Int.tdiv_eq_ediv (Rat.num_nonneg.mpr h) (Int.natCast_nonneg _)]

theorem truncQ_neg (q : ℚ) : truncQ (-q) = -truncQ q := by
  unfold truncQ
  simp [Int.neg_tdiv]

theorem truncQ_abs_le (q : ℚ) : |(truncQ q : ℚ)| ≤ |q| := by
  rcases le_total 0 q with h | h
  · rw [truncQ_of_nonneg h, abs_of_nonneg h,
      abs_of_nonneg (by exact_mod_cast Int.floor_nonneg.mpr h)]
    exact Int.floor_le q
  · have h2 : 0 ≤ -q := neg_nonneg.mpr h
    have h3 : truncQ q = -truncQ (-q) := by rw [truncQ_neg, neg_neg]
    rw [h3, truncQ_of_nonneg h2, abs_of_nonpos h]
    push_cast
    rw [abs_neg, abs_of_nonneg (by exact_mod_cast Int.floor_nonneg.mpr h2)]
    exact Int.floor_le (-q)

theorem truncQ_zero : truncQ 0 = 0 := by decide!

theorem toInt64_of_abs_le {q : ℚ} (h : |q| ≤ 2 ^ 62) : toInt64 q = truncQ q := by
  have h1 := le_trans (truncQ_abs_le q) h
  have h2 : |truncQ q| ≤ 2 ^ 62 := by exact_mod_cast h1
  rw [abs_le] at h2
  unfold toInt64
  rw [if_pos]
  unfold isInt64 minInt64 maxInt64
  constructor <;> omega

theorem at_natCast (s : List Duration) (k : Nat) : at_ s (k : Int) = s.getD k 0 := by
  simp [at_]

theorem getD_bounds (s : List Int) (b : Int) (hb : 0 ≤ b)
    (hs : ∀ x ∈ s, 0 ≤ x ∧ x ≤ b) (k : Nat) : 0 ≤ s.getD k 0 ∧ s.getD k 0 ≤ b := by
  by_cases hk : k < s.length
  · rw [List.getD_eq_getElem _ _ hk]
    exact hs _ (List.getElem_mem hk)
  · rw [List.getD_eq_default _ _ (by omega)]
    exact ⟨le_rfl, hb⟩

/-- Within the stated bounds no conversion of `percentile` overflows and no `int64`
operation wraps: the function computes the interpolation rule, in the arithmetic `F`
and with the interpolation term cut to whole nanoseconds. -/
theorem percentile_eq_interpolate (F : FloatModel) (hF : F.Lawful) (s : List Int)
    (p : ℚ) (hn : 2 ≤ s.length) (hlen : s.length ≤ 2 ^ 52) (hp0 : 0 ≤ p) (hp1 : p ≤ 100)
    (hs : ∀ x ∈ s, 0 ≤ x ∧ x ≤ 2 ^ 61) : percentile F s p = interpolate F s p := by
  have hn0 : s.length ≠ 0 := by omega
  have hn1 : s.length ≠ 1 := by omega
  have hu : (0 : ℚ) ≤ 1 + 1 / 2 ^ 53 := by norm_num
  -- the conversion of `n - 1` is exact
  have hcast : ((((s.length : Int) - 1 : Int)) : ℚ) = (((s.length - 1 : Nat)) : ℚ) := by
    have : ((s.length - 1 : Nat) : Int) = (s.length : Int) - 1 := by omega
    rw [← this]; simp
  have hB : F.rnd ((((s.length : Int) - 1 : Int)) : ℚ) = (s.length : ℚ) - 1 := by
    rw [hcast, hF.rnd_natCast _ (by
      have : (2 : Nat) ^ 52 ≤ 2 ^ 53 := by norm_num
      omega)]
    rw [Nat.cast_sub (by omega)]; simp
  have hB' : F.rnd ((s.length : ℚ) - 1) = (s.length : ℚ) - 1 := by
    have : ((((s.length : Int) - 1 : Int)) : ℚ) = (s.length : ℚ) - 1 := by push_cast; ring
    rw [← this]
    rw [this] at hB ⊢
    exact hB
  have hlenq : (s.length : ℚ) - 1 ≤ 2 ^ 52 := by
    have : (s.length : ℚ) ≤ ((2 ^ 52 : Nat) : ℚ) := by exact_mod_cast hlen
    have h2 : ((2 ^ 52 : Nat) : ℚ) = 2 ^ 52 := by norm_num
    linarith
  have hlen0 : (0 : ℚ) ≤ (s.length : ℚ) - 1 := by
    have : (2 : ℚ) ≤ (s.length : ℚ) := by exact_mod_cast hn
    linarith
  -- the fractional rank
  have hA0 : 0 ≤ F.rnd (p / 100) := hF.rnd_nonneg (div_nonneg hp0 (by norm_num))
  have hA1 : F.rnd (p / 100) ≤ 1 + 1 / 2 ^ 53 := by
    have h1 := hF.rnd_abs_le (p / 100)
    rw [abs_of_nonneg hA0, abs_of_nonneg (div_nonneg hp0 (by norm_num))] at h1
    have h2 : p / 100 ≤ 1 := by rw [div_le_one (by norm_num)]; exact hp1
    calc F.rnd (p / 100) ≤ p / 100 * (1 + 1 / 2 ^ 53) := h1
      _ ≤ 1 * (1 + 1 / 2 ^ 53) := mul_le_mul_of_nonneg_right h2 hu
      _ = 1 + 1 / 2 ^ 53 := one_mul _
  have hprod0 : 0 ≤ F.rnd (p / 100) * ((s.length : ℚ) - 1) := mul_nonneg hA0 hlen0
  have hr0 : 0 ≤ F.rnd (F.rnd (p / 100) * ((s.length : ℚ) - 1)) := hF.rnd_nonneg hprod0
  have hr1 : F.rnd (F.rnd (p / 100) * ((s.length : ℚ) - 1)) ≤ 2 ^ 53 := by
    have h1 := hF.rnd_abs_le (F.rnd (p / 100) * ((s.length : ℚ) - 1))
    rw [abs_of_nonneg hr0, abs_of_nonneg hprod0] at h1
    calc F.rnd (F.rnd (p / 100) * ((s.length : ℚ) - 1))
        ≤ F.rnd (p / 100) * ((s.length : ℚ) - 1) * (1 + 1 / 2 ^ 53) := h1
      _ ≤ (1 + 1 / 2 ^ 53) * 2 ^ 52 * (1 + 1 / 2 ^ 53) := by
          apply mul_le_mul_of_nonneg_right _ hu
          exact mul_le_mul hA1 hlenq hlen0 hu
      _ ≤ 2 ^ 53 := by norm_num
  generalize hr : F.rnd (F.rnd (p / 100) * ((s.length : ℚ) - 1)) = r at hr0 hr1
  -- its integer part
  have hfl : (⌊r⌋₊ : ℚ) ≤ r := Nat.floor_le hr0
  have hfl2 : r < (⌊r⌋₊ : ℚ) + 1 := Nat.lt_floor_add_one r
  have hlo53 : ⌊r⌋₊ ≤ 2 ^ 53 := by
    apply Nat.floor_le_of_le
    exact_mod_cast hr1
  have hlower : toInt64 r = ((⌊r⌋₊ : Nat) : Int) := by
    rw [toInt64_of_abs_le (by rw [abs_of_nonneg hr0]; linarith [show (2 : ℚ) ^ 53 ≤ 2 ^ 62 by norm_num]),
      truncQ_of_nonneg hr0, Int.natCast_floor_eq_floor hr0]
  have hrl : F.rnd (⌊r⌋₊ : ℚ) = (⌊r⌋₊ : ℚ) := hF.rnd_natCast _ hlo53
  generalize hlo : ⌊r⌋₊ = lo at hfl hfl2 hlo53 hlower hrl
  -- the fraction
  have hx0 : 0 ≤ r - (lo : ℚ) := by linarith
  have hx1 : r - (lo : ℚ) ≤ 1 := by linarith
  have hfr : |F.rnd (r - (lo : ℚ))| ≤ 1 + 1 / 2 ^ 53 := by
    have h1 := hF.rnd_abs_le (r - (lo : ℚ))
    rw [abs_of_nonneg hx0] at h1
    calc |F.rnd (r - (lo : ℚ))| ≤ (r - (lo : ℚ)) * (1 + 1 / 2 ^ 53) := h1
      _ ≤ 1 * (1 + 1 / 2 ^ 53) := mul_le_mul_of_nonneg_right hx1 hu
      _ = 1 + 1 / 2 ^ 53 := one_mul _
  -- the upper index
  have hupper : (if ((lo : Int) + 1 ≥ (s.length : Int)) then (s.length : Int) - 1
      else (lo : Int) + 1) = ((min (lo + 1) (s.length - 1) : Nat) : Int) := by
    split_ifs with h
    · rw [Nat.min_eq_right (by omega)]; omega
    · rw [Nat.min_eq_left (by omega)]; omega
  generalize hhi : min (lo + 1) (s.length - 1) = hi at hupper
  -- the two order statistics and their difference
  obtain ⟨ha0, ha1⟩ := getD_bounds s (2 ^ 61) (by norm_num) hs lo
  obtain ⟨hb0, hb1⟩ := getD_bounds s (2 ^ 61) (by norm_num) hs hi
  have hdiff : wrap64 (s.getD hi 0 - s.getD lo 0) = s.getD hi 0 - s.getD lo 0 := by
    apply wrap64_of_isInt64
    unfold isInt64 minInt64 maxInt64
    constructor <;> omega
  have hdq : |((s.getD hi 0 : ℚ) - (s.getD lo 0 : ℚ))| ≤ 2 ^ 61 := by
    have h1 : |s.getD hi 0 - s.getD lo 0| ≤ 2 ^ 61 := by rw [abs_le]; constructor <;> omega
    have h2 : ((|s.getD hi 0 - s.getD lo 0| : Int) : ℚ) ≤ ((2 ^ 61 : Int) : ℚ) := by
      exact_mod_cast h1
    simpa using h2
  have hD : |F.rnd ((s.getD hi 0 : ℚ) - (s.getD lo 0 : ℚ))| ≤ 2 ^ 61 * (1 + 1 / 2 ^ 53) :=
    le_trans (hF.rnd_abs_le _) (mul_le_mul_of_nonneg_right hdq hu)
  have hT : |F.rnd (F.rnd (r - (lo : ℚ)) *
      F.rnd ((s.getD hi 0 : ℚ) - (s.getD lo 0 : ℚ)))| ≤ 2 ^ 62 := by
    calc |F.rnd (F.rnd (r - (lo : ℚ)) * F.rnd ((s.getD hi 0 : ℚ) - (s.getD lo 0 : ℚ)))|
        ≤ |F.rnd (r - (lo : ℚ)) * F.rnd ((s.getD hi 0 : ℚ) - (s.getD lo 0 : ℚ))| *
            (1 + 1 / 2 ^ 53) := hF.rnd_abs_le _
      _ = |F.rnd (r - (lo : ℚ))| * |F.rnd ((s.getD hi 0 : ℚ) - (s.getD lo 0 : ℚ))| *
            (1 + 1 / 2 ^ 53) := by rw [abs_mul]
      _ ≤ (1 + 1 / 2 ^ 53) * (2 ^ 61 * (1 + 1 / 2 ^ 53)) * (1 + 1 / 2 ^ 53) := by
          apply mul_le_mul_of_nonneg_right _ hu
          exact mul_le_mul hfr hD (abs_nonneg _) hu
      _ ≤ 2 ^ 62 := by norm_num
  have htq : |truncQ (F.rnd (F.rnd (r - (lo : ℚ)) *
      F.rnd ((s.getD hi 0 : ℚ) - (s.getD lo 0 : ℚ))))| ≤ 2 ^ 62 := by
    have h1 := le_trans (truncQ_abs_le _) hT
    exact_mod_cast h1
  have hsum : wrap64 (s.getD lo 0 + truncQ (F.rnd (F.rnd (r - (lo : ℚ)) *
      F.rnd ((s.getD hi 0 : ℚ) - (s.getD lo 0 : ℚ))))) =
      s.getD lo 0 + truncQ (F.rnd (F.rnd (r - (lo : ℚ)) *
        F.rnd ((s.getD hi 0 : ℚ) - (s.getD lo 0 : ℚ)))) := by
    apply wrap64_of_isInt64
    rw [abs_le] at htq
    unfold isInt64 minInt64 maxInt64
    constructor <;> omega
  unfold percentile interpolate
  simp only [hn0, hn1, if_false, hB, hB', hr, hlo, hhi, hlower, hupper, at_natCast, hdiff]
  simp only [Int.cast_natCast, Int.cast_sub, hrl]
  rw [toInt64_of_abs_le hT, hsum]

/-- The rank computed by `percentile` for `0 ≤ p ≤ 100` lies in `[0, n)`, so the
index `lower` is in range, and so is `upper` after its clamp. -/
theorem percentile_index_in_range (F : FloatModel) (hF : F.Lawful) (s : List Int) (p : ℚ)
    (hn : 2 ≤ s.length) (hlen : s.length ≤ 2 ^ 52) (hp0 : 0 ≤ p) (hp1 : p ≤ 100) :
    0 ≤ toInt64 (F.rnd (F.rnd (p / 100) * F.rnd ((((s.length : Int) - 1 : Int)) : ℚ))) ∧
      toInt64 (F.rnd (F.rnd (p / 100) * F.rnd ((((s.length : Int) - 1 : Int)) : ℚ))) <
        (s.length : Int) := by
  have hu : (0 : ℚ) ≤ 1 + 1 / 2 ^ 53 := by norm_num
  have hcast : ((((s.length : Int) - 1 : Int)) : ℚ) = (((s.length - 1 : Nat)) : ℚ) := by
    have : ((s.length - 1 : Nat) : Int) = (s.length : Int) - 1 := by omega
    rw [← this]; simp
  have hB : F.rnd ((((s.length : Int) - 1 : Int)) : ℚ) = (s.length : ℚ) - 1 := by
    rw [hcast, hF.rnd_natCast _ (by
      have : (2 : Nat) ^ 52 ≤ 2 ^ 53 := by norm_num
      omega)]
    rw [Nat.cast_sub (by omega)]; simp
  have hlenq : (s.length : ℚ) - 1 ≤ 2 ^ 52 - 1 := by
    have : (s.length : ℚ) ≤ ((2 ^ 52 : Nat) : ℚ) := by exact_mod_cast hlen
    have h2 : ((2 ^ 52 : Nat) : ℚ) = 2 ^ 52 := by norm_num
    linarith
  have hlen0 : (0 : ℚ) ≤ (s.length : ℚ) - 1 := by
    have : (2 : ℚ) ≤ (s.length : ℚ) := by exact_mod_cast hn
    linarith
  have hA0 : 0 ≤ F.rnd (p / 100) := hF.rnd_nonneg (div_nonneg hp0 (by norm_num))
  have hA1 : F.rnd (p / 100) ≤ 1 + 1 / 2 ^ 53 := by
    have h1 := hF.rnd_abs_le (p / 100)
    rw [abs_of_nonneg hA0, abs_of_nonneg (div_nonneg hp0 (by norm_num))] at h1
    have h2 : p / 100 ≤ 1 := by rw [div_le_one (by norm_num)]; exact hp1
    calc F.rnd (p / 100) ≤ p / 100 * (1 + 1 / 2 ^ 53) := h1
      _ ≤ 1 * (1 + 1 / 2 ^ 53) := mul_le_mul_of_nonneg_right h2 hu
      _ = 1 + 1 / 2 ^ 53 := one_mul _
  have hprod0 : 0 ≤ F.rnd (p / 100) * ((s.length : ℚ) - 1) := mul_nonneg hA0 hlen0
  have hr0 : 0 ≤ F.rnd (F.rnd (p / 100) * ((s.length : ℚ) - 1)) := hF.rnd_nonneg hprod0
  have hr1 : F.rnd (F.rnd (p / 100) * ((s.length : ℚ) - 1)) < (s.length : ℚ) := by
    have h1 := hF.rnd_abs_le (F.rnd (p / 100) * ((s.length : ℚ) - 1))
    rw [abs_of_nonneg hr0, abs_of_nonneg hprod0] at h1
    have h2 : F.rnd (p / 100) * ((s.length : ℚ) - 1) * (1 + 1 / 2 ^ 53) ≤
        (1 + 1 / 2 ^ 53) * ((s.length : ℚ) - 1) * (1 + 1 / 2 ^ 53) :=
      mul_le_mul_of_nonneg_right (mul_le_mul_of_nonneg_right hA1 hlen0) hu
    have h3 : (1 + 1 / 2 ^ 53) * ((s.length : ℚ) - 1) * (1 + 1 / 2 ^ 53) =
        ((s.length : ℚ) - 1) + (2 / 2 ^ 53 + 1 / 2 ^ 106) * ((s.length : ℚ) - 1) := by ring
    have h4 : (2 / 2 ^ 53 + 1 / 2 ^ 106) * ((s.length : ℚ) - 1) ≤
        (2 / 2 ^ 53 + 1 / 2 ^ 106) * (2 ^ 52 - 1) :=
      mul_le_mul_of_nonneg_left hlenq (by norm_num)
    have h5 : (2 / 2 ^ 53 + 1 / 2 ^ 106 : ℚ) * (2 ^ 52 - 1) < 1 := by norm_num
    linarith
  rw [hB]
  generalize F.rnd (F.rnd (p / 100) * ((s.length : ℚ) - 1)) = r at hr0 hr1
  have hr2 : r ≤ 2 ^ 62 := by
    have : (s.length : ℚ) ≤ ((2 ^ 52 : Nat) : ℚ) := by exact_mod_cast hlen
    have h2 : ((2 ^ 52 : Nat) : ℚ) = 2 ^ 52 := by norm_num
    have h3 : (2 : ℚ) ^ 52 ≤ 2 ^ 62 := by norm_num
    linarith
  rw [toInt64_of_abs_le (by rw [abs_of_nonneg hr0]; exact hr2), truncQ_of_nonneg hr0]
  constructor
  · exact Int.floor_nonneg.mpr hr0
  · rw [Int.floor_lt]
    exact_mod_cast hr1

theorem sqrtLoop_spec (n : Nat) :
    ∀ k r : Nat, r * r ≤ n → n < (r + 2 ^ k) * (r + 2 ^ k) →
      sqrtLoop k n r * sqrtLoop k n r ≤ n ∧
        n < (sqrtLoop k n r + 1) * (sqrtLoop k n r + 1) := by
  intro k
  induction k with
  | zero => intro r h1 h2; simpa [sqrtLoop] using ⟨h1, h2⟩
  | succ k ih =>
    intro r h1 h2
    unfold sqrtLoop
    split_ifs with hc
    · apply ih _ hc
      have : r + 2 ^ k + 2 ^ k = r + 2 ^ (k + 1) := by rw [pow_succ]; ring
      rw [this]; exact h2
    · exact ih _ h1 (not_le.mp hc)

/-- The bit-by-bit square root is the integer square root. -/
theorem natSqrt_eq (n : Nat) : natSqrt n = Nat.sqrt n := by
  have hb : n < (0 + 2 ^ (natLog2 n / 2 + 1)) * (0 + 2 ^ (natLog2 n / 2 + 1)) := by
    rw [Nat.zero_add, ← pow_add]
    rcases Nat.eq_zero_or_pos n with h0 | hpos
    · rw [h0]; positivity
    · have h1 := (natLog2_spec n hpos).2
      have h2 : natLog2 n + 1 ≤ natLog2 n / 2 + 1 + (natLog2 n / 2 + 1) := by omega
      exact lt_of_lt_of_le h1 (Nat.pow_le_pow_right (by norm_num) h2)
  have h := sqrtLoop_spec n (natLog2 n / 2 + 1) 0 (by simp) hb
  exact Nat.eq_sqrt.mpr h

/-! ## Properties of `Calculate` -/

theorem sortAscending_perm (xs : List Duration) : (sortAscending xs).Perm xs :=
  List.perm_insertionSort _ xs

theorem sortAscending_sorted (xs : List Duration) : (sortAscending xs).Sorted (· ≤ ·) :=
  List.sorted_insertionSort _ xs

theorem sortAscending_length (xs : List Duration) : (sortAscending xs).length = xs.length :=
  List.length_insertionSort _ xs

/-- Two sequences with the same samples have the same ascending rearrangement. -/
theorem sortAscending_eq_of_perm {xs ys : List Duration} (h : ys.Perm xs) :
    sortAscending ys = sortAscending xs :=
  List.eq_of_perm_of_sorted
    (((sortAscending_perm ys).trans h).trans (sortAscending_perm xs).symm)
    (sortAscending_sorted ys) (sortAscending_sorted xs)

theorem interpolate_zero (F : FloatModel) (hF : F.Lawful) (s : List Int) :
    interpolate F s 0 = s.getD 0 0 := by
  unfold interpolate
  simp [hF.rnd_zero, truncQ_zero]

theorem interpolate_hundred (F : FloatModel) (hF : F.Lawful) (s : List Int)
    (hn : 2 ≤ s.length) (hlen : s.length ≤ 2 ^ 52) :
    interpolate F s 100 = s.getD (s.length - 1) 0 := by
  have h53 : s.length - 1 ≤ 2 ^ 53 := by
    have : (2 : Nat) ^ 52 ≤ 2 ^ 53 := by norm_num
    omega
  have h1 : F.rnd 1 = 1 := by
    have := hF.rnd_natCast 1 (by norm_num)
    simpa using this
  have hB : F.rnd ((s.length : ℚ) - 1) = ((s.length - 1 : Nat) : ℚ) := by
    have h := hF.rnd_natCast (s.length - 1) h53
    rw [Nat.cast_sub (by omega)] at h ⊢
    simpa using h
  have hr : F.rnd (((s.length - 1 : Nat) : ℚ)) = ((s.length - 1 : Nat) : ℚ) :=
    hF.rnd_natCast _ h53
  unfold interpolate
  simp only [div_self (by norm_num : (100 : ℚ) ≠ 0), h1, one_mul, hB, hr, Nat.floor_natCast,
    sub_self, hF.rnd_zero, zero_mul, truncQ_zero, add_zero]

/-- The first entry of the ascending rearrangement is a sample, and no sample is
smaller; the last entry is a sample, and no sample is larger. -/
theorem sortAscending_extremes (xs : List Duration) (hne : xs ≠ []) :
    ((sortAscending xs).getD 0 0 ∈ xs ∧ ∀ x ∈ xs, (sortAscending xs).getD 0 0 ≤ x) ∧
      ((sortAscending xs).getD (xs.length - 1) 0 ∈ xs ∧
        ∀ x ∈ xs, x ≤ (sortAscending xs).getD (xs.length - 1) 0) := by
  have hl := sortAscending_length xs
  have hpos : 0 < xs.length := List.length_pos.mpr hne
  have hsorted := sortAscending_sorted xs
  have hmem : ∀ x, x ∈ sortAscending xs ↔ x ∈ xs := fun x => (sortAscending_perm xs).mem_iff
  have h0 : 0 < (sortAscending xs).length := by omega
  have h1 : xs.length - 1 < (sortAscending xs).length := by omega
  rw [List.getD_eq_getElem _ _ h0, List.getD_eq_getElem _ _ h1]
  refine ⟨⟨(hmem _).mp (List.getElem_mem h0), ?_⟩, ⟨(hmem _).mp (List.getElem_mem h1), ?_⟩⟩
  · intro x hx
    obtain ⟨i, hi, rfl⟩ := List.getElem_of_mem ((hmem x).mpr hx)
    exact hsorted.rel_get_of_le (a := ⟨0, h0⟩) (b := ⟨i, hi⟩) (Nat.zero_le i)
  · intro x hx
    obtain ⟨i, hi, rfl⟩ := List.getElem_of_mem ((hmem x).mpr hx)
    exact hsorted.rel_get_of_le (a := ⟨i, hi⟩) (b := ⟨xs.length - 1, h1⟩)
      (by show i ≤ xs.length - 1; omega)

/-- The percentile fields of `Calculate` are `percentile` of the sorted samples. -/
theorem calculate_fields (F : FloatModel) (xs : List Duration) (hne : xs ≠ []) :
    (Calculate F xs).Median = percentile F (sortAscending xs) 50 ∧
      (Calculate F xs).P50 = percentile F (sortAscending xs) 50 ∧
      (Calculate F xs).P75 = percentile F (sortAscending xs) 75 ∧
      (Calculate F xs).P90 = percentile F (sortAscending xs) 90 ∧
      (Calculate F xs).P95 = percentile F (sortAscending xs) 95 ∧
      (Calculate F xs).P99 = percentile F (sortAscending xs) 99 ∧
      (Calculate F xs).Min = (sortAscending xs).getD 0 0 ∧
      (Calculate F xs).Max = (sortAscending xs).getD (xs.length - 1) 0 := by
  have hlen : xs.length ≠ 0 := by simpa using hne
  have hcast : ((sortAscending xs).length : Int) - 1 = ((xs.length - 1 : Nat) : Int) := by
    rw [sortAscending_length]; omega
  unfold Calculate
  simp only [hlen, if_false, hcast, at_natCast, true_and, and_true]
  exact at_natCast _ 0

/-- In arithmetic without rounding error, the rule that `percentile` computes is the
formula of the specification with the interpolation term cut to whole nanoseconds. -/
theorem interpolate_exactArith (s : List Int) (p : ℚ) :
    interpolate exactArith s p =
      s.getD ⌊p / 100 * ((s.length : ℚ) - 1)⌋₊ 0 +
        truncQ (interpolationFormula s p -
          (s.getD ⌊p / 100 * ((s.length : ℚ) - 1)⌋₊ 0 : ℚ)) := by
  unfold interpolate interpolationFormula exactArith
  simp only [id, add_sub_cancel_left]

/-- C3 (amended). Percentile interpolation: for 2 ≤ n ≤ 2^52 samples between 0 and
2^61 ns, each of `Median`, `P50`, `P75`, `P90`, `P95`, `P99` equals, for its
p ∈ {50, 50, 75, 90, 95, 99}, `sorted[lo] + T` where `r = (p/100) × (n−1)`,
`lo = floor(r)`, `hi = min(lo+1, n−1)`, `frac = r − lo` are computed in `float64` (each
operation rounded) and `T` is `frac × (sorted[hi] − sorted[lo])`, computed in `float64`
and cut to a whole number of nanoseconds; `percentile` gives the minimum of the samples
at p = 0 and the maximum at p = 100. -/
theorem calculate_percentiles (F : FloatModel) (hF : F.Lawful) (xs : List Duration)
    (hn : 2 ≤ xs.length) (hlen : xs.length ≤ 2 ^ 52)
    (hx : ∀ x ∈ xs, 0 ≤ x ∧ x ≤ 2 ^ 61) :
    ((Calculate F xs).Median = interpolate F (sortAscending xs) 50 ∧
        (Calculate F xs).P50 = interpolate F (sortAscending xs) 50 ∧
        (Calculate F xs).P75 = interpolate F (sortAscending xs) 75 ∧
        (Calculate F xs).P90 = interpolate F (sortAscending xs) 90 ∧
        (Calculate F xs).P95 = interpolate F (sortAscending xs) 95 ∧
        (Calculate F xs).P99 = interpolate F (sortAscending xs) 99) ∧
      (percentile F (sortAscending xs) 0 ∈ xs ∧
        ∀ x ∈ xs, percentile F (sortAscending xs) 0 ≤ x) ∧
      (percentile F (sortAscending xs) 100 ∈ xs ∧
        ∀ x ∈ xs, x ≤ percentile F (sortAscending xs) 100) := by
  have hne : xs ≠ [] := by
    intro h; rw [h] at hn; simp at hn
  have hl := sortAscending_length xs
  have hs : ∀ x ∈ sortAscending xs, (0 : Int) ≤ x ∧ x ≤ 2 ^ 61 := fun x hxs =>
    hx x ((sortAscending_perm xs).mem_iff.mp hxs)
  have key : ∀ p : ℚ, 0 ≤ p → p ≤ 100 →
      percentile F (sortAscending xs) p = interpolate F (sortAscending xs) p := fun p h0 h1 =>
    percentile_eq_interpolate F hF (sortAscending xs) p (by omega) (by omega) h0 h1 hs
  obtain ⟨f1, f2, f3, f4, f5, f6, -, -⟩ := calculate_fields F xs hne
  obtain ⟨⟨m1, m2⟩, ⟨m3, m4⟩⟩ := sortAscending_extremes xs hne
  have h0 : percentile F (sortAscending xs) 0 = (sortAscending xs).getD 0 0 := by
    rw [key 0 le_rfl (by norm_num), interpolate_zero F hF]
  have h100 : percentile F (sortAscending xs) 100 =
      (sortAscending xs).getD (xs.length - 1) 0 := by
    rw [key 100 (by norm_num) le_rfl, interpolate_hundred F hF _ (by omega) (by omega), hl]
  rw [f1, f2, f3, f4, f5, f6, h0, h100]
  exact ⟨⟨key 50 (by norm_num) (by norm_num), key 50 (by norm_num) (by norm_num),
    key 75 (by norm_num) (by norm_num), key 90 (by norm_num) (by norm_num),
    key 95 (by norm_num) (by norm_num), key 99 (by norm_num) (by norm_num)⟩,
    ⟨m1, m2⟩, ⟨m3, m4⟩⟩

theorem calculate_percentiles_witness :
    (2 ≤ [10000000, 20000000, 30000000, 40000000].length ∧
        [10000000, 20000000, 30000000, 40000000].length ≤ 2 ^ 52 ∧
        ∀ x ∈ ([10000000, 20000000, 30000000, 40000000] : List Duration),
          0 ≤ x ∧ x ≤ 2 ^ 61) ∧
      (Calculate binary64 [10000000, 20000000, 30000000, 40000000]).P50 =
        interpolate binary64 (sortAscending [10000000, 20000000, 30000000, 40000000]) 50 ∧
      interpolate binary64 (sortAscending [10000000, 20000000, 30000000, 40000000]) 50 =
        25000000 ∧
      percentile binary64 (sortAscending [10000000, 20000000, 30000000, 40000000]) 0 =
        10000000 ∧
      percentile binary64 (sortAscending [10000000, 20000000, 30000000, 40000000]) 100 =
        40000000 :=
  ⟨⟨by decide, by norm_num, by decide⟩,
    (calculate_percentiles binary64 binary64_lawful [10000000, 20000000, 30000000, 40000000]
      (by decide) (by norm_num) (by decide)).1.2.1,
    by decide!, by decide!, by decide!⟩

/-- C3 as stated fails: the fields are whole nanoseconds computed in `float64`.  For
the samples 10 ns and 11 ns the formula gives a median of 10.5 ns, the code 10 ns (in
either arithmetic); for the samples 10, 20, 30, 40 ms the formula gives a 95th
percentile of 38.5 ms, the code 38 499 999 ns, because `(95/100) × 3` is rounded to a
`float64` just below 2.85; for the samples `-2^63` and `2^63 - 1` the difference of the
two wraps around and the median is `-2^63`, where the formula gives -0.5. -/
theorem percentile_counterexample :
    (((Calculate binary64 [10, 11]).P50 : Int) : ℚ) ≠
        interpolationFormula (sortAscending [10, 11]) 50 ∧
      (((Calculate exactArith [10, 11]).P50 : Int) : ℚ) ≠
        interpolationFormula (sortAscending [10, 11]) 50 ∧
      (Calculate binary64 [10, 11]).P50 = 10 ∧
      interpolationFormula (sortAscending [10, 11]) 50 = 21 / 2 ∧
      (((Calculate binary64 [10000000, 20000000, 30000000, 40000000]).P95 : Int) : ℚ) ≠
        interpolationFormula (sortAscending [10000000, 20000000, 30000000, 40000000]) 95 ∧
      (Calculate binary64 [10000000, 20000000, 30000000, 40000000]).P95 = 38499999 ∧
      interpolationFormula (sortAscending [10000000, 20000000, 30000000, 40000000]) 95 =
        38500000 ∧
      (Calculate binary64 [minInt64, maxInt64]).Median = minInt64 ∧
      interpolationFormula (sortAscending [minInt64, maxInt64]) 50 = -1 / 2 := by
  refine ⟨by decide!, by decide!, by decide!, by decide!, by decide!, by decide!, by decide!,
    by decide!, by decide!⟩

theorem calculate_nil (F : FloatModel) : Calculate F [] = {} := rfl

/-- C10. Empty input: `Calculate` of the empty (or nil) sample sequence returns the
summary whose every field (`Count`, `Min`, `Max`, `Mean`, `Median`, `StdDev`, `P50`,
`P75`, `P90`, `P95`, `P99`) is zero. -/
theorem calculate_empty (F : FloatModel) :
    Calculate F [] = ⟨0, 0, 0, 0, 0, 0, 0, 0, 0, 0, 0⟩ := by
  rfl

/-- C4. Order independence: for every sequence of durations `xs` (non-empty or not)
and every permutation `ys` of it, `Calculate ys = Calculate xs`, field for field. -/
theorem calculate_perm (F : FloatModel) (xs ys : List Duration) (h : ys.Perm xs) :
    Calculate F ys = Calculate F xs := by
  have hlen : ys.length = xs.length := h.length_eq
  unfold Calculate
  rw [sortAscending_eq_of_perm h, hlen]

theorem calculate_perm_witness :
    List.Perm [10, 20, 30] ([30, 10, 20] : List Duration) ∧
      Calculate binary64 [10, 20, 30] = Calculate binary64 [30, 10, 20] :=
  ⟨by decide, calculate_perm binary64 [30, 10, 20] [10, 20, 30] (by decide)⟩

/-- C9. Single sample: `Calculate [v]` has count 1, every location statistic equal to
`v`, and standard deviation 0. -/
theorem calculate_single (F : FloatModel) (hF : F.Lawful) (v : Duration) (hv : isInt64 v) :
    Calculate F [v] = ⟨1, v, v, v, v, 0, v, v, v, v, v⟩ := by
  have h0 : F.rnd 0 = 0 := hF.rnd_zero
  have hs : F.sqrt 0 = 0 := hF.sqrt_zero
  have hw : wrap64 v = v := wrap64_of_isInt64 hv
  have hw0 : wrap64 0 = 0 := by decide
  have ht : toInt64 0 = 0 := by decide!
  have hsum : sumDurations [v] = v := by simp [sumDurations, hw]
  have hsq : sumSquares F [v] v = 0 := by simp [sumSquares, hw0, h0]
  have hp : ∀ p : ℚ, percentile F [v] p = v := fun p => by simp [percentile, at_]
  simp [Calculate, sortAscending, hsum, hsq, hp, at_, h0, hs, ht]

theorem calculate_single_witness :
    isInt64 42 ∧ Calculate binary64 [42] = ⟨1, 42, 42, 42, 42, 0, 42, 42, 42, 42, 42⟩ :=
  ⟨by decide, calculate_single binary64 binary64_lawful 42 (by decide)⟩

/-! ## Properties of the probing loop -/

/-- The three ways a pass through the loop body can go. -/
theorem loopBody_eq (F : FloatModel) (w : World) (addr : String) (s : LoopState)
    (domain : String) :
    loopBody F w addr s domain =
      if w.done s.result.Queries then Flow.ret (finish F s.result)
      else if (Query (w.exchange s.result.Queries) addr domain TypeA).Success = false ∧
          s.result.Successes = 0 ∧ s.consecutiveFailures + 1 ≥ maxConsecutiveFailures then
        Flow.ret (bailout F s.result)
      else
        Flow.next
          { result := record s.result (Query (w.exchange s.result.Queries) addr domain TypeA)
            consecutiveFailures := consecutive s.consecutiveFailures
              (Query (w.exchange s.result.Queries) addr domain TypeA) } := by
  unfold loopBody consecutive
  by_cases hd : w.done s.result.Queries
  · simp [hd, finish]
  · by_cases hs : (Query (w.exchange s.result.Queries) addr domain TypeA).Success
    · simp [hd, hs, record]
    · by_cases hb : s.result.Successes = 0 ∧ s.consecutiveFailures + 1 ≥ maxConsecutiveFailures
      · simp [hd, hs, hb, bailout, finish]
      · simp only [hd, hs, hb, record]
        simp

/-- The inner loop, one pass unfolded. -/
theorem rangeDomains_cons (F : FloatModel) (w : World) (addr : String) (s : LoopState)
    (domain : String) (rest : List String) :
    rangeDomains F w addr (domain :: rest) s =
      if w.done s.result.Queries then Flow.ret (finish F s.result)
      else if (Query (w.exchange s.result.Queries) addr domain TypeA).Success = false ∧
          s.result.Successes = 0 ∧ s.consecutiveFailures + 1 ≥ maxConsecutiveFailures then
        Flow.ret (bailout F s.result)
      else
        rangeDomains F w addr rest
          { result := record s.result (Query (w.exchange s.result.Queries) addr domain TypeA)
            consecutiveFailures := consecutive s.consecutiveFailures
              (Query (w.exchange s.result.Queries) addr domain TypeA) } := by
  simp only [rangeDomains]
  rw [loopBody_eq]
  split_ifs <;> rfl

theorem capture_length_le (result : ResolverResult) (msg : String)
    (h : result.Errors.length ≤ 5) : (capture result msg).Errors.length ≤ 5 := by
  unfold capture
  split_ifs with hlt
  · simp; omega
  · exact h

theorem capture_fields (result : ResolverResult) (msg : String) :
    (capture result msg).Queries = result.Queries ∧
      (capture result msg).Successes = result.Successes ∧
      (capture result msg).Failures = result.Failures ∧
      (capture result msg).RTTs = result.RTTs ∧
      (capture result msg).Stats = result.Stats ∧
      (capture result msg).Resolver = result.Resolver ∧
      (capture result msg).Address = result.Address := by
  unfold capture
  split_ifs <;> simp

theorem capture_errors (result : ResolverResult) (msg : String)
    (h : result.Errors.length ≤ 5) :
    (capture result msg).Errors = (result.Errors ++ [msg]).take 5 := by
  unfold capture
  split_ifs with hlt
  · rw [List.take_of_length_le]
    simp; omega
  · have h5 : result.Errors.length = 5 := by omega
    rw [List.take_append_of_le_length (by omega), List.take_of_length_le (by omega)]

theorem record_fields (result : ResolverResult) (qr : QueryResult) :
    (record result qr).Queries = result.Queries + 1 ∧
      (record result qr).Successes = result.Successes + [qr].countP (fun q => q.Success) ∧
      (record result qr).Failures = result.Failures + [qr].countP (fun q => !q.Success) ∧
      (record result qr).RTTs = result.RTTs ++ rttsOf [qr] ∧
      (record result qr).Stats = result.Stats ∧
      (record result qr).Resolver = result.Resolver ∧
      (record result qr).Address = result.Address := by
  unfold record
  by_cases hs : qr.Success
  · simp [hs, rttsOf]
  · cases he : qr.Error <;> simp [hs, rttsOf, capture_fields]

theorem record_errors (result : ResolverResult) (qr : QueryResult)
    (h : result.Errors.length ≤ 5) :
    (record result qr).Errors = (result.Errors ++ errorsOf [qr]).take 5 := by
  unfold record
  by_cases hs : qr.Success
  · simp [hs, errorsOf, List.take_of_length_le h]
  · cases he : qr.Error
    · simp [hs, he, errorsOf, List.take_of_length_le h]
    · simp only [hs, he, errorsOf, Bool.false_eq_true, if_false]
      rw [capture_errors _ _ (by simpa using h)]
      simp [hs, he]

theorem record_errors_le (result : ResolverResult) (qr : QueryResult)
    (h : result.Errors.length ≤ 5) : (record result qr).Errors.length ≤ 5 := by
  rw [record_errors _ _ h]
  simp

theorem rttsOf_append (a b : List QueryResult) : rttsOf (a ++ b) = rttsOf a ++ rttsOf b := by
  simp [rttsOf]

theorem errorsOf_append (a b : List QueryResult) :
    errorsOf (a ++ b) = errorsOf a ++ errorsOf b := by
  simp [errorsOf]

theorem take_take_append (a b : List String) :
    ((a.take 5) ++ b).take 5 = (a ++ b).take 5 := by
  by_cases h : a.length ≤ 5
  · rw [List.take_of_length_le h]
  · have h5 : 5 ≤ a.length := by omega
    have h1 : (a.take 5).length = 5 := by simp; omega
    rw [List.take_append_of_le_length (by omega), List.take_append_of_le_length h5,
      List.take_take]
    simp

/-- The fields of a result after a sequence of outcomes has been recorded. -/
theorem foldl_record_fields (qs : List QueryResult) :
    ∀ result : ResolverResult,
      (qs.foldl record result).Queries = result.Queries + qs.length ∧
        (qs.foldl record result).Successes =
          result.Successes + qs.countP (fun q => q.Success) ∧
        (qs.foldl record result).Failures =
          result.Failures + qs.countP (fun q => !q.Success) ∧
        (qs.foldl record result).RTTs = result.RTTs ++ rttsOf qs ∧
        (qs.foldl record result).Stats = result.Stats ∧
        (qs.foldl record result).Resolver = result.Resolver ∧
        (qs.foldl record result).Address = result.Address := by
  induction qs with
  | nil => intro result; simp [rttsOf]
  | cons q rest ih =>
    intro result
    obtain ⟨h1, h2, h3, h4, h5, h6, h7⟩ := ih (record result q)
    obtain ⟨r1, r2, r3, r4, r5, r6, r7⟩ := record_fields result q
    simp only [List.foldl_cons]
    rw [h1, h2, h3, h4, h5, h6, h7, r1, r2, r3, r4, r5, r6, r7]
    refine ⟨?_, ?_, ?_, ?_, rfl, rfl, rfl⟩
    · simp; omega
    · rw [List.countP_cons (l := rest)]; simp [List.countP_cons]; omega
    · rw [List.countP_cons (l := rest)]; simp [List.countP_cons]; omega
    · rw [List.append_assoc, ← rttsOf_append]; rfl

theorem foldl_record_errors (qs : List QueryResult) :
    ∀ result : ResolverResult, result.Errors.length ≤ 5 →
      (qs.foldl record result).Errors = (result.Errors ++ errorsOf qs).take 5 := by
  induction qs with
  | nil => intro result h; simp [errorsOf, List.take_of_length_le h]
  | cons q rest ih =>
    intro result h
    simp only [List.foldl_cons]
    rw [ih _ (record_errors_le _ _ h), record_errors _ _ h, take_take_append,
      List.append_assoc, ← errorsOf_append]
    rfl

theorem rangeDomains_append (F : FloatModel) (w : World) (addr : String)
    (a b : List String) :
    ∀ s : LoopState, rangeDomains F w addr (a ++ b) s =
      match rangeDomains F w addr a s with
      | Flow.next s1 => rangeDomains F w addr b s1
      | Flow.ret r => Flow.ret r := by
  induction a with
  | nil => intro s; rfl
  | cons d rest ih =>
    intro s
    simp only [List.cons_append, rangeDomains]
    cases loopBody F w addr s d with
    | next s1 => exact ih s1
    | ret r => rfl

/-- The nested loops visit the schedule in order. -/
theorem iterate_eq (F : FloatModel) (w : World) (addr : String) (domains : List String) :
    ∀ (n : Nat) (s : LoopState), iterate F w addr domains n s =
      rangeDomains F w addr (List.replicate n domains).flatten s := by
  intro n
  induction n with
  | zero => intro s; rfl
  | succ k ih =>
    intro s
    rw [List.replicate_succ, List.flatten_cons, rangeDomains_append]
    simp only [iterate]
    cases rangeDomains F w addr domains s with
    | next s1 => exact ih s1
    | ret r => rfl

theorem testResolver_eq (F : FloatModel) (config : Config) (w : World) (res : Resolver)
    (addr : String) :
    testResolver F config w res addr =
      match rangeDomains F w addr (schedule config) (initialState res addr) with
      | Flow.next s => finish F s.result
      | Flow.ret r => r := by
  unfold testResolver
  simp only [iterate_eq]
  rfl

theorem schedule_length (config : Config) :
    (schedule config).length = config.Iterations * config.Domains.length := by
  simp [schedule, List.length_flatten]

theorem outcomes_length (w : World) (addr : String) (ds : List String) :
    ∀ k : Nat, (outcomes w addr k ds).length = ds.length := by
  induction ds with
  | nil => intro k; rfl
  | cons d rest ih => intro k; simp [outcomes, ih]

theorem issued_length (config : Config) (w : World) (addr : String) :
    (issued config w addr).length = config.Iterations * config.Domains.length := by
  rw [issued, outcomes_length, schedule_length]

theorem outcomes_take (w : World) (addr : String) (ds : List String) :
    ∀ k n : Nat, (outcomes w addr k ds).take n = outcomes w addr k (ds.take n) := by
  induction ds with
  | nil => intro k n; simp [outcomes]
  | cons d rest ih =>
    intro k n
    cases n with
    | zero => simp [outcomes]
    | succ m => simp [outcomes, ih]

/-- The error list never grows beyond five entries, whatever the loop does. -/
theorem rangeDomains_errors_le (F : FloatModel) (w : World) (addr : String)
    (ds : List String) :
    ∀ s : LoopState, s.result.Errors.length ≤ 5 →
      (rangeDomains F w addr ds s).errors.length ≤ 5 := by
  induction ds with
  | nil => intro s h; exact h
  | cons d rest ih =>
    intro s h
    rw [rangeDomains_cons]
    split_ifs with hd hb
    · exact h
    · simp only [Flow.errors, bailout, finish]
      exact capture_length_le _ _ h
    · exact ih _ (record_errors_le _ _ h)

/-- A pass that falls through has recorded one outcome; a run of passes that falls
through has recorded all of theirs, and met no elapsed deadline. -/
theorem rangeDomains_next (F : FloatModel) (w : World) (addr : String) (ds : List String) :
    ∀ s s1 : LoopState, rangeDomains F w addr ds s = Flow.next s1 →
      s1.result = (outcomes w addr s.result.Queries ds).foldl record s.result := by
  induction ds with
  | nil =>
    intro s s1 h
    simp only [rangeDomains, Flow.next.injEq] at h
    simp [outcomes, h]
  | cons d rest ih =>
    intro s s1 h
    rw [rangeDomains_cons] at h
    split_ifs at h with hd hb
    have h2 := ih _ s1 h
    simp only [(record_fields _ _).1] at h2
    simpa [outcomes] using h2

/-- The loop returns neither early nor by bailout when no deadline is observed and
either a success is already on record or the failures at the head of the coming
outcomes cannot bring the consecutive-failure counter to 3. -/
theorem rangeDomains_no_return (F : FloatModel) (w : World) (addr : String)
    (ds : List String) :
    ∀ s : LoopState, (∀ j, j < ds.length → w.done (s.result.Queries + j) = false) →
      (0 < s.result.Successes ∨
        s.consecutiveFailures + leadingFailures (outcomes w addr s.result.Queries ds) < 3) →
      ∃ s1, rangeDomains F w addr ds s = Flow.next s1 := by
  induction ds with
  | nil => intro s _ _; exact ⟨s, rfl⟩
  | cons d rest ih =>
    intro s hdone hok
    rw [rangeDomains_cons]
    have hd : w.done s.result.Queries = false := by
      simpa using hdone 0 (by simp)
    by_cases hs : (Query (w.exchange s.result.Queries) addr d TypeA).Success
    · simp only [hd, hs, Bool.false_eq_true, if_false, false_and, if_true]
      apply ih
      · intro j hj
        rw [(record_fields _ _).1, Nat.add_assoc, Nat.add_comm 1 j]
        exact hdone (j + 1) (by simpa using hj)
      · left
        rw [(record_fields _ _).2.1]
        simp [hs]
    · have hs2 : (Query (w.exchange s.result.Queries) addr d TypeA).Success = false := by
        simpa using hs
      have hnb : ¬(s.result.Successes = 0 ∧
          s.consecutiveFailures + 1 ≥ maxConsecutiveFailures) := by
        rintro ⟨h0, h3⟩
        rcases hok with hpos | hlt
        · omega
        · simp only [outcomes, leadingFailures, List.takeWhile_cons, hs2, Bool.not_false,
            if_true, List.length_cons] at hlt
          unfold maxConsecutiveFailures at h3
          omega
      simp only [hd, hs2, hnb, Bool.false_eq_true, if_false, and_false, true_and]
      apply ih
      · intro j hj
        rw [(record_fields _ _).1, Nat.add_assoc, Nat.add_comm 1 j]
        exact hdone (j + 1) (by simpa using hj)
      · rcases hok with hpos | hlt
        · left
          rw [(record_fields _ _).2.1]
          omega
        · right
          simp only [outcomes, leadingFailures, List.takeWhile_cons, hs2, Bool.not_false,
            if_true, List.length_cons] at hlt
          rw [(record_fields _ _).1]
          simp only [leadingFailures, consecutive, hs2, Bool.false_eq_true, if_false]
          omega

theorem record_failure (result : ResolverResult) (qr : QueryResult)
    (h : qr.Success = false) :
    (record result qr).Successes = result.Successes := by
  rw [(record_fields _ _).2.1]
  simp [h]

/-- Three failed queries at the start, with no deadline observed, end the run in the
bailout branch at the third. -/
theorem rangeDomains_bailout (F : FloatModel) (w : World) (addr : String)
    (res : Resolver) (d1 d2 d3 : String) (rest : List String)
    (hdone : ∀ k, k < 3 → w.done k = false)
    (h1 : (Query (w.exchange 0) addr d1 TypeA).Success = false)
    (h2 : (Query (w.exchange 1) addr d2 TypeA).Success = false)
    (h3 : (Query (w.exchange 2) addr d3 TypeA).Success = false) :
    rangeDomains F w addr (d1 :: d2 :: d3 :: rest) (initialState res addr) =
      Flow.ret (bailout F
        ([Query (w.exchange 0) addr d1 TypeA, Query (w.exchange 1) addr d2 TypeA].foldl record
          (initialState res addr).result)) := by
  have q0 : (initialState res addr).result.Queries = 0 := rfl
  have s0 : (initialState res addr).result.Successes = 0 := rfl
  have c0 : (initialState res addr).consecutiveFailures = 0 := rfl
  rw [rangeDomains_cons]
  simp only [q0, s0, c0, hdone 0 (by omega), h1, maxConsecutiveFailures, consecutive]
  rw [rangeDomains_cons]
  simp only [(record_fields _ _).1, record_failure _ _ h1, q0, s0, hdone 1 (by omega), h2,
    maxConsecutiveFailures, consecutive]
  rw [rangeDomains_cons]
  simp only [(record_fields _ _).1, record_failure _ _ h1, record_failure _ _ h2, q0, s0,
    hdone 2 (by omega), h3, maxConsecutiveFailures, consecutive]
  simp

theorem finish_fields (F : FloatModel) (result : ResolverResult) :
    (finish F result).Queries = result.Queries ∧
      (finish F result).Successes = result.Successes ∧
      (finish F result).Failures = result.Failures ∧
      (finish F result).RTTs = result.RTTs ∧
      (finish F result).Stats = Calculate F result.RTTs ∧
      (finish F result).Errors = result.Errors ∧
      (finish F result).Resolver = result.Resolver ∧
      (finish F result).Address = result.Address :=
  ⟨rfl, rfl, rfl, rfl, rfl, rfl, rfl, rfl⟩

theorem bailout_fields (F : FloatModel) (result : ResolverResult) :
    (bailout F result).Queries = result.Queries + 1 ∧
      (bailout F result).Successes = result.Successes ∧
      (bailout F result).Failures = result.Failures + 1 ∧
      (bailout F result).RTTs = result.RTTs ∧
      (bailout F result).Stats = Calculate F result.RTTs := by
  unfold bailout
  obtain ⟨h1, h2, h3, h4, -⟩ := capture_fields
    { result with Queries := result.Queries + 1, Failures := result.Failures + 1 } bailoutNote
  simp only [finish_fields, h1, h2, h3, h4]
  simp

theorem bailout_errors (F : FloatModel) (result : ResolverResult)
    (h : result.Errors.length < 5) :
    (bailout F result).Errors = result.Errors ++ [bailoutNote] := by
  simp [bailout, finish, capture, h]

theorem schedule_three (config : Config) (h : 3 ≤ config.Iterations * config.Domains.length) :
    ∃ d1 d2 d3 rest, schedule config = d1 :: d2 :: d3 :: rest := by
  have hl : 3 ≤ (schedule config).length := by rw [schedule_length]; exact h
  match hs : schedule config with
  | [] => rw [hs] at hl; simp at hl
  | [_] => rw [hs] at hl; simp at hl
  | [_, _] => rw [hs] at hl; simp at hl
  | d1 :: d2 :: d3 :: rest => exact ⟨d1, d2, d3, rest, rfl⟩

/-- C1. Early bailout: when at least three queries are scheduled, the first three
outcomes are failures and the deadline is not observed as elapsed, `testResolver`
issues exactly 3 queries and returns `Queries = 3`, `Successes = 0`, `Failures = 3`, no
RTT, the all-zero summary, and an error list made of the errors captured from the first
two queries followed by the single bailout note, which is its last entry. -/
theorem testResolver_early_bailout (F : FloatModel) (config : Config) (w : World)
    (res : Resolver) (addr : String)
    (hn : 3 ≤ config.Iterations * config.Domains.length)
    (hfail : ∀ q ∈ (issued config w addr).take 3, q.Success = false)
    (hdone : ∀ k, k < 3 → w.done k = false) :
    (testResolver F config w res addr).Queries = 3 ∧
      (testResolver F config w res addr).Successes = 0 ∧
      (testResolver F config w res addr).Failures = 3 ∧
      (testResolver F config w res addr).RTTs = [] ∧
      (testResolver F config w res addr).Stats = ⟨0, 0, 0, 0, 0, 0, 0, 0, 0, 0, 0⟩ ∧
      (testResolver F config w res addr).Errors =
        errorsOf ((issued config w addr).take 2) ++ [bailoutNote] ∧
      (testResolver F config w res addr).Errors.getLast? = some bailoutNote := by
  obtain ⟨d1, d2, d3, rest, hs⟩ := schedule_three config hn
  have hi : issued config w addr =
      Query (w.exchange 0) addr d1 TypeA :: Query (w.exchange 1) addr d2 TypeA ::
        Query (w.exchange 2) addr d3 TypeA :: outcomes w addr 3 rest := by
    simp [issued, hs, outcomes]
  rw [hi] at hfail ⊢
  have h1 : (Query (w.exchange 0) addr d1 TypeA).Success = false := hfail _ (by simp)
  have h2 : (Query (w.exchange 1) addr d2 TypeA).Success = false := hfail _ (by simp)
  have h3 : (Query (w.exchange 2) addr d3 TypeA).Success = false := hfail _ (by simp)
  rw [testResolver_eq, hs, rangeDomains_bailout F w addr res d1 d2 d3 rest hdone h1 h2 h3]
  simp only []
  obtain ⟨b1, b2, b3, b4, b5⟩ := bailout_fields F
    ([Query (w.exchange 0) addr d1 TypeA, Query (w.exchange 1) addr d2 TypeA].foldl record
      (initialState res addr).result)
  obtain ⟨f1, f2, f3, f4, -⟩ := foldl_record_fields
    [Query (w.exchange 0) addr d1 TypeA, Query (w.exchange 1) addr d2 TypeA]
    (initialState res addr).result
  have fe := foldl_record_errors
    [Query (w.exchange 0) addr d1 TypeA, Query (w.exchange 1) addr d2 TypeA]
    (initialState res addr).result (by simp [initialState])
  have hlen : (errorsOf [Query (w.exchange 0) addr d1 TypeA,
      Query (w.exchange 1) addr d2 TypeA]).length ≤ 2 := by
    unfold errorsOf
    exact le_trans (List.length_filterMap_le _ _) (by simp)
  have he : ([Query (w.exchange 0) addr d1 TypeA, Query (w.exchange 1) addr d2 TypeA].foldl
      record (initialState res addr).result).Errors =
      errorsOf [Query (w.exchange 0) addr d1 TypeA, Query (w.exchange 1) addr d2 TypeA] := by
    rw [fe]
    simp only [initialState, List.nil_append]
    exact List.take_of_length_le (by omega)
  have hb := bailout_errors F
    ([Query (w.exchange 0) addr d1 TypeA, Query (w.exchange 1) addr d2 TypeA].foldl record
      (initialState res addr).result) (by rw [he]; omega)
  rw [b1, b2, b3, b4, b5, hb, f1, f2, f3, f4, he]
  refine ⟨by simp [initialState], by simp [initialState, h1, h2],
    by simp [initialState, h1, h2], by simp [initialState, rttsOf, h1, h2], ?_, ?_, ?_⟩
  · simp [initialState, rttsOf, h1, h2, calculate_nil]
  · simp
  · simp

theorem testResolver_early_bailout_witness :
    3 ≤ sampleConfig.Iterations * sampleConfig.Domains.length ∧
      (∀ q ∈ (issued sampleConfig unreachableWorld "192.0.2.1").take 3, q.Success = false) ∧
      (∀ k, k < 3 → unreachableWorld.done k = false) ∧
      (testResolver binary64 sampleConfig unreachableWorld {} "192.0.2.1").Queries = 3 ∧
      (testResolver binary64 sampleConfig unreachableWorld {} "192.0.2.1").Successes = 0 ∧
      (testResolver binary64 sampleConfig unreachableWorld {} "192.0.2.1").Failures = 3 ∧
      (testResolver binary64 sampleConfig unreachableWorld {} "192.0.2.1").RTTs = [] ∧
      (testResolver binary64 sampleConfig unreachableWorld {} "192.0.2.1").Stats =
        ⟨0, 0, 0, 0, 0, 0, 0, 0, 0, 0, 0⟩ ∧
      (testResolver binary64 sampleConfig unreachableWorld {} "192.0.2.1").Errors =
        errorsOf ((issued sampleConfig unreachableWorld "192.0.2.1").take 2) ++ [bailoutNote] ∧
      (testResolver binary64 sampleConfig unreachableWorld {} "192.0.2.1").Errors.getLast? =
        some bailoutNote :=
  ⟨by decide, by decide, fun _ _ => rfl,
    testResolver_early_bailout binary64 sampleConfig unreachableWorld {} "192.0.2.1"
      (by decide) (by decide) (fun _ _ => rfl)⟩

theorem testResolver_result (F : FloatModel) (config : Config) (w : World) (res : Resolver)
    (addr : String) :
    testResolver F config w res addr =
      (rangeDomains F w addr (schedule config) (initialState res addr)).result F := by
  rw [testResolver_eq]
  cases rangeDomains F w addr (schedule config) (initialState res addr) <;> rfl

/-- C5. Error cap: the `Errors` list of the result returned by `testResolver` has at
most 5 entries, and so has the list held after any number of passes through the loop
body, the pass that records the bailout note included. -/
theorem testResolver_errors_le_five (F : FloatModel) (config : Config) (w : World)
    (res : Resolver) (addr : String) :
    (testResolver F config w res addr).Errors.length ≤ 5 ∧
      ∀ n : Nat, (afterPasses F config w res addr n).errors.length ≤ 5 := by
  have h0 : (initialState res addr).result.Errors.length ≤ 5 := by simp [initialState]
  constructor
  · have h := rangeDomains_errors_le F w addr (schedule config) (initialState res addr) h0
    rw [testResolver_result]
    cases hr : rangeDomains F w addr (schedule config) (initialState res addr) with
    | next s => rw [hr] at h; exact h
    | ret r => rw [hr] at h; exact h
  · intro n
    exact rangeDomains_errors_le F w addr _ (initialState res addr) h0

theorem calculate_count (F : FloatModel) (rtts : List Duration) :
    (Calculate F rtts).Count = rtts.length := by
  unfold Calculate
  split_ifs with h
  · simp [h]
  · simp [sortAscending_length]

theorem rttsOf_length (qs : List QueryResult) :
    (rttsOf qs).length = qs.countP (fun q => q.Success) := by
  simp [rttsOf, List.countP_eq_length_filter]

/-- However the loops end, the returned counters describe a prefix of the outcomes. -/
theorem rangeDomains_accounting (F : FloatModel) (w : World) (addr : String)
    (ds : List String) :
    ∀ s : LoopState, ∃ j, j ≤ ds.length ∧
      ((rangeDomains F w addr ds s).result F).Queries = s.result.Queries + j ∧
      ((rangeDomains F w addr ds s).result F).Successes = s.result.Successes +
        ((outcomes w addr s.result.Queries ds).take j).countP (fun q => q.Success) ∧
      ((rangeDomains F w addr ds s).result F).Failures = s.result.Failures +
        ((outcomes w addr s.result.Queries ds).take j).countP (fun q => !q.Success) ∧
      ((rangeDomains F w addr ds s).result F).RTTs = s.result.RTTs ++
        rttsOf ((outcomes w addr s.result.Queries ds).take j) ∧
      ((rangeDomains F w addr ds s).result F).Stats =
        Calculate F ((rangeDomains F w addr ds s).result F).RTTs := by
  induction ds with
  | nil =>
    intro s
    exact ⟨0, le_rfl, by simp [rangeDomains, Flow.result, finish, outcomes, rttsOf]⟩
  | cons d rest ih =>
    intro s
    rw [rangeDomains_cons]
    split_ifs with hd hb
    · exact ⟨0, by simp, by simp [Flow.result, finish, rttsOf]⟩
    · obtain ⟨b1, b2, b3, b4, b5⟩ := bailout_fields F s.result
      refine ⟨1, by simp, ?_⟩
      simp only [Flow.result, b1, b2, b3, b4, b5, outcomes, List.take_succ_cons, List.take_zero]
      simp [rttsOf, hb.1]
    · obtain ⟨j, hj, h1, h2, h3, h4, h5⟩ := ih
        { result := record s.result (Query (w.exchange s.result.Queries) addr d TypeA)
          consecutiveFailures := consecutive s.consecutiveFailures
            (Query (w.exchange s.result.Queries) addr d TypeA) }
      obtain ⟨r1, r2, r3, r4, -⟩ :=
        record_fields s.result (Query (w.exchange s.result.Queries) addr d TypeA)
      simp only [r1, r2, r3, r4] at h1 h2 h3 h4
      refine ⟨j + 1, by simpa using hj, ?_, ?_, ?_, ?_, h5⟩
      · rw [h1]; omega
      · rw [h2]
        simp only [outcomes, List.take_succ_cons, List.countP_cons, List.countP_nil]
        omega
      · rw [h3]
        simp only [outcomes, List.take_succ_cons, List.countP_cons, List.countP_nil]
        omega
      · rw [h4, List.append_assoc, ← rttsOf_append]
        simp [outcomes]

/-- C7. Per-query accounting: in every run of `testResolver`, `Queries = Successes +
Failures`, `Queries` is at most `Iterations × len(Domains)`, `RTTs` is the sequence of
round-trip times of the successful queries among the `Queries` issued ones, in issue
order (so it has `Successes` entries), and `Stats = Calculate(RTTs)` (so `Stats.Count =
Successes`). -/
theorem testResolver_accounting (F : FloatModel) (config : Config) (w : World)
    (res : Resolver) (addr : String) :
    (testResolver F config w res addr).Queries =
        (testResolver F config w res addr).Successes +
          (testResolver F config w res addr).Failures ∧
      (testResolver F config w res addr).Queries ≤
        config.Iterations * config.Domains.length ∧
      (testResolver F config w res addr).RTTs =
        rttsOf ((issued config w addr).take (testResolver F config w res addr).Queries) ∧
      (testResolver F config w res addr).RTTs.length =
        (testResolver F config w res addr).Successes ∧
      (testResolver F config w res addr).Stats =
        Calculate F (testResolver F config w res addr).RTTs ∧
      (testResolver F config w res addr).Stats.Count =
        (testResolver F config w res addr).Successes := by
  obtain ⟨j, hj, h1, h2, h3, h4, h5⟩ :=
    rangeDomains_accounting F w addr (schedule config) (initialState res addr)
  rw [← testResolver_result] at h1 h2 h3 h4 h5
  have q0 : (initialState res addr).result.Queries = 0 := rfl
  have s0 : (initialState res addr).result.Successes = 0 := rfl
  have f0 : (initialState res addr).result.Failures = 0 := rfl
  have t0 : (initialState res addr).result.RTTs = [] := rfl
  simp only [q0, s0, f0, t0, Nat.zero_add, List.nil_append] at h1 h2 h3 h4
  have hq : (testResolver F config w res addr).Queries = j := h1
  have hlen : ((outcomes w addr 0 (schedule config)).take j).length = j := by
    rw [List.length_take, outcomes_length]
    omega
  have hsplit := List.length_eq_countP_add_countP (fun q : QueryResult => q.Success)
    ((outcomes w addr 0 (schedule config)).take j)
  have hnot : (fun q : QueryResult => !q.Success) =
      (fun q : QueryResult => !(fun q : QueryResult => q.Success) q) := rfl
  have hrl : (testResolver F config w res addr).RTTs.length =
      (testResolver F config w res addr).Successes := by
    rw [h4, h2, rttsOf_length]
  refine ⟨?_, ?_, ?_, hrl, h5, ?_⟩
  · rw [hq, h2, h3]
    rw [hlen] at hsplit
    simpa using hsplit
  · rw [hq, ← schedule_length]
    exact hj
  · rw [hq, h4]
    rfl
  · rw [h5, calculate_count, hrl]

theorem leadingFailures_le_length (qs : List QueryResult) :
    leadingFailures qs ≤ qs.length := by
  unfold leadingFailures
  exact (List.takeWhile_sublist _).length_le

/-- A success among the first three outcomes leaves fewer than three failures at
the head. -/
theorem leadingFailures_lt_three (qs : List QueryResult)
    (h : ∃ q ∈ qs.take 3, q.Success = true) : leadingFailures qs < 3 := by
  obtain ⟨q, hq, hs⟩ := h
  rcases qs with _ | ⟨a, _ | ⟨b, _ | ⟨c, rest⟩⟩⟩
  · simp at hq
  · simp [leadingFailures, List.takeWhile_cons]; split_ifs <;> simp
  · simp [leadingFailures, List.takeWhile_cons]; split_ifs <;> simp
  · simp only [List.take_succ_cons, List.take_zero, List.mem_cons, List.mem_nil_iff,
      or_false] at hq
    simp only [leadingFailures, List.takeWhile_cons]
    rcases hq with rfl | rfl | rfl
    · simp [hs]
    · split_ifs <;> simp_all
    · split_ifs <;> simp_all

/-- A run that is neither cut short by the deadline nor by the bailout has recorded
every outcome. -/
theorem rangeDomains_complete (F : FloatModel) (w : World) (addr : String)
    (ds : List String) (s : LoopState)
    (hdone : ∀ j, j < ds.length → w.done (s.result.Queries + j) = false)
    (hok : 0 < s.result.Successes ∨
      s.consecutiveFailures + leadingFailures (outcomes w addr s.result.Queries ds) < 3) :
    ∃ s1, rangeDomains F w addr ds s = Flow.next s1 ∧
      s1.result = (outcomes w addr s.result.Queries ds).foldl record s.result := by
  obtain ⟨s1, h1⟩ := rangeDomains_no_return F w addr ds s hdone hok
  exact ⟨s1, h1, rangeDomains_next F w addr ds s s1 h1⟩

/-- C2. No bailout after a success: when the deadline is never observed as elapsed and
at least one of the first three queries succeeds, `testResolver` issues all
`Iterations × len(Domains)` queries, and its error list holds only errors captured from
failed queries (the first five of them): no bailout note is recorded. -/
theorem testResolver_no_bailout_after_success (F : FloatModel) (config : Config)
    (w : World) (res : Resolver) (addr : String)
    (hdone : ∀ k, w.done k = false)
    (hsucc : ∃ q ∈ (issued config w addr).take 3, q.Success = true) :
    (testResolver F config w res addr).Queries =
        config.Iterations * config.Domains.length ∧
      (testResolver F config w res addr).Errors =
        (errorsOf (issued config w addr)).take 5 ∧
      (testResolver F config w res addr).RTTs = rttsOf (issued config w addr) := by
  obtain ⟨s1, h1, h2⟩ := rangeDomains_complete F w addr (schedule config)
    (initialState res addr) (fun j _ => hdone _)
    (Or.inr (by simpa [initialState] using leadingFailures_lt_three _ hsucc))
  rw [testResolver_result, h1]
  simp only [Flow.result, finish_fields, h2]
  obtain ⟨f1, -, -, f4, -⟩ := foldl_record_fields
    (outcomes w addr (initialState res addr).result.Queries (schedule config))
    (initialState res addr).result
  have fe := foldl_record_errors
    (outcomes w addr (initialState res addr).result.Queries (schedule config))
    (initialState res addr).result (by simp [initialState])
  rw [f1, f4, fe, outcomes_length, schedule_length]
  simp [initialState, issued]

theorem testResolver_no_bailout_after_success_witness :
    (∀ k, flakyWorld.done k = false) ∧
      (∃ q ∈ (issued sampleConfig flakyWorld "192.0.2.1").take 3, q.Success = true) ∧
      (testResolver binary64 sampleConfig flakyWorld {} "192.0.2.1").Queries =
        sampleConfig.Iterations * sampleConfig.Domains.length ∧
      (testResolver binary64 sampleConfig flakyWorld {} "192.0.2.1").Errors =
        (errorsOf (issued sampleConfig flakyWorld "192.0.2.1")).take 5 ∧
      (testResolver binary64 sampleConfig flakyWorld {} "192.0.2.1").RTTs =
        rttsOf (issued sampleConfig flakyWorld "192.0.2.1") :=
  ⟨fun _ => rfl, by decide,
    testResolver_no_bailout_after_success binary64 sampleConfig flakyWorld {} "192.0.2.1"
      (fun _ => rfl) (by decide)⟩

/-- The run up to the check that precedes query number `m` (counted from 0), when no
deadline was observed before it and no bailout happened: every earlier outcome has been
recorded, and an elapsed deadline at that check ends the run there. -/
theorem testResolver_stopped_at (F : FloatModel) (config : Config) (w : World)
    (res : Resolver) (addr : String) (m : Nat)
    (hm : m < config.Iterations * config.Domains.length)
    (hbefore : ∀ j, j < m → w.done j = false) (hat : w.done m = true)
    (hnb : m < 3 ∨ ∃ q ∈ (issued config w addr).take 3, q.Success = true) :
    testResolver F config w res addr =
      finish F (((issued config w addr).take m).foldl record (initialState res addr).result) := by
  have hlen : m < (schedule config).length := by rw [schedule_length]; exact hm
  have hsplit : schedule config = (schedule config).take m ++ (schedule config).drop m :=
    (List.take_append_drop m _).symm
  obtain ⟨d, rest, hdrop⟩ : ∃ d rest, (schedule config).drop m = d :: rest := by
    cases hd : (schedule config).drop m with
    | nil =>
      have := congrArg List.length hd
      simp at this
      omega
    | cons d rest => exact ⟨d, rest, rfl⟩
  have q0 : (initialState res addr).result.Queries = 0 := rfl
  have c0 : (initialState res addr).consecutiveFailures = 0 := rfl
  have htake : outcomes w addr 0 ((schedule config).take m) = (issued config w addr).take m := by
    rw [issued, outcomes_take]
  have hok : (initialState res addr).consecutiveFailures +
      leadingFailures (outcomes w addr (initialState res addr).result.Queries
        ((schedule config).take m)) < 3 := by
    rw [q0, c0, htake, Nat.zero_add]
    rcases hnb with h3 | hs
    · have h1 := leadingFailures_le_length ((issued config w addr).take m)
      have h2 : ((issued config w addr).take m).length ≤ m := List.length_take_le _ _
      omega
    · by_cases h3 : m < 3
      · have h1 := leadingFailures_le_length ((issued config w addr).take m)
        have h2 : ((issued config w addr).take m).length ≤ m := List.length_take_le _ _
        omega
      · apply leadingFailures_lt_three
        rw [List.take_take, Nat.min_eq_left (by omega)]
        exact hs
  obtain ⟨s1, h1, h2⟩ := rangeDomains_complete F w addr ((schedule config).take m)
    (initialState res addr)
    (fun j hj => by
      rw [q0, Nat.zero_add]
      exact hbefore j (lt_of_lt_of_le hj (List.length_take_le _ _)))
    (Or.inr hok)
  rw [q0, htake] at h2
  have hq : s1.result.Queries = m := by
    rw [h2, (foldl_record_fields _ _).1, q0, List.length_take, issued_length]
    omega
  rw [testResolver_result, hsplit, rangeDomains_append, h1, hdrop]
  simp only []
  rw [rangeDomains_cons, hq, hat]
  simp only [if_true, Flow.result, h2]

/-- The deadline is tested at the start of every pass: when the run reaches a pass
and the deadline is observed as elapsed there, the function returns what it holds, with
the summary filled in, without issuing another query. -/
theorem testResolver_of_elapsed (F : FloatModel) (config : Config) (w : World)
    (res : Resolver) (addr : String) (n : Nat) (s : LoopState)
    (hreach : afterPasses F config w res addr n = Flow.next s)
    (hn : n < config.Iterations * config.Domains.length) (hat : w.done n = true) :
    testResolver F config w res addr = finish F s.result ∧ s.result.Queries = n := by
  have hlen : n < (schedule config).length := by rw [schedule_length]; exact hn
  have hsplit : schedule config = (schedule config).take n ++ (schedule config).drop n :=
    (List.take_append_drop n _).symm
  obtain ⟨d, rest, hdrop⟩ : ∃ d rest, (schedule config).drop n = d :: rest := by
    cases hd : (schedule config).drop n with
    | nil =>
      have := congrArg List.length hd
      simp at this
      omega
    | cons d rest => exact ⟨d, rest, rfl⟩
  have hres := rangeDomains_next F w addr _ _ s hreach
  have hq : s.result.Queries = n := by
    rw [hres, (foldl_record_fields _ _).1, outcomes_length, List.length_take]
    simp only [initialState]
    omega
  refine ⟨?_, hq⟩
  unfold afterPasses at hreach
  rw [testResolver_result, hsplit, rangeDomains_append, hreach, hdrop]
  simp only []
  rw [rangeDomains_cons, hq, hat]
  simp only [if_true, Flow.result]

/-- C6. Cancellation check: the deadline is tested before every query (a run that
reaches a pass where the deadline is observed as elapsed returns there with what it
holds).  If the deadline is first observed as elapsed at the check before the `k`-th
query (`k ≥ 1`, no bailout earlier: fewer than three queries were issued or one of the
first three succeeded), then exactly `k - 1` queries are issued and the result carries
the counts, samples and errors accumulated from them, with `Stats = Calculate` of the
collected RTTs.  A deadline elapsed at the first check gives `Queries = 0` and the
all-zero summary. -/
theorem testResolver_deadline (F : FloatModel) (config : Config) (w : World)
    (res : Resolver) (addr : String) :
    (∀ (n : Nat) (s : LoopState), afterPasses F config w res addr n = Flow.next s →
        n < config.Iterations * config.Domains.length → w.done n = true →
        testResolver F config w res addr = finish F s.result ∧
          (testResolver F config w res addr).Queries = n) ∧
    (∀ k : Nat, 1 ≤ k → k ≤ config.Iterations * config.Domains.length →
        (∀ j, j < k - 1 → w.done j = false) → w.done (k - 1) = true →
        (k - 1 < 3 ∨ ∃ q ∈ (issued config w addr).take 3, q.Success = true) →
        (testResolver F config w res addr).Queries = k - 1 ∧
          (testResolver F config w res addr).RTTs =
            rttsOf ((issued config w addr).take (k - 1)) ∧
          (testResolver F config w res addr).Stats =
            Calculate F (rttsOf ((issued config w addr).take (k - 1))) ∧
          (testResolver F config w res addr).Successes =
            ((issued config w addr).take (k - 1)).countP (fun q => q.Success) ∧
          (testResolver F config w res addr).Failures =
            ((issued config w addr).take (k - 1)).countP (fun q => !q.Success) ∧
          (testResolver F config w res addr).Errors =
            (errorsOf ((issued config w addr).take (k - 1))).take 5) ∧
      (w.done 0 = true →
        (testResolver F config w res addr).Queries = 0 ∧
          (testResolver F config w res addr).Stats = ⟨0, 0, 0, 0, 0, 0, 0, 0, 0, 0, 0⟩) := by
  have key : ∀ m : Nat, m < config.Iterations * config.Domains.length →
      (∀ j, j < m → w.done j = false) → w.done m = true →
      (m < 3 ∨ ∃ q ∈ (issued config w addr).take 3, q.Success = true) →
      (testResolver F config w res addr).Queries = m ∧
        (testResolver F config w res addr).RTTs = rttsOf ((issued config w addr).take m) ∧
        (testResolver F config w res addr).Stats =
          Calculate F (rttsOf ((issued config w addr).take m)) ∧
        (testResolver F config w res addr).Successes =
          ((issued config w addr).take m).countP (fun q => q.Success) ∧
        (testResolver F config w res addr).Failures =
          ((issued config w addr).take m).countP (fun q => !q.Success) ∧
        (testResolver F config w res addr).Errors =
          (errorsOf ((issued config w addr).take m)).take 5 := by
    intro m hm hbefore hat hnb
    rw [testResolver_stopped_at F config w res addr m hm hbefore hat hnb]
    obtain ⟨f1, f2, f3, f4, -⟩ := foldl_record_fields ((issued config w addr).take m)
      (initialState res addr).result
    have fe := foldl_record_errors ((issued config w addr).take m)
      (initialState res addr).result (by simp [initialState])
    simp only [finish_fields, f1, f2, f3, f4, fe]
    have hl : ((issued config w addr).take m).length = m := by
      rw [List.length_take, issued_length]; omega
    simp [initialState, hl]
  refine ⟨?_, ?_, ?_⟩
  · intro n s hreach hn hat
    obtain ⟨h1, h2⟩ := testResolver_of_elapsed F config w res addr n s hreach hn hat
    exact ⟨h1, by rw [h1]; exact h2⟩
  · intro k hk1 hk hbefore hat hnb
    exact key (k - 1) (by omega) hbefore hat hnb
  · intro h0
    by_cases ht : 0 < config.Iterations * config.Domains.length
    · obtain ⟨k1, -, k3, -⟩ := key 0 ht (fun j hj => absurd hj (Nat.not_lt_zero j)) h0
        (Or.inl (by omega))
      refine ⟨k1, ?_⟩
      rw [k3]
      simp [rttsOf, calculate_nil]
    · have hs : schedule config = [] := by
        apply List.eq_nil_of_length_eq_zero
        rw [schedule_length]; omega
      rw [testResolver_result, hs]
      simp [rangeDomains, Flow.result, finish, initialState, calculate_nil]

theorem testResolver_deadline_witness :
    (afterPasses binary64 sampleConfig deadlineWorld {} "192.0.2.1" 4 =
        Flow.next deadlineAfterFour ∧
      4 < sampleConfig.Iterations * sampleConfig.Domains.length ∧
      deadlineWorld.done 4 = true) ∧
    (testResolver binary64 sampleConfig deadlineWorld {} "192.0.2.1" =
        finish binary64 deadlineAfterFour.result ∧
      (testResolver binary64 sampleConfig deadlineWorld {} "192.0.2.1").Queries = 4) ∧
    (1 ≤ 5 ∧ 5 ≤ sampleConfig.Iterations * sampleConfig.Domains.length ∧
        (∀ j, j < 5 - 1 → deadlineWorld.done j = false) ∧ deadlineWorld.done (5 - 1) = true ∧
        (5 - 1 < 3 ∨ ∃ q ∈ (issued sampleConfig deadlineWorld "192.0.2.1").take 3,
          q.Success = true)) ∧
      ((testResolver binary64 sampleConfig deadlineWorld {} "192.0.2.1").Queries = 5 - 1 ∧
        (testResolver binary64 sampleConfig deadlineWorld {} "192.0.2.1").RTTs =
          rttsOf ((issued sampleConfig deadlineWorld "192.0.2.1").take (5 - 1)) ∧
        (testResolver binary64 sampleConfig deadlineWorld {} "192.0.2.1").Stats =
          Calculate binary64 (rttsOf ((issued sampleConfig deadlineWorld "192.0.2.1").take (5 - 1))) ∧
        (testResolver binary64 sampleConfig deadlineWorld {} "192.0.2.1").Successes =
          ((issued sampleConfig deadlineWorld "192.0.2.1").take (5 - 1)).countP
            (fun q => q.Success) ∧
        (testResolver binary64 sampleConfig deadlineWorld {} "192.0.2.1").Failures =
          ((issued sampleConfig deadlineWorld "192.0.2.1").take (5 - 1)).countP
            (fun q => !q.Success) ∧
        (testResolver binary64 sampleConfig deadlineWorld {} "192.0.2.1").Errors =
          (errorsOf ((issued sampleConfig deadlineWorld "192.0.2.1").take (5 - 1))).take 5) ∧
      elapsedWorld.done 0 = true ∧
      ((testResolver binary64 sampleConfig elapsedWorld {} "192.0.2.1").Queries = 0 ∧
        (testResolver binary64 sampleConfig elapsedWorld {} "192.0.2.1").Stats =
          ⟨0, 0, 0, 0, 0, 0, 0, 0, 0, 0, 0⟩) :=
  ⟨⟨by decide, by decide, by decide⟩,
    (testResolver_deadline binary64 sampleConfig deadlineWorld {} "192.0.2.1").1 4
      deadlineAfterFour (by decide) (by decide) (by decide),
    ⟨by decide, by decide, by decide, by decide, Or.inr (by decide)⟩,
    (testResolver_deadline binary64 sampleConfig deadlineWorld {} "192.0.2.1").2.1 5
      (by decide) (by decide) (by decide) (by decide) (Or.inr (by decide)),
    rfl,
    (testResolver_deadline binary64 sampleConfig elapsedWorld {} "192.0.2.1").2.2 rfl⟩

theorem outcomes_getElem? (w : World) (addr : String) (ds : List String) :
    ∀ k n : Nat, (outcomes w addr k ds)[n]? =
      ds[n]?.map (fun d => Query (w.exchange (k + n)) addr d TypeA) := by
  induction ds with
  | nil => intro k n; simp [outcomes]
  | cons d rest ih =>
    intro k n
    cases n with
    | zero => simp [outcomes]
    | succ m =>
      simp only [outcomes, List.getElem?_cons_succ, ih]
      congr 1
      funext d
      congr 2
      omega

/-- One more pass: the loop body runs on the next scheduled domain, unless the run
has returned already. -/
theorem afterPasses_succ (F : FloatModel) (config : Config) (w : World) (res : Resolver)
    (addr : String) (n : Nat) (d : String) (hd : (schedule config)[n]? = some d) :
    afterPasses F config w res addr (n + 1) =
      match afterPasses F config w res addr n with
      | Flow.next s => loopBody F w addr s d
      | Flow.ret r => Flow.ret r := by
  unfold afterPasses
  rw [List.take_succ, hd, rangeDomains_append]
  cases rangeDomains F w addr (List.take n (schedule config)) (initialState res addr) with
  | ret r => rfl
  | next s =>
    simp only [Option.toList, rangeDomains]
    cases loopBody F w addr s d <;> rfl

/-- While no query has succeeded, the consecutive-failure counter equals the number
of queries issued, and a run that has not bailed out has issued at most two. -/
theorem rangeDomains_counter (F : FloatModel) (w : World) (addr : String)
    (ds : List String) :
    ∀ s s1 : LoopState, rangeDomains F w addr ds s = Flow.next s1 →
      (s.result.Successes = 0 →
        s.consecutiveFailures = s.result.Queries ∧ s.result.Queries ≤ 2) →
      (s1.result.Successes = 0 →
        s1.consecutiveFailures = s1.result.Queries ∧ s1.result.Queries ≤ 2) := by
  induction ds with
  | nil =>
    intro s s1 h hk
    simp only [rangeDomains, Flow.next.injEq] at h
    rw [← h]; exact hk
  | cons d rest ih =>
    intro s s1 h hk
    rw [rangeDomains_cons] at h
    split_ifs at h with hd hb
    refine ih _ s1 h ?_
    obtain ⟨r1, r2, -⟩ :=
      record_fields s.result (Query (w.exchange s.result.Queries) addr d TypeA)
    simp only [r1, r2]
    intro h0
    by_cases hs : (Query (w.exchange s.result.Queries) addr d TypeA).Success
    · simp [hs] at h0
    · have hs2 : (Query (w.exchange s.result.Queries) addr d TypeA).Success = false := by
        simpa using hs
      simp only [hs2, List.countP_cons, List.countP_nil, Bool.false_eq_true, if_false,
        Nat.add_zero] at h0
      obtain ⟨k1, k2⟩ := hk h0
      have hnb : ¬(s.consecutiveFailures + 1 ≥ maxConsecutiveFailures) := fun h3 =>
        hb ⟨hs2, h0, h3⟩
      unfold maxConsecutiveFailures at hnb
      simp only [consecutive, hs2, Bool.false_eq_true, if_false]
      omega

/-- C8 (amended). Error capture on failure: when a failed query carries an error value
and fewer than 5 errors have been captured, its message is appended to `Errors`, also
when it is the third consecutive failure after a success; the exception is the query
that triggers the bailout (the third query of a run whose first two queries failed):
there the bailout note is appended and the query's own error is not captured. -/
theorem testResolver_error_capture (F : FloatModel) (config : Config) (w : World)
    (res : Resolver) (addr : String) (n : Nat) (s : LoopState) (q : QueryResult)
    (e : String)
    (hreach : afterPasses F config w res addr n = Flow.next s)
    (hq : (issued config w addr)[n]? = some q) (hd : w.done n = false)
    (hf : q.Success = false) (he : q.Error = some e)
    (hlt : s.result.Errors.length < 5) :
    (¬(n = 2 ∧ ∀ p ∈ (issued config w addr).take 2, p.Success = false) →
        (afterPasses F config w res addr (n + 1)).errors = s.result.Errors ++ [e]) ∧
      ((n = 2 ∧ ∀ p ∈ (issued config w addr).take 2, p.Success = false) →
        (afterPasses F config w res addr (n + 1)).errors =
          s.result.Errors ++ [bailoutNote]) := by
  rw [issued, outcomes_getElem?] at hq
  obtain ⟨d, hd1, hd2⟩ := Option.map_eq_some'.mp hq
  rw [Nat.zero_add] at hd2
  have hn : n < (schedule config).length := (List.getElem?_eq_some_iff.mp hd1).1
  have hres := rangeDomains_next F w addr _ _ s hreach
  have hcnt := rangeDomains_counter F w addr _ _ s hreach (fun _ => ⟨rfl, by simp [initialState]⟩)
  have q0 : (initialState res addr).result.Queries = 0 := rfl
  have s0 : (initialState res addr).result.Successes = 0 := rfl
  rw [q0, ← outcomes_take] at hres
  have hqn : s.result.Queries = n := by
    rw [hres, (foldl_record_fields _ _).1, q0, List.length_take, outcomes_length]
    omega
  have hsn : s.result.Successes =
      ((issued config w addr).take n).countP (fun p => p.Success) := by
    rw [hres, (foldl_record_fields _ _).2.1, s0, Nat.zero_add]
    rfl
  have hbail : (s.result.Successes = 0 ∧ s.consecutiveFailures + 1 ≥ maxConsecutiveFailures) ↔
      (n = 2 ∧ ∀ p ∈ (issued config w addr).take 2, p.Success = false) := by
    unfold maxConsecutiveFailures
    constructor
    · rintro ⟨h0, h3⟩
      obtain ⟨k1, k2⟩ := hcnt h0
      have hn2 : n = 2 := by omega
      refine ⟨hn2, ?_⟩
      rw [hsn, hn2, List.countP_eq_zero] at h0
      intro p hp
      simpa using h0 p hp
    · rintro ⟨hn2, hall⟩
      have h0 : s.result.Successes = 0 := by
        rw [hsn, hn2, List.countP_eq_zero]
        intro p hp
        simpa using hall p hp
      obtain ⟨k1, k2⟩ := hcnt h0
      exact ⟨h0, by omega⟩
  rw [afterPasses_succ F config w res addr n d hd1, hreach]
  simp only []
  rw [loopBody_eq, hqn, hd, hd2, hf, ← hbail]
  constructor
  · intro hnb
    simp only [Bool.false_eq_true, if_false, true_and, hnb, Flow.errors]
    rw [record_errors _ _ (by omega)]
    simp only [errorsOf, List.filterMap_cons, hf, Bool.false_eq_true, if_false, he,
      List.filterMap_nil]
    exact List.take_of_length_le (by simp; omega)
  · intro hb
    simp only [Bool.false_eq_true, if_false, true_and, hb, and_self, if_true, Flow.errors]
    exact bailout_errors F s.result hlt

theorem testResolver_error_capture_witness :
    afterPasses binary64 sampleConfig flakyWorld {} "192.0.2.1" 3 = Flow.next flakyAfterThree ∧
      (issued sampleConfig flakyWorld "192.0.2.1")[3]? =
        some (Query (flakyWorld.exchange 3) "192.0.2.1" "example.com" TypeA) ∧
      flakyWorld.done 3 = false ∧
      (Query (flakyWorld.exchange 3) "192.0.2.1" "example.com" TypeA).Success = false ∧
      (Query (flakyWorld.exchange 3) "192.0.2.1" "example.com" TypeA).Error =
        some "i/o timeout" ∧
      flakyAfterThree.result.Errors.length < 5 ∧
      ¬(3 = 2 ∧ ∀ p ∈ (issued sampleConfig flakyWorld "192.0.2.1").take 2, p.Success = false) ∧
      (afterPasses binary64 sampleConfig flakyWorld {} "192.0.2.1" (3 + 1)).errors =
        flakyAfterThree.result.Errors ++ ["i/o timeout"] :=
  ⟨by decide, by decide, rfl, by decide, by decide, by decide, by decide,
    (testResolver_error_capture binary64 sampleConfig flakyWorld {} "192.0.2.1" 3
      flakyAfterThree (Query (flakyWorld.exchange 3) "192.0.2.1" "example.com" TypeA)
      "i/o timeout" (by decide) (by decide) rfl (by decide) (by decide) (by decide)).1
      (by decide)⟩

/-- C8 as stated fails at the query that triggers the bailout: in the run whose first
three queries fail with the errors "e1", "e2", "e3", the third query is issued, fails
carrying "e3" while only two errors are captured, and yet "e3" is not appended: the
bailout note is, and the returned error list does not contain "e3". -/
theorem error_capture_counterexample :
    afterPasses binary64 sampleConfig unreachableWorld {} "192.0.2.1" 2 =
        Flow.next unreachableAfterTwo ∧
      (issued sampleConfig unreachableWorld "192.0.2.1")[2]? =
        some (Query (unreachableWorld.exchange 2) "192.0.2.1" "github.com" TypeA) ∧
      unreachableWorld.done 2 = false ∧
      (Query (unreachableWorld.exchange 2) "192.0.2.1" "github.com" TypeA).Success = false ∧
      (Query (unreachableWorld.exchange 2) "192.0.2.1" "github.com" TypeA).Error = some "e3" ∧
      unreachableAfterTwo.result.Errors.length < 5 ∧
      (afterPasses binary64 sampleConfig unreachableWorld {} "192.0.2.1" (2 + 1)).errors ≠
        unreachableAfterTwo.result.Errors ++ ["e3"] ∧
      (testResolver binary64 sampleConfig unreachableWorld {} "192.0.2.1").Errors =
        ["e1", "e2", bailoutNote] ∧
      "e3" ∉ (testResolver binary64 sampleConfig unreachableWorld {} "192.0.2.1").Errors := by
  refine ⟨by decide, by decide, rfl, by decide, by decide, by decide, by decide, by decide,
    by decide⟩

/-! ## Ordering of the summary fields -/

theorem sorted_getD_le (s : List Int) (hs : s.Sorted (· ≤ ·)) (i j : Nat) (hij : i ≤ j)
    (hj : j < s.length) : s.getD i 0 ≤ s.getD j 0 := by
  have hi : i < s.length := by omega
  rw [List.getD_eq_getElem _ _ hi, List.getD_eq_getElem _ _ hj]
  exact hs.rel_get_of_le (a := ⟨i, hi⟩) (b := ⟨j, hj⟩) hij

/-- Without rounding, and for samples and a length that fit `int64`, no conversion of
`percentile` overflows and no `int64` operation wraps. -/
theorem percentile_exactArith (s : List Int) (p : ℚ) (hn : 2 ≤ s.length)
    (hlen : (s.length : Int) ≤ maxInt64) (hp0 : 0 ≤ p) (hp1 : p ≤ 100)
    (hs : ∀ x ∈ s, 0 ≤ x ∧ x ≤ maxInt64) :
    percentile exactArith s p = interpolate exactArith s p := by
  have hn0 : s.length ≠ 0 := by omega
  have hn1 : s.length ≠ 1 := by omega
  have hB : ((((s.length : Int) - 1 : Int)) : ℚ) = (s.length : ℚ) - 1 := by push_cast; ring
  have hlen0 : (0 : ℚ) ≤ (s.length : ℚ) - 1 := by
    have : (2 : ℚ) ≤ (s.length : ℚ) := by exact_mod_cast hn
    linarith
  have hp : p / 100 ≤ 1 := by rw [div_le_one (by norm_num)]; exact hp1
  have hr0 : 0 ≤ p / 100 * ((s.length : ℚ) - 1) :=
    mul_nonneg (div_nonneg hp0 (by norm_num)) hlen0
  have hr1 : p / 100 * ((s.length : ℚ) - 1) ≤ (s.length : ℚ) - 1 := by
    calc p / 100 * ((s.length : ℚ) - 1) ≤ 1 * ((s.length : ℚ) - 1) :=
          mul_le_mul_of_nonneg_right hp hlen0
      _ = (s.length : ℚ) - 1 := one_mul _
  generalize hr : p / 100 * ((s.length : ℚ) - 1) = r at hr0 hr1
  have hfl : (⌊r⌋₊ : ℚ) ≤ r := Nat.floor_le hr0
  have hfl2 : r < (⌊r⌋₊ : ℚ) + 1 := Nat.lt_floor_add_one r
  have hlon : ⌊r⌋₊ ≤ s.length - 1 := by
    apply Nat.floor_le_of_le
    rw [Nat.cast_sub (by omega)]; simpa using hr1
  have hlower : toInt64 r = ((⌊r⌋₊ : Nat) : Int) := by
    have h : truncQ r = ((⌊r⌋₊ : Nat) : Int) := by
      rw [truncQ_of_nonneg hr0, Int.natCast_floor_eq_floor hr0]
    unfold toInt64
    rw [if_pos, h]
    rw [h]
    unfold isInt64 minInt64
    unfold maxInt64 at hlen ⊢
    constructor <;> omega
  generalize hlo : ⌊r⌋₊ = lo at hfl hfl2 hlon hlower
  have hx0 : 0 ≤ r - (lo : ℚ) := by linarith
  have hx1 : r - (lo : ℚ) ≤ 1 := by linarith
  have hupper : (if ((lo : Int) + 1 ≥ (s.length : Int)) then (s.length : Int) - 1
      else (lo : Int) + 1) = ((min (lo + 1) (s.length - 1) : Nat) : Int) := by
    split_ifs with h
    · rw [Nat.min_eq_right (by omega)]; omega
    · rw [Nat.min_eq_left (by omega)]; omega
  generalize hhi : min (lo + 1) (s.length - 1) = hi at hupper
  have hmax : (0 : Int) ≤ maxInt64 := by unfold maxInt64; norm_num
  obtain ⟨ha0, ha1⟩ := getD_bounds s maxInt64 hmax hs lo
  obtain ⟨hb0, hb1⟩ := getD_bounds s maxInt64 hmax hs hi
  have hdiff : wrap64 (s.getD hi 0 - s.getD lo 0) = s.getD hi 0 - s.getD lo 0 := by
    apply wrap64_of_isInt64
    unfold isInt64 minInt64
    unfold maxInt64 at ha1 hb1 ⊢
    constructor <;> omega
  -- the interpolation term lies between 0 and the difference
  have hT : |(truncQ ((r - (lo : ℚ)) * ((s.getD hi 0 : ℚ) - (s.getD lo 0 : ℚ))) : ℚ)| ≤
      |((s.getD hi 0 : ℚ) - (s.getD lo 0 : ℚ))| := by
    refine le_trans (truncQ_abs_le _) ?_
    rw [abs_mul, abs_of_nonneg hx0]
    calc (r - (lo : ℚ)) * |((s.getD hi 0 : ℚ) - (s.getD lo 0 : ℚ))|
        ≤ 1 * |((s.getD hi 0 : ℚ) - (s.getD lo 0 : ℚ))| :=
          mul_le_mul_of_nonneg_right hx1 (abs_nonneg _)
      _ = _ := one_mul _
  have hT2 : |truncQ ((r - (lo : ℚ)) * ((s.getD hi 0 : ℚ) - (s.getD lo 0 : ℚ)))| ≤
      |s.getD hi 0 - s.getD lo 0| := by
    have : ((|s.getD hi 0 - s.getD lo 0| : Int) : ℚ) =
        |((s.getD hi 0 : ℚ) - (s.getD lo 0 : ℚ))| := by push_cast; rfl
    rw [← this] at hT
    exact_mod_cast hT
  have hsign : 0 ≤ s.getD hi 0 - s.getD lo 0 →
      0 ≤ truncQ ((r - (lo : ℚ)) * ((s.getD hi 0 : ℚ) - (s.getD lo 0 : ℚ))) := by
    intro h
    have h2 : (0 : ℚ) ≤ (s.getD hi 0 : ℚ) - (s.getD lo 0 : ℚ) := by exact_mod_cast h
    rw [truncQ_of_nonneg (mul_nonneg hx0 h2)]
    exact Int.floor_nonneg.mpr (mul_nonneg hx0 h2)
  have hsign2 : s.getD hi 0 - s.getD lo 0 ≤ 0 →
      truncQ ((r - (lo : ℚ)) * ((s.getD hi 0 : ℚ) - (s.getD lo 0 : ℚ))) ≤ 0 := by
    intro h
    have h2 : (s.getD hi 0 : ℚ) - (s.getD lo 0 : ℚ) ≤ 0 := by exact_mod_cast h
    have h3 : 0 ≤ -((r - (lo : ℚ)) * ((s.getD hi 0 : ℚ) - (s.getD lo 0 : ℚ))) := by
      rw [← mul_neg]; exact mul_nonneg hx0 (by linarith)
    have h4 := truncQ_neg ((r - (lo : ℚ)) * ((s.getD hi 0 : ℚ) - (s.getD lo 0 : ℚ)))
    rw [truncQ_of_nonneg h3] at h4
    have h5 := Int.floor_nonneg.mpr h3
    omega
  generalize hterm : truncQ ((r - (lo : ℚ)) * ((s.getD hi 0 : ℚ) - (s.getD lo 0 : ℚ))) = t
    at hT2 hsign hsign2
  have ht64 : isInt64 t := by
    unfold isInt64 minInt64
    unfold maxInt64 at ha1 hb1 ⊢
    rw [abs_le] at hT2
    rcases le_total 0 (s.getD hi 0 - s.getD lo 0) with h | h
    · have := hsign h
      rw [abs_of_nonneg h] at hT2
      constructor <;> omega
    · have := hsign2 h
      rw [abs_of_nonpos h] at hT2
      constructor <;> omega
  have hsum : wrap64 (s.getD lo 0 + t) = s.getD lo 0 + t := by
    apply wrap64_of_isInt64
    unfold isInt64 minInt64
    unfold maxInt64 at ha1 hb1 ⊢
    rw [abs_le] at hT2
    rcases le_total 0 (s.getD hi 0 - s.getD lo 0) with h | h
    · have := hsign h
      rw [abs_of_nonneg h] at hT2
      constructor <;> omega
    · have := hsign2 h
      rw [abs_of_nonpos h] at hT2
      constructor <;> omega
  unfold percentile interpolate exactArith
  simp only [hn0, hn1, if_false, id, hB, hr, hlo, hhi, hlower, hupper, at_natCast, hdiff]
  simp only [Int.cast_natCast, Int.cast_sub, toInt64, hterm]
  rw [if_pos ht64, hsum]

/-- The rank `(p/100) × (n−1)` of `0 ≤ p ≤ 100` lies between 0 and `n − 1`. -/
theorem rank_bounds (n : Nat) (p : ℚ) (hn : 1 ≤ n) (hp0 : 0 ≤ p) (hp1 : p ≤ 100) :
    0 ≤ p / 100 * ((n : ℚ) - 1) ∧ ⌊p / 100 * ((n : ℚ) - 1)⌋₊ ≤ n - 1 := by
  have hlen0 : (0 : ℚ) ≤ (n : ℚ) - 1 := by
    have : (1 : ℚ) ≤ (n : ℚ) := by exact_mod_cast hn
    linarith
  have hp : p / 100 ≤ 1 := by rw [div_le_one (by norm_num)]; exact hp1
  refine ⟨mul_nonneg (div_nonneg hp0 (by norm_num)) hlen0, ?_⟩
  apply Nat.floor_le_of_le
  rw [Nat.cast_sub hn]
  calc p / 100 * ((n : ℚ) - 1) ≤ 1 * ((n : ℚ) - 1) := mul_le_mul_of_nonneg_right hp hlen0
    _ = ((n : ℚ) - ((1 : Nat) : ℚ)) := by simp

/-- Without rounding, the interpolated value lies between the two order statistics it
is interpolated from. -/
theorem interpolate_exactArith_bounds (s : List Int) (hsorted : s.Sorted (· ≤ ·)) (p : ℚ)
    (hn : 1 ≤ s.length) (hp0 : 0 ≤ p) (hp1 : p ≤ 100) :
    s.getD ⌊p / 100 * ((s.length : ℚ) - 1)⌋₊ 0 ≤ interpolate exactArith s p ∧
      interpolate exactArith s p ≤
        s.getD (min (⌊p / 100 * ((s.length : ℚ) - 1)⌋₊ + 1) (s.length - 1)) 0 := by
  obtain ⟨hr0, hlon⟩ := rank_bounds s.length p hn hp0 hp1
  unfold interpolate exactArith
  simp only [id]
  generalize hr : p / 100 * ((s.length : ℚ) - 1) = r at hr0 hlon
  have hfl : (⌊r⌋₊ : ℚ) ≤ r := Nat.floor_le hr0
  have hfl2 : r < (⌊r⌋₊ : ℚ) + 1 := Nat.lt_floor_add_one r
  generalize hlo : ⌊r⌋₊ = lo at hfl hfl2 hlon
  have hhin : min (lo + 1) (s.length - 1) < s.length := by
    have := Nat.min_le_right (lo + 1) (s.length - 1); omega
  have hlohi : lo ≤ min (lo + 1) (s.length - 1) := by
    rw [Nat.le_min]; omega
  have hd := sorted_getD_le s hsorted lo _ hlohi hhin
  generalize min (lo + 1) (s.length - 1) = hi at hd ⊢
  have hdq : (0 : ℚ) ≤ (s.getD hi 0 : ℚ) - (s.getD lo 0 : ℚ) := by
    have : (s.getD lo 0 : ℚ) ≤ (s.getD hi 0 : ℚ) := by exact_mod_cast hd
    linarith
  have hx0 : 0 ≤ r - (lo : ℚ) := by linarith
  have hx1 : r - (lo : ℚ) ≤ 1 := by linarith
  rw [truncQ_of_nonneg (mul_nonneg hx0 hdq)]
  have h1 : 0 ≤ ⌊(r - (lo : ℚ)) * ((s.getD hi 0 : ℚ) - (s.getD lo 0 : ℚ))⌋ :=
    Int.floor_nonneg.mpr (mul_nonneg hx0 hdq)
  have h2 : ⌊(r - (lo : ℚ)) * ((s.getD hi 0 : ℚ) - (s.getD lo 0 : ℚ))⌋ ≤
      s.getD hi 0 - s.getD lo 0 := by
    rw [Int.floor_le_iff]
    have : (r - (lo : ℚ)) * ((s.getD hi 0 : ℚ) - (s.getD lo 0 : ℚ)) ≤
        1 * ((s.getD hi 0 : ℚ) - (s.getD lo 0 : ℚ)) := mul_le_mul_of_nonneg_right hx1 hdq
    push_cast
    linarith
  show s.getD lo 0 ≤ s.getD lo 0 + ⌊(r - (lo : ℚ)) * ((s.getD hi 0 : ℚ) - (s.getD lo 0 : ℚ))⌋ ∧
    s.getD lo 0 + ⌊(r - (lo : ℚ)) * ((s.getD hi 0 : ℚ) - (s.getD lo 0 : ℚ))⌋ ≤ s.getD hi 0
  constructor <;> omega

/-- Without rounding, the interpolated value does not decrease when `p` grows. -/
theorem interpolate_exactArith_mono (s : List Int) (hsorted : s.Sorted (· ≤ ·)) (p q : ℚ)
    (hn : 1 ≤ s.length) (hp0 : 0 ≤ p) (hpq : p ≤ q) (hq1 : q ≤ 100) :
    interpolate exactArith s p ≤ interpolate exactArith s q := by
  have hlen0 : (0 : ℚ) ≤ (s.length : ℚ) - 1 := by
    have : (1 : ℚ) ≤ (s.length : ℚ) := by exact_mod_cast hn
    linarith
  have hrr : p / 100 * ((s.length : ℚ) - 1) ≤ q / 100 * ((s.length : ℚ) - 1) :=
    mul_le_mul_of_nonneg_right (div_le_div_of_nonneg_right hpq (by norm_num)) hlen0
  have hfloor := Nat.floor_mono hrr
  obtain ⟨hp1, hp2⟩ := interpolate_exactArith_bounds s hsorted p hn hp0 (le_trans hpq hq1)
  obtain ⟨hq2, hq3⟩ := interpolate_exactArith_bounds s hsorted q hn (le_trans hp0 hpq) hq1
  obtain ⟨hrp0, -⟩ := rank_bounds s.length p hn hp0 (le_trans hpq hq1)
  obtain ⟨hrq0, hqn⟩ := rank_bounds s.length q hn (le_trans hp0 hpq) hq1
  rcases Nat.lt_or_ge ⌊p / 100 * ((s.length : ℚ) - 1)⌋₊ ⌊q / 100 * ((s.length : ℚ) - 1)⌋₊
    with hlt | hge
  · have h := sorted_getD_le s hsorted
      (min (⌊p / 100 * ((s.length : ℚ) - 1)⌋₊ + 1) (s.length - 1))
      ⌊q / 100 * ((s.length : ℚ) - 1)⌋₊
      (le_trans (Nat.min_le_left _ _) hlt) (by omega)
    exact le_trans hp2 (le_trans h hq2)
  · have heq : ⌊p / 100 * ((s.length : ℚ) - 1)⌋₊ = ⌊q / 100 * ((s.length : ℚ) - 1)⌋₊ :=
      le_antisymm hfloor hge
    unfold interpolate exactArith
    simp only [id]
    rw [heq]
    generalize hrp : p / 100 * ((s.length : ℚ) - 1) = rp at hrr heq hrp0
    generalize hrq : q / 100 * ((s.length : ℚ) - 1) = rq at hrr heq hrq0 hqn
    have hfl : (⌊rp⌋₊ : ℚ) ≤ rp := Nat.floor_le hrp0
    rw [heq] at hfl
    generalize hlo : ⌊rq⌋₊ = lo at hfl hqn
    have hhin : min (lo + 1) (s.length - 1) < s.length := by
      have := Nat.min_le_right (lo + 1) (s.length - 1); omega
    have hlohi : lo ≤ min (lo + 1) (s.length - 1) := by
      rw [Nat.le_min]; omega
    have hd := sorted_getD_le s hsorted lo _ hlohi hhin
    generalize min (lo + 1) (s.length - 1) = hi at hd ⊢
    have hdq : (0 : ℚ) ≤ (s.getD hi 0 : ℚ) - (s.getD lo 0 : ℚ) := by
      have : (s.getD lo 0 : ℚ) ≤ (s.getD hi 0 : ℚ) := by exact_mod_cast hd
      linarith
    have hx0 : 0 ≤ rp - (lo : ℚ) := by linarith
    have hx0q : 0 ≤ rq - (lo : ℚ) := by linarith
    rw [truncQ_of_nonneg (mul_nonneg hx0 hdq), truncQ_of_nonneg (mul_nonneg hx0q hdq)]
    exact add_le_add_left
      (Int.floor_mono (mul_le_mul_of_nonneg_right (sub_le_sub_right hrr (lo : ℚ)) hdq)) _

/-- Adding up non-negative samples whose total fits `int64` never wraps. -/
theorem foldl_wrap64_eq_sum (l : List Int) :
    ∀ acc : Int, 0 ≤ acc → (∀ x ∈ l, 0 ≤ x) → acc + l.sum ≤ maxInt64 →
      l.foldl (fun sum rtt => wrap64 (sum + rtt)) acc = acc + l.sum := by
  induction l with
  | nil => intro acc _ _ _; simp
  | cons a l ih =>
    intro acc hacc hl hsum
    have ha : 0 ≤ a := hl a (List.mem_cons_self _ _)
    have hl2 : ∀ x ∈ l, 0 ≤ x := fun x hx => hl x (List.mem_cons_of_mem _ hx)
    have hls : 0 ≤ l.sum := List.sum_nonneg hl2
    rw [List.sum_cons] at hsum
    have hw : wrap64 (acc + a) = acc + a := by
      apply wrap64_of_isInt64
      unfold isInt64 minInt64
      unfold maxInt64 at hsum ⊢
      constructor <;> omega
    rw [List.foldl_cons, hw, ih (acc + a) (by omega) hl2 (by omega), List.sum_cons]
    ring

theorem sumDurations_eq_sum (l : List Int) (hl : ∀ x ∈ l, 0 ≤ x) (hsum : l.sum ≤ maxInt64) :
    sumDurations l = l.sum := by
  unfold sumDurations
  rw [foldl_wrap64_eq_sum l 0 le_rfl hl (by simpa using hsum)]
  simp

/-- The truncated mean of a non-empty list lies between any lower and any upper bound of
its entries. -/
theorem tdiv_sum_bounds (l : List Int) (hne : l ≠ []) (lo hi : Int) (hlo0 : 0 ≤ lo)
    (hl : ∀ x ∈ l, lo ≤ x ∧ x ≤ hi) :
    lo ≤ Int.tdiv l.sum (l.length : Int) ∧ Int.tdiv l.sum (l.length : Int) ≤ hi := by
  have hpos : 0 < l.length := List.length_pos.mpr hne
  have hposz : (0 : Int) < (l.length : Int) := by exact_mod_cast hpos
  have h1 : l.length • lo ≤ l.sum := List.card_nsmul_le_sum l lo (fun x hx => (hl x hx).1)
  have h2 : l.sum ≤ l.length • hi := List.sum_le_card_nsmul l hi (fun x hx => (hl x hx).2)
  rw [nsmul_eq_mul] at h1 h2
  have hs0 : 0 ≤ l.sum := le_trans (mul_nonneg hposz.le hlo0) h1
  rw [Int.tdiv_eq_ediv hs0 hposz.le]
  constructor
  · exact Int.le_ediv_of_mul_le hposz (by linarith)
  · exact Int.ediv_le_of_le_mul hposz (by linarith)

theorem percentile_exactArith_single (s : List Int) (p : ℚ) (hn : s.length = 1) :
    percentile exactArith s p = interpolate exactArith s p := by
  unfold percentile interpolate exactArith
  simp [hn, at_, truncQ_zero]

theorem calculate_mean (F : FloatModel) (xs : List Duration) (hne : xs ≠ []) :
    (Calculate F xs).Mean =
      Int.tdiv (sumDurations (sortAscending xs)) ((sortAscending xs).length : Int) := by
  have hlen : xs.length ≠ 0 := by simpa using hne
  unfold Calculate
  simp only [hlen, if_false]

/-- C16. Summary ordering: for every non-empty sequence of non-negative samples whose
sum does not overflow (and whose length is an `int`), with the percentile arithmetic
taken exactly, `Min ≤ Median = P50 ≤ P75 ≤ P90 ≤ P95 ≤ P99 ≤ Max` and
`Min ≤ Mean ≤ Max`. -/
theorem calculate_ordering (xs : List Duration) (hne : xs ≠ [])
    (hlen : (xs.length : Int) ≤ maxInt64) (hx : ∀ x ∈ xs, 0 ≤ x)
    (hsum : xs.sum ≤ maxInt64) :
    (Calculate exactArith xs).Min ≤ (Calculate exactArith xs).Median ∧
      (Calculate exactArith xs).Median = (Calculate exactArith xs).P50 ∧
      (Calculate exactArith xs).P50 ≤ (Calculate exactArith xs).P75 ∧
      (Calculate exactArith xs).P75 ≤ (Calculate exactArith xs).P90 ∧
      (Calculate exactArith xs).P90 ≤ (Calculate exactArith xs).P95 ∧
      (Calculate exactArith xs).P95 ≤ (Calculate exactArith xs).P99 ∧
      (Calculate exactArith xs).P99 ≤ (Calculate exactArith xs).Max ∧
      (Calculate exactArith xs).Min ≤ (Calculate exactArith xs).Mean ∧
      (Calculate exactArith xs).Mean ≤ (Calculate exactArith xs).Max := by
  have hl := sortAscending_length xs
  have hpos : 0 < xs.length := List.length_pos.mpr hne
  have hsorted : (sortAscending xs).Sorted (· ≤ ·) := sortAscending_sorted xs
  have hperm := sortAscending_perm xs
  have hle : ∀ x ∈ xs, x ≤ maxInt64 := fun x hxs =>
    le_trans (List.single_le_sum hx x hxs) hsum
  have hs : ∀ x ∈ sortAscending xs, (0 : Int) ≤ x ∧ x ≤ maxInt64 := fun x hxs =>
    ⟨hx x (hperm.mem_iff.mp hxs), hle x (hperm.mem_iff.mp hxs)⟩
  have hn1 : 1 ≤ (sortAscending xs).length := by omega
  have key : ∀ p : ℚ, 0 ≤ p → p ≤ 100 →
      percentile exactArith (sortAscending xs) p =
        interpolate exactArith (sortAscending xs) p := by
    intro p h0 h1
    rcases Nat.lt_or_ge (sortAscending xs).length 2 with h | h
    · exact percentile_exactArith_single _ p (by omega)
    · exact percentile_exactArith _ p h (by rw [hl]; exact hlen) h0 h1 hs
  obtain ⟨f1, f2, f3, f4, f5, f6, f7, f8⟩ := calculate_fields exactArith xs hne
  have mono : ∀ p q : ℚ, 0 ≤ p → p ≤ q → q ≤ 100 →
      percentile exactArith (sortAscending xs) p ≤
        percentile exactArith (sortAscending xs) q := by
    intro p q h0 hpq h1
    rw [key p h0 (le_trans hpq h1), key q (le_trans h0 hpq) h1]
    exact interpolate_exactArith_mono _ hsorted p q hn1 h0 hpq h1
  -- the extremes
  have hmin : (sortAscending xs).getD 0 0 ≤ percentile exactArith (sortAscending xs) 50 := by
    rw [key 50 (by norm_num) (by norm_num)]
    obtain ⟨b1, -⟩ := interpolate_exactArith_bounds _ hsorted 50 hn1 (by norm_num)
      (by norm_num)
    obtain ⟨-, b3⟩ := rank_bounds (sortAscending xs).length 50 hn1 (by norm_num) (by norm_num)
    exact le_trans (sorted_getD_le _ hsorted 0 _ (Nat.zero_le _) (by omega)) b1
  have hmax : percentile exactArith (sortAscending xs) 99 ≤
      (sortAscending xs).getD (xs.length - 1) 0 := by
    rw [key 99 (by norm_num) (by norm_num)]
    obtain ⟨-, b2⟩ := interpolate_exactArith_bounds _ hsorted 99 hn1 (by norm_num)
      (by norm_num)
    refine le_trans b2 (sorted_getD_le _ hsorted _ _ ?_ (by omega))
    rw [hl]
    exact Nat.min_le_right _ _
  -- the mean
  obtain ⟨⟨m1, m2⟩, ⟨-, m4⟩⟩ := sortAscending_extremes xs hne
  have hsum2 : (sortAscending xs).sum = xs.sum := hperm.sum_eq
  have hmean := calculate_mean exactArith xs hne
  rw [sumDurations_eq_sum _ (fun x hxs => (hs x hxs).1) (by rw [hsum2]; exact hsum)] at hmean
  have hne2 : sortAscending xs ≠ [] := by
    intro h; rw [h] at hn1; simp at hn1
  obtain ⟨t1, t2⟩ := tdiv_sum_bounds (sortAscending xs) hne2 ((sortAscending xs).getD 0 0)
    ((sortAscending xs).getD (xs.length - 1) 0) (hx _ m1)
    (fun x hxs => ⟨m2 x (hperm.mem_iff.mp hxs), m4 x (hperm.mem_iff.mp hxs)⟩)
  rw [f1, f2, f3, f4, f5, f6, f7, f8, hmean]
  exact ⟨hmin, rfl, mono 50 75 (by norm_num) (by norm_num) (by norm_num),
    mono 75 90 (by norm_num) (by norm_num) (by norm_num),
    mono 90 95 (by norm_num) (by norm_num) (by norm_num),
    mono 95 99 (by norm_num) (by norm_num) (by norm_num), hmax, t1, t2⟩

theorem calculate_ordering_witness :
    (([10, 20, 45, 70] : List Duration) ≠ [] ∧
        (([10, 20, 45, 70] : List Duration).length : Int) ≤ maxInt64 ∧
        (∀ x ∈ ([10, 20, 45, 70] : List Duration), 0 ≤ x) ∧
        ([10, 20, 45, 70] : List Duration).sum ≤ maxInt64) ∧
      (Calculate exactArith [10, 20, 45, 70]).Min ≤ (Calculate exactArith [10, 20, 45, 70]).Median ∧
      (Calculate exactArith [10, 20, 45, 70]).P99 ≤ (Calculate exactArith [10, 20, 45, 70]).Max ∧
      (Calculate exactArith [10, 20, 45, 70]).Min = 10 ∧
      (Calculate exactArith [10, 20, 45, 70]).Median = 32 ∧
      (Calculate exactArith [10, 20, 45, 70]).Mean = 36 ∧
      (Calculate exactArith [10, 20, 45, 70]).P99 = 69 ∧
      (Calculate exactArith [10, 20, 45, 70]).Max = 70 :=
  ⟨⟨by decide, by decide, by decide, by decide⟩,
    (calculate_ordering [10, 20, 45, 70] (by decide) (by decide) (by decide) (by decide)).1,
    (calculate_ordering [10, 20, 45, 70] (by decide) (by decide) (by decide)
      (by decide)).2.2.2.2.2.2.1,
    by decide!, by decide!, by decide!, by decide!, by decide!⟩

/-! ## The standard deviation -/

theorem exactArith_precise (B : Nat) (hB : 0 < B) : exactArith.Precise B where
  rnd_err := fun q => by
    simp only [exactArith, id, sub_self, abs_zero]
    positivity
  rnd_int := fun _ _ => rfl
  sqrt_ge := fun q k hk _ => by
    show (k : ℚ) ≤ ((natSqrt ⌊q⌋₊ : Nat) : ℚ)
    rw [natSqrt_eq]
    have h1 : k * k ≤ ⌊q⌋₊ := by
      apply Nat.le_floor
      push_cast
      rw [← sq]; exact hk
    exact_mod_cast Nat.le_sqrt.mpr h1
  sqrt_lt := fun q k hq hk _ hle => by
    show ((natSqrt ⌊q⌋₊ : Nat) : ℚ) < (k : ℚ)
    rw [natSqrt_eq]
    have hBq : (0 : ℚ) < (B : ℚ) := by exact_mod_cast hB
    have hkq : (0 : ℚ) < (k : ℚ) ^ 2 := by positivity
    have h1 : q < (k : ℚ) ^ 2 := by
      have : (k : ℚ) ^ 2 * (1 - 2 / B) < (k : ℚ) ^ 2 * 1 := by
        apply mul_lt_mul_of_pos_left _ hkq
        have : (0 : ℚ) < 2 / B := by positivity
        linarith
      linarith
    have h2 : ⌊q⌋₊ < k * k := by
      rw [Nat.floor_lt hq]
      push_cast
      rw [← sq]; exact h1
    exact_mod_cast Nat.sqrt_lt.mpr h2

/-- Squared deviations that stay below the precision are accumulated without rounding
error. -/
theorem foldl_sumSquares_exact (F : FloatModel) (B : Nat) (hF : F.Precise B) (mean : Int)
    (l : List Int) :
    ∀ a : Int, 0 ≤ a → a + squaredDeviations l mean ≤ B →
      (∀ x ∈ l, isInt64 (x - mean) ∧ |x - mean| ≤ B) →
      l.foldl (fun acc rtt =>
        let diff : ℚ := F.rnd ((wrap64 (rtt - mean) : Int) : ℚ)
        F.rnd (acc + F.rnd (diff * diff))) (a : ℚ) =
      ((a + squaredDeviations l mean : Int) : ℚ) := by
  induction l with
  | nil => intro a _ _ _; simp [squaredDeviations]
  | cons x l ih =>
    intro a ha hsum hl
    obtain ⟨hw, hb⟩ := hl x (List.mem_cons_self _ _)
    have hl2 : ∀ y ∈ l, isInt64 (y - mean) ∧ |y - mean| ≤ B :=
      fun y hy => hl y (List.mem_cons_of_mem _ hy)
    have hcons : squaredDeviations (x :: l) mean =
        (x - mean) * (x - mean) + squaredDeviations l mean := by
      simp [squaredDeviations]
    have hrest : 0 ≤ squaredDeviations l mean := by
      unfold squaredDeviations
      apply List.sum_nonneg
      intro y hy
      obtain ⟨z, -, rfl⟩ := List.mem_map.mp hy
      exact mul_self_nonneg _
    have hsq0 : 0 ≤ (x - mean) * (x - mean) := mul_self_nonneg _
    rw [hcons] at hsum
    have h1 : F.rnd ((wrap64 (x - mean) : Int) : ℚ) = ((x - mean : Int) : ℚ) := by
      rw [wrap64_of_isInt64 hw, hF.rnd_int _ hb]
    have h2 : F.rnd (((x - mean : Int) : ℚ) * ((x - mean : Int) : ℚ)) =
        (((x - mean) * (x - mean) : Int) : ℚ) := by
      rw [← Int.cast_mul]
      exact hF.rnd_int _ (by rw [abs_of_nonneg hsq0]; omega)
    have h3 : F.rnd ((a : ℚ) + (((x - mean) * (x - mean) : Int) : ℚ)) =
        ((a + (x - mean) * (x - mean) : Int) : ℚ) := by
      rw [← Int.cast_add]
      exact hF.rnd_int _ (by rw [abs_of_nonneg (by omega)]; omega)
    rw [List.foldl_cons]
    simp only [h1, h2, h3]
    rw [ih (a + (x - mean) * (x - mean)) (by omega) (by omega) hl2, hcons]
    congr 1
    ring

/-- The rounded square root of `s` is at least every whole number whose square is at
most `s`. -/
theorem round_sqrt_ge (s : ℚ) (j : Nat) (hs : (j : ℚ) ^ 2 ≤ s) :
    j ≤ (if ((natSqrt ⌊s⌋₊ : ℚ) + 1 / 2) * ((natSqrt ⌊s⌋₊ : ℚ) + 1 / 2) < s
      then natSqrt ⌊s⌋₊ + 1 else natSqrt ⌊s⌋₊) := by
  have h1 : j * j ≤ ⌊s⌋₊ := by
    apply Nat.le_floor
    push_cast
    rw [← sq]; exact hs
  have h2 : j ≤ natSqrt ⌊s⌋₊ := by rw [natSqrt_eq]; exact Nat.le_sqrt.mpr h1
  split_ifs <;> omega

/-- The rounded square root of `s` is below a whole number `j ≥ 2^52` as soon as `s`
is below `j²` by the relative margin `2^-52`. -/
theorem round_sqrt_lt (s : ℚ) (j : Nat) (hs0 : 0 ≤ s) (hj : 2 ^ 52 ≤ j)
    (hs : s ≤ (j : ℚ) ^ 2 * (1 - 1 / 2 ^ 52)) :
    (if ((natSqrt ⌊s⌋₊ : ℚ) + 1 / 2) * ((natSqrt ⌊s⌋₊ : ℚ) + 1 / 2) < s
      then natSqrt ⌊s⌋₊ + 1 else natSqrt ⌊s⌋₊) < j := by
  have hjq : (2 : ℚ) ^ 52 ≤ (j : ℚ) := by exact_mod_cast hj
  have hjpos : (0 : ℚ) < (j : ℚ) := lt_of_lt_of_le (by norm_num) hjq
  have hlt : s < (j : ℚ) ^ 2 := by
    have : (j : ℚ) ^ 2 * (1 - 1 / 2 ^ 52) < (j : ℚ) ^ 2 * 1 :=
      mul_lt_mul_of_pos_left (by norm_num) (by positivity)
    linarith
  have h2 : ⌊s⌋₊ < j * j := by
    rw [Nat.floor_lt hs0]
    push_cast
    rw [← sq]; exact hlt
  have hm : natSqrt ⌊s⌋₊ < j := by rw [natSqrt_eq]; exact Nat.sqrt_lt.mpr h2
  generalize natSqrt ⌊s⌋₊ = m at hm ⊢
  split_ifs with hc
  · by_contra hcon
    have hmj : m + 1 = j := by omega
    have hmq : (m : ℚ) = (j : ℚ) - 1 := by
      have : ((m + 1 : Nat) : ℚ) = (j : ℚ) := by rw [hmj]
      push_cast at this
      linarith
    rw [hmq] at hc
    have h3 : (j : ℚ) ^ 2 * (1 / 2 ^ 52) < (j : ℚ) := by nlinarith
    have h4 : (j : ℚ) * (j : ℚ) < (j : ℚ) * 2 ^ 52 := by
      have := mul_lt_mul_of_pos_right h3 (show (0 : ℚ) < 2 ^ 52 by norm_num)
      calc (j : ℚ) * (j : ℚ) = (j : ℚ) ^ 2 * (1 / 2 ^ 52) * 2 ^ 52 := by ring
        _ < (j : ℚ) * 2 ^ 52 := this
    have h5 : (j : ℚ) < 2 ^ 52 := lt_of_mul_lt_mul_left h4 hjpos.le
    linarith
  · exact hm

/-- The shape of `sqrtNearest` on a positive argument, with the unit in the last place
written as the inverse of a power of two. -/
theorem sqrtNearest_eq (q : ℚ) (hq : 0 < q) (e : Nat) (he : (e : Int) = 52 - ratLog2 q / 2) :
    sqrtNearest q =
      ((if ((natSqrt ⌊q * ((2 : ℚ) ^ e) ^ 2⌋₊ : ℚ) + 1 / 2) *
            ((natSqrt ⌊q * ((2 : ℚ) ^ e) ^ 2⌋₊ : ℚ) + 1 / 2) < q * ((2 : ℚ) ^ e) ^ 2
          then natSqrt ⌊q * ((2 : ℚ) ^ e) ^ 2⌋₊ + 1
          else natSqrt ⌊q * ((2 : ℚ) ^ e) ^ 2⌋₊ : Nat) : ℚ) / (2 : ℚ) ^ e := by
  have hu : (2 : ℚ) ^ (ratLog2 q / 2 - 52) = ((2 : ℚ) ^ e)⁻¹ := by
    have : ratLog2 q / 2 - 52 = -(e : Int) := by omega
    rw [this, zpow_neg, zpow_natCast]
  have hs : q / (((2 : ℚ) ^ e)⁻¹ * ((2 : ℚ) ^ e)⁻¹) = q * ((2 : ℚ) ^ e) ^ 2 := by
    rw [← mul_inv, div_inv_eq_mul, sq]
  unfold sqrtNearest
  rw [if_neg (not_le.mpr hq)]
  simp only [hu, hs]
  exact (div_eq_mul_inv _ _).symm

theorem sqrtNearest_ge (q : ℚ) (k : Nat) (hk : (k : ℚ) ^ 2 ≤ q) (hq : q < 2 ^ 106) :
    (k : ℚ) ≤ sqrtNearest q := by
  rcases le_or_lt q 0 with h0 | h0
  · have hk0 : (k : ℚ) ^ 2 ≤ 0 := le_trans hk h0
    have : (k : ℚ) = 0 := by
      have := sq_nonneg (k : ℚ)
      exact pow_eq_zero_iff (by norm_num) |>.mp (le_antisymm hk0 this)
    rw [this]
    unfold sqrtNearest
    rw [if_pos h0]
  · obtain ⟨hl1, hl2⟩ := ratLog2_spec q h0
    have hL : ratLog2 q ≤ 105 := by
      by_contra hcon
      have h106 : (106 : Int) ≤ ratLog2 q := by omega
      have : (2 : ℚ) ^ (106 : Int) ≤ (2 : ℚ) ^ ratLog2 q :=
        zpow_le_zpow_right₀ (by norm_num) h106
      have h2 : (2 : ℚ) ^ (106 : Int) = 2 ^ 106 := by norm_cast
      linarith
    obtain ⟨e, he⟩ : ∃ e : Nat, (e : Int) = 52 - ratLog2 q / 2 :=
      ⟨(52 - ratLog2 q / 2).toNat, by omega⟩
    rw [sqrtNearest_eq q h0 e he]
    have hpos : (0 : ℚ) < (2 : ℚ) ^ e := by positivity
    rw [le_div_iff₀ hpos]
    have hj : (((k * 2 ^ e : Nat)) : ℚ) ^ 2 ≤ q * ((2 : ℚ) ^ e) ^ 2 := by
      push_cast
      rw [mul_pow]
      exact mul_le_mul_of_nonneg_right hk (by positivity)
    have := round_sqrt_ge (q * ((2 : ℚ) ^ e) ^ 2) (k * 2 ^ e) hj
    have h2 : ((k * 2 ^ e : Nat) : ℚ) ≤ _ := Nat.cast_le.mpr this
    push_cast at h2 ⊢
    exact h2

theorem sqrtNearest_lt (q : ℚ) (k : Nat) (hq0 : 0 ≤ q) (hk0 : 0 < k) (hk : (k : ℚ) ≤ 2 ^ 53)
    (hq : q ≤ (k : ℚ) ^ 2 * (1 - 1 / 2 ^ 52)) : sqrtNearest q < (k : ℚ) := by
  have hkq : (0 : ℚ) < (k : ℚ) := by exact_mod_cast hk0
  rcases le_or_lt q 0 with h0 | h0
  · unfold sqrtNearest
    rw [if_pos h0]
    exact hkq
  · obtain ⟨hl1, hl2⟩ := ratLog2_spec q h0
    have hlt : q < (k : ℚ) ^ 2 := by
      have : (k : ℚ) ^ 2 * (1 - 1 / 2 ^ 52) < (k : ℚ) ^ 2 * 1 :=
        mul_lt_mul_of_pos_left (by norm_num) (by positivity)
      linarith
    have hk2 : (k : ℚ) ^ 2 ≤ 2 ^ 106 := by
      calc (k : ℚ) ^ 2 ≤ (2 ^ 53) ^ 2 := pow_le_pow_left₀ hkq.le hk 2
        _ = 2 ^ 106 := by norm_num
    have hL : ratLog2 q ≤ 105 := by
      by_contra hcon
      have h106 : (106 : Int) ≤ ratLog2 q := by omega
      have : (2 : ℚ) ^ (106 : Int) ≤ (2 : ℚ) ^ ratLog2 q :=
        zpow_le_zpow_right₀ (by norm_num) h106
      have h2 : (2 : ℚ) ^ (106 : Int) = 2 ^ 106 := by norm_cast
      linarith
    obtain ⟨e, he⟩ : ∃ e : Nat, (e : Int) = 52 - ratLog2 q / 2 :=
      ⟨(52 - ratLog2 q / 2).toNat, by omega⟩
    rw [sqrtNearest_eq q h0 e he]
    have hpos : (0 : ℚ) < (2 : ℚ) ^ e := by positivity
    rw [div_lt_iff₀ hpos]
    -- the half logarithm is below `k`
    have hh : (2 : ℚ) ^ (ratLog2 q / 2) < (k : ℚ) := by
      have h1 : ((2 : ℚ) ^ (ratLog2 q / 2)) ^ 2 ≤ (2 : ℚ) ^ ratLog2 q := by
        rw [← zpow_natCast, ← zpow_mul]
        exact zpow_le_zpow_right₀ (by norm_num) (by push_cast; omega)
      have h2 : ((2 : ℚ) ^ (ratLog2 q / 2)) ^ 2 < (k : ℚ) ^ 2 := by linarith
      exact lt_of_pow_lt_pow_left₀ 2 hkq.le h2
    have hj52 : (2 : ℚ) ^ 52 < (k : ℚ) * (2 : ℚ) ^ e := by
      have h1 : (2 : ℚ) ^ (ratLog2 q / 2) * (2 : ℚ) ^ e = 2 ^ 52 := by
        rw [← zpow_natCast (2 : ℚ) e, ← zpow_add₀ (by norm_num), he]
        have : ratLog2 q / 2 + (52 - ratLog2 q / 2) = ((52 : Nat) : Int) := by
          push_cast; ring
        rw [this, zpow_natCast]
      rw [← h1]
      exact mul_lt_mul_of_pos_right hh hpos
    have hj : 2 ^ 52 ≤ k * 2 ^ e := by
      have : ((2 ^ 52 : Nat) : ℚ) < ((k * 2 ^ e : Nat) : ℚ) := by
        push_cast; exact hj52
      exact le_of_lt (Nat.cast_lt.mp this)
    have hs : q * ((2 : ℚ) ^ e) ^ 2 ≤ ((k * 2 ^ e : Nat) : ℚ) ^ 2 * (1 - 1 / 2 ^ 52) := by
      push_cast
      calc q * ((2 : ℚ) ^ e) ^ 2 ≤ (k : ℚ) ^ 2 * (1 - 1 / 2 ^ 52) * ((2 : ℚ) ^ e) ^ 2 :=
            mul_le_mul_of_nonneg_right hq (by positivity)
        _ = ((k : ℚ) * 2 ^ e) ^ 2 * (1 - 1 / 2 ^ 52) := by ring
    have := round_sqrt_lt (q * ((2 : ℚ) ^ e) ^ 2) (k * 2 ^ e)
      (mul_nonneg hq0 (by positivity)) hj hs
    have h2 : _ < ((k * 2 ^ e : Nat) : ℚ) := Nat.cast_lt.mpr this
    push_cast at h2 ⊢
    exact h2

theorem binary64_precise : binary64.Precise (2 ^ 53) where
  rnd_err := fun q => by
    have := roundNearestEven_err q
    push_cast
    exact this
  rnd_int := fun z hz => roundNearestEven_int z (by exact_mod_cast hz)
  sqrt_ge := fun q k hk hq => by
    push_cast at hq
    exact sqrtNearest_ge q k hk (lt_of_le_of_lt hq (by norm_num))
  sqrt_lt := fun q k hq0 hk0 hk hq => by
    push_cast at hk hq
    refine sqrtNearest_lt q k hq0 hk0 hk (le_trans hq (le_of_eq ?_))
    norm_num

/-- Rounding the quotient `S / n` of two whole numbers keeps it between the squares
that bracket it, when `5 S + 4 n` is within the precision. -/
theorem rnd_div_bracket (F : FloatModel) (B : Nat) (hF : F.Precise B) (S n k : Nat)
    (hn : 0 < n) (hk1 : k * k * n ≤ S) (hk2 : S < (k + 1) * (k + 1) * n)
    (hB : 5 * S + 4 * n ≤ B) :
    (k : ℚ) ^ 2 ≤ F.rnd ((S : ℚ) / (n : ℚ)) ∧
      F.rnd ((S : ℚ) / (n : ℚ)) ≤ ((k : ℚ) + 1) ^ 2 * (1 - 2 / (B : ℚ)) := by
  have hnq : (0 : ℚ) < (n : ℚ) := by exact_mod_cast hn
  have hBpos : 0 < B := by omega
  have hBq : (0 : ℚ) < (B : ℚ) := by exact_mod_cast hBpos
  have hSq : (0 : ℚ) ≤ (S : ℚ) := by positivity
  have hV0 : (0 : ℚ) ≤ (S : ℚ) / (n : ℚ) := by positivity
  have h1q : (k : ℚ) * (k : ℚ) * (n : ℚ) ≤ (S : ℚ) := by exact_mod_cast hk1
  have h2q : (S : ℚ) + 1 ≤ ((k : ℚ) + 1) * ((k : ℚ) + 1) * (n : ℚ) := by
    exact_mod_cast hk2
  have hBS : 5 * (S : ℚ) + 4 * (n : ℚ) ≤ (B : ℚ) := by exact_mod_cast hB
  have herr := hF.rnd_err ((S : ℚ) / (n : ℚ))
  rw [abs_of_nonneg hV0, abs_le] at herr
  obtain ⟨he1, he2⟩ := herr
  constructor
  · rcases Nat.eq_or_lt_of_le hk1 with heq | hlt
    · have hV : (S : ℚ) / (n : ℚ) = (((k * k : Nat) : Int) : ℚ) := by
        rw [← heq]; push_cast; field_simp
      have hkk : k * k ≤ B := by
        have : k * k ≤ k * k * n := Nat.le_mul_of_pos_right _ hn
        omega
      rw [hV, hF.rnd_int _ (by rw [abs_of_nonneg (by positivity)]; exact_mod_cast hkk)]
      push_cast; ring_nf; exact le_rfl
    · have h3 : (k : ℚ) * (k : ℚ) * (n : ℚ) + 1 ≤ (S : ℚ) := by exact_mod_cast hlt
      have h4 : ((k : ℚ) * (k : ℚ) * (n : ℚ) + 1) * (B : ℚ) ≤ (S : ℚ) * (B : ℚ) :=
        mul_le_mul_of_nonneg_right h3 hBq.le
      have h5 : (k : ℚ) ^ 2 ≤ (S : ℚ) / (n : ℚ) - (S : ℚ) / (n : ℚ) / (B : ℚ) := by
        have : (S : ℚ) / (n : ℚ) - (S : ℚ) / (n : ℚ) / (B : ℚ) =
            ((S : ℚ) * (B : ℚ) - (S : ℚ)) / ((n : ℚ) * (B : ℚ)) := by
          field_simp
          ring
        rw [this, le_div_iff₀ (by positivity)]
        nlinarith
      linarith
  · have h4 : ((S : ℚ) + 1) * (B : ℚ) ≤
        ((k : ℚ) + 1) * ((k : ℚ) + 1) * (n : ℚ) * (B : ℚ) :=
      mul_le_mul_of_nonneg_right h2q hBq.le
    have h6 : ((k : ℚ) + 1) * ((k : ℚ) + 1) * (n : ℚ) ≤ 2 * (S : ℚ) + 2 * (n : ℚ) := by
      have : (0 : ℚ) ≤ ((k : ℚ) - 1) ^ 2 * (n : ℚ) := by positivity
      nlinarith
    have h5 : (S : ℚ) / (n : ℚ) + (S : ℚ) / (n : ℚ) / (B : ℚ) ≤
        ((k : ℚ) + 1) ^ 2 * (1 - 2 / (B : ℚ)) := by
      have e1 : (S : ℚ) / (n : ℚ) + (S : ℚ) / (n : ℚ) / (B : ℚ) =
          ((S : ℚ) * (B : ℚ) + (S : ℚ)) / ((n : ℚ) * (B : ℚ)) := by
        field_simp
        ring
      have e2 : ((k : ℚ) + 1) ^ 2 * (1 - 2 / (B : ℚ)) =
          (((k : ℚ) + 1) * ((k : ℚ) + 1) * (n : ℚ) * (B : ℚ) -
            2 * (((k : ℚ) + 1) * ((k : ℚ) + 1) * (n : ℚ))) / ((n : ℚ) * (B : ℚ)) := by
        field_simp
        ring
      rw [e1, e2]
      apply div_le_div_of_nonneg_right _ (by positivity)
      nlinarith
    linarith

theorem sum_sq_sub (l : List Int) (c : ℚ) :
    (l.map (fun x : Int => ((x : ℚ) - c) * ((x : ℚ) - c))).sum =
      (l.map (fun x : Int => (x : ℚ) * (x : ℚ))).sum - 2 * c * ((l.sum : Int) : ℚ) +
        (l.length : ℚ) * c * c := by
  induction l with
  | nil => simp
  | cons a l ih =>
    simp only [List.map_cons, List.sum_cons, List.length_cons, ih]
    push_cast
    ring

theorem squaredDeviations_cast (l : List Int) (c : Int) :
    ((squaredDeviations l c : Int) : ℚ) =
      (l.map (fun x : Int => ((x : ℚ) - (c : ℚ)) * ((x : ℚ) - (c : ℚ)))).sum := by
  unfold squaredDeviations
  induction l with
  | nil => simp
  | cons a l ih =>
    simp only [List.map_cons, List.sum_cons]
    rw [Int.cast_add, Int.cast_mul, Int.cast_sub, ih]

/-- The mean squared deviation from the truncated mean exceeds the population variance
by the square of the fraction that the truncation drops, which is less than one. -/
theorem squaredDeviations_vs_variance (l : List Int) (hne : l ≠ []) :
    populationVariance l ≤
        ((squaredDeviations l (l.sum / (l.length : Int)) : Int) : ℚ) / (l.length : ℚ) ∧
      ((squaredDeviations l (l.sum / (l.length : Int)) : Int) : ℚ) / (l.length : ℚ) <
        populationVariance l + 1 := by
  have hpos : 0 < l.length := List.length_pos.mpr hne
  have hnq : (0 : ℚ) < (l.length : ℚ) := by exact_mod_cast hpos
  have hnz : (0 : Int) < (l.length : Int) := by exact_mod_cast hpos
  have hc1 : l.sum / (l.length : Int) * (l.length : Int) ≤ l.sum := Int.ediv_mul_le _ hnz.ne'
  have hc2 : l.sum < (l.sum / (l.length : Int) + 1) * (l.length : Int) :=
    Int.lt_ediv_add_one_mul_self _ hnz
  generalize l.sum / (l.length : Int) = c at hc1 hc2
  have hc1q : (c : ℚ) * (l.length : ℚ) ≤ ((l.sum : Int) : ℚ) := by exact_mod_cast hc1
  have hc2q : ((l.sum : Int) : ℚ) < ((c : ℚ) + 1) * (l.length : ℚ) := by exact_mod_cast hc2
  have hd0 : 0 ≤ ((l.sum : Int) : ℚ) / (l.length : ℚ) - (c : ℚ) := by
    rw [sub_nonneg, le_div_iff₀ hnq]; exact hc1q
  have hd1 : ((l.sum : Int) : ℚ) / (l.length : ℚ) - (c : ℚ) < 1 := by
    rw [sub_lt_iff_lt_add, div_lt_iff₀ hnq]; linarith
  have key : ((squaredDeviations l c : Int) : ℚ) / (l.length : ℚ) =
      populationVariance l +
        (((l.sum : Int) : ℚ) / (l.length : ℚ) - (c : ℚ)) ^ 2 := by
    unfold populationVariance
    simp only []
    rw [squaredDeviations_cast, sum_sq_sub l (c : ℚ),
      sum_sq_sub l (((l.sum : Int) : ℚ) / (l.length : ℚ))]
    field_simp
    ring
  rw [key]
  constructor
  · linarith [sq_nonneg (((l.sum : Int) : ℚ) / (l.length : ℚ) - (c : ℚ))]
  · have : (((l.sum : Int) : ℚ) / (l.length : ℚ) - (c : ℚ)) ^ 2 < 1 := by
      rw [sq_lt_one_iff₀ hd0]; exact hd1
    linarith

theorem calculate_stdDev_eq (F : FloatModel) (xs : List Duration) (hne : xs ≠ []) :
    (Calculate F xs).StdDev =
      toInt64 (F.sqrt (F.rnd (sumSquares F (sortAscending xs) (Calculate F xs).Mean /
        F.rnd ((((sortAscending xs).length : Int)) : ℚ)))) := by
  have hlen : xs.length ≠ 0 := by simpa using hne
  unfold Calculate
  simp only [hlen, if_false]

theorem squaredDeviations_perm {l1 l2 : List Int} (h : l1.Perm l2) (c : Int) :
    squaredDeviations l1 c = squaredDeviations l2 c :=
  (h.map _).sum_eq

theorem squaredDeviations_nonneg (l : List Int) (c : Int) : 0 ≤ squaredDeviations l c := by
  unfold squaredDeviations
  apply List.sum_nonneg
  intro y hy
  obtain ⟨z, -, rfl⟩ := List.mem_map.mp hy
  exact mul_self_nonneg _

theorem squaredDeviations_le (l : List Int) (c : Int) (D : Nat)
    (h : ∀ x ∈ l, |x - c| ≤ (D : Int)) :
    squaredDeviations l c ≤ ((l.length * (D * D) : Nat) : Int) := by
  induction l with
  | nil => simp [squaredDeviations]
  | cons a l ih =>
    have ha := h a (List.mem_cons_self _ _)
    have hl := ih (fun x hx => h x (List.mem_cons_of_mem _ hx))
    have hsq : (a - c) * (a - c) ≤ (D : Int) * (D : Int) := by
      rw [← abs_mul_abs_self (a - c)]
      exact mul_le_mul ha ha (abs_nonneg _) (by positivity)
    have hcons : squaredDeviations (a :: l) c = (a - c) * (a - c) + squaredDeviations l c := by
      simp [squaredDeviations]
    rw [hcons, List.length_cons]
    push_cast at hl ⊢
    linarith

/-- C11 (amended). Standard deviation: for every non-empty sequence of `n` non-negative
samples bounded by `D` whose sum does not overflow, and every arithmetic of precision
`B ≥ 8 n (D² + 1)` (`binary64` with `B = 2^53`, exact arithmetic with any `B`), `Mean`
is the arithmetic mean cut to whole nanoseconds and `StdDev` is the integer part of the
square root of (the sum of the squared deviations of the samples from `Mean`, divided
by `n`).  That quotient is at least the population variance of the samples and
exceeds it by less than one. -/
theorem calculate_stddev (F : FloatModel) (B : Nat) (hF : F.Precise B) (xs : List Duration)
    (D : Nat) (hne : xs ≠ []) (hx : ∀ x ∈ xs, 0 ≤ x ∧ x ≤ (D : Int))
    (hsum : xs.sum ≤ maxInt64) (hB : 8 * (xs.length * (D * D + 1)) ≤ B) :
    (Calculate F xs).Mean = xs.sum / (xs.length : Int) ∧
      (Calculate F xs).StdDev =
        ((natSqrt ((squaredDeviations xs (Calculate F xs).Mean).toNat / xs.length) : Nat) :
          Int) ∧
      populationVariance xs ≤
        ((squaredDeviations xs (Calculate F xs).Mean : Int) : ℚ) / (xs.length : ℚ) ∧
      ((squaredDeviations xs (Calculate F xs).Mean : Int) : ℚ) / (xs.length : ℚ) <
        populationVariance xs + 1 := by
  have hl := sortAscending_length xs
  have hperm := sortAscending_perm xs
  have hpos : 0 < xs.length := List.length_pos.mpr hne
  have hposz : (0 : Int) < (xs.length : Int) := by exact_mod_cast hpos
  have hx0 : ∀ x ∈ xs, (0 : Int) ≤ x := fun x h => (hx x h).1
  have hsum0 : (0 : Int) ≤ xs.sum := List.sum_nonneg hx0
  have hxm : ∀ x ∈ xs, x ≤ maxInt64 := fun x h => le_trans (List.single_le_sum hx0 x h) hsum
  -- the mean
  have hmean : (Calculate F xs).Mean = xs.sum / (xs.length : Int) := by
    rw [calculate_mean F xs hne,
      sumDurations_eq_sum _ (fun x h => hx0 x (hperm.mem_iff.mp h))
        (by rw [hperm.sum_eq]; exact hsum),
      hperm.sum_eq, hl, Int.tdiv_eq_ediv hsum0 hposz.le]
  have hstd := calculate_stdDev_eq F xs hne
  obtain ⟨hv1, hv2⟩ := squaredDeviations_vs_variance xs hne
  rw [← hmean] at hv1 hv2
  refine ⟨hmean, ?_, hv1, hv2⟩
  rw [hstd]
  have hc0 : (0 : Int) ≤ xs.sum / (xs.length : Int) := Int.ediv_nonneg hsum0 hposz.le
  have hcD : xs.sum / (xs.length : Int) ≤ (D : Int) := by
    have := (tdiv_sum_bounds xs hne 0 (D : Int) le_rfl hx).2
    rwa [Int.tdiv_eq_ediv hsum0 hposz.le] at this
  have hcM : xs.sum / (xs.length : Int) ≤ maxInt64 := by
    have := (tdiv_sum_bounds xs hne 0 maxInt64 le_rfl (fun x h => ⟨hx0 x h, hxm x h⟩)).2
    rwa [Int.tdiv_eq_ediv hsum0 hposz.le] at this
  rw [hmean]
  generalize xs.sum / (xs.length : Int) = c at hc0 hcD hcM
  -- the deviations
  have hdev : ∀ x : Int, x ∈ xs → isInt64 (x - c) ∧ |x - c| ≤ (D : Int) ∧
      |x - c| ≤ ((2 ^ 63 - 1 : Nat) : Int) := by
    have key : ∀ (d : Int) (a b : Int), 0 ≤ a → a ≤ d → 0 ≤ b → b ≤ d → |a - b| ≤ d := by
      intro d a b h1 h2 h3 h4
      rw [abs_le]; constructor <;> omega
    intro x h
    have hmax : maxInt64 = ((2 ^ 63 - 1 : Nat) : Int) := by decide
    refine ⟨?_, key _ x c (hx x h).1 (hx x h).2 hc0 hcD, ?_⟩
    · have := key maxInt64 x c (hx x h).1 (hxm x h) hc0 hcM
      rw [abs_le] at this
      unfold isInt64
      unfold minInt64
      unfold maxInt64 at this ⊢
      constructor <;> omega
    · rw [← hmax]
      exact key maxInt64 x c (hx x h).1 (hxm x h) hc0 hcM
  have hS0 := squaredDeviations_nonneg xs c
  have hSD := squaredDeviations_le xs c D (fun x h => (hdev x h).2.1)
  have hSM := squaredDeviations_le xs c (2 ^ 63 - 1) (fun x h => (hdev x h).2.2)
  have hQ : xs.length * ((2 ^ 63 - 1) * (2 ^ 63 - 1)) =
      (2 ^ 63 - 1) * (2 ^ 63 - 1) * xs.length := by ring
  rw [hQ] at hSM
  have hBn : xs.length * (D * D + 1) = xs.length * (D * D) + xs.length := by ring
  rw [hBn] at hB
  have hDP : D ≤ xs.length * (D * D) :=
    le_trans (Nat.le_mul_self D) (Nat.le_mul_of_pos_left _ hpos)
  generalize xs.length * (D * D) = P at hSD hB hDP
  generalize hQd : (2 ^ 63 - 1) * (2 ^ 63 - 1) * xs.length = Q at hSM
  -- the accumulation is exact
  have hsq : sumSquares F (sortAscending xs) c = ((squaredDeviations xs c : Int) : ℚ) := by
    have h := foldl_sumSquares_exact F B hF c (sortAscending xs) 0 le_rfl
      (by rw [squaredDeviations_perm hperm c]; omega)
      (fun x h => ⟨(hdev x (hperm.mem_iff.mp h)).1,
        le_trans (hdev x (hperm.mem_iff.mp h)).2.1 (by omega)⟩)
    rw [squaredDeviations_perm hperm c] at h
    simpa [sumSquares] using h
  have hn : F.rnd ((((sortAscending xs).length : Int)) : ℚ) = (xs.length : ℚ) := by
    rw [hl, hF.rnd_int _ (by rw [abs_of_nonneg hposz.le]; omega)]
    simp
  rw [hsq, hn]
  have hSn : ((squaredDeviations xs c : Int) : ℚ) =
      (((squaredDeviations xs c).toNat : Nat) : ℚ) := by
    have : (((squaredDeviations xs c).toNat : Nat) : Int) = squaredDeviations xs c :=
      Int.toNat_of_nonneg hS0
    rw [← Int.cast_natCast, this]
  rw [hSn]
  have hSD2 : (squaredDeviations xs c).toNat ≤ P := by omega
  have hSM2 : (squaredDeviations xs c).toNat ≤ Q := by omega
  generalize (squaredDeviations xs c).toNat = S at hSD2 hSM2
  rw [natSqrt_eq]
  have hk1 : Nat.sqrt (S / xs.length) * Nat.sqrt (S / xs.length) * xs.length ≤ S :=
    (Nat.le_div_iff_mul_le hpos).mp (Nat.sqrt_le (S / xs.length))
  have hk2 : S < (Nat.sqrt (S / xs.length) + 1) * (Nat.sqrt (S / xs.length) + 1) * xs.length :=
    (Nat.div_lt_iff_lt_mul hpos).mp (Nat.lt_succ_sqrt (S / xs.length))
  generalize Nat.sqrt (S / xs.length) = k at hk1 hk2
  have hkk : (k + 1) * (k + 1) * xs.length ≤ 2 * S + 2 * xs.length := by
    have : (k + 1) * (k + 1) ≤ 2 * (k * k) + 2 := by nlinarith [sq_nonneg ((k : Int) - 1)]
    calc (k + 1) * (k + 1) * xs.length ≤ (2 * (k * k) + 2) * xs.length :=
          Nat.mul_le_mul_right _ this
      _ = 2 * (k * k * xs.length) + 2 * xs.length := by ring
      _ ≤ 2 * S + 2 * xs.length := by omega
  have hk1B : (k + 1) * (k + 1) ≤ B := by
    have : (k + 1) * (k + 1) ≤ (k + 1) * (k + 1) * xs.length := Nat.le_mul_of_pos_right _ hpos
    omega
  obtain ⟨hb1, hb2⟩ := rnd_div_bracket F B hF S xs.length k hpos hk1 hk2 (by omega)
  generalize F.rnd ((S : ℚ) / (xs.length : ℚ)) = v at hb1 hb2
  have hBq : (0 : ℚ) < (B : ℚ) := by
    have : 0 < B := by omega
    exact_mod_cast this
  have hfac : (1 : ℚ) - 2 / (B : ℚ) ≤ 1 := by
    have : (0 : ℚ) ≤ 2 / (B : ℚ) := by positivity
    linarith
  have hvB : v ≤ (B : ℚ) := by
    have h1 : ((k : ℚ) + 1) ^ 2 * (1 - 2 / (B : ℚ)) ≤ ((k : ℚ) + 1) ^ 2 * 1 :=
      mul_le_mul_of_nonneg_left hfac (by positivity)
    have h2 : ((k : ℚ) + 1) ^ 2 ≤ (B : ℚ) := by
      have : (((k + 1) * (k + 1) : Nat) : ℚ) ≤ (B : ℚ) := by exact_mod_cast hk1B
      push_cast at this
      rw [sq]; exact this
    linarith
  have hv0 : 0 ≤ v := le_trans (by positivity) hb1
  have hlo := hF.sqrt_ge v k hb1 hvB
  have hhi := hF.sqrt_lt v (k + 1) hv0 (Nat.succ_pos k)
    (by
      have : ((k + 1 : Nat) : ℚ) ≤ (((k + 1) * (k + 1) : Nat) : ℚ) := by
        exact_mod_cast Nat.le_mul_self (k + 1)
      have h2 : (((k + 1) * (k + 1) : Nat) : ℚ) ≤ (B : ℚ) := by exact_mod_cast hk1B
      linarith)
    (by push_cast; exact hb2)
  push_cast at hhi
  have htr : truncQ (F.sqrt v) = (k : Int) := by
    rw [truncQ_of_nonneg (le_trans (by positivity) hlo), Int.floor_eq_iff]
    exact ⟨by exact_mod_cast hlo, by exact_mod_cast hhi⟩
  have hkM : k ≤ 2 ^ 63 - 1 := by
    have h1 : k * k * xs.length ≤ (2 ^ 63 - 1) * (2 ^ 63 - 1) * xs.length := by
      calc k * k * xs.length ≤ S := hk1
        _ ≤ Q := hSM2
        _ = (2 ^ 63 - 1) * (2 ^ 63 - 1) * xs.length := hQd.symm
    have h2 : k * k ≤ (2 ^ 63 - 1) * (2 ^ 63 - 1) := Nat.le_of_mul_le_mul_right h1 hpos
    exact Nat.mul_self_le_mul_self_iff.mp h2
  unfold toInt64
  rw [htr, if_pos]
  unfold isInt64 minInt64 maxInt64
  constructor <;> omega

theorem calculate_stddev_witness :
    ((([10, 20] : List Duration) ≠ [] ∧
        (∀ x ∈ ([10, 20] : List Duration), 0 ≤ x ∧ x ≤ ((20 : Nat) : Int)) ∧
        ([10, 20] : List Duration).sum ≤ maxInt64 ∧
        8 * (([10, 20] : List Duration).length * (20 * 20 + 1)) ≤ 2 ^ 53) ∧
      (Calculate binary64 [10, 20]).StdDev =
        ((natSqrt ((squaredDeviations [10, 20] (Calculate binary64 [10, 20]).Mean).toNat /
          ([10, 20] : List Duration).length) : Nat) : Int)) ∧
      (Calculate binary64 [10, 20]).Mean = 15 ∧
      squaredDeviations [10, 20] 15 = 50 ∧
      (Calculate binary64 [10, 20]).StdDev = 5 ∧
      natSqrt (50 / 2) = 5 ∧ natSqrt (50 / (2 - 1)) = 7 ∧
      populationVariance [10, 20] = 25 :=
  ⟨⟨⟨by decide, by decide, by decide, by norm_num⟩,
      (calculate_stddev binary64 (2 ^ 53) binary64_precise [10, 20] 20 (by decide)
        (by decide) (by decide) (by norm_num)).2.1⟩,
    by decide!, by decide, by decide!, by decide, by decide, by decide!⟩

/-- C11 as stated fails: the deviations are taken from `Mean`, which is the arithmetic
mean cut to whole nanoseconds, not from the arithmetic mean itself.  For the twelve
samples 0, 0, nine times 1, and 2 (in ns) the arithmetic mean is 11/12 and the
population variance 35/144, so the population standard deviation is below half a
nanosecond, while `Mean` is 0 and `StdDev` is 1 ns (in `binary64` and in exact
arithmetic alike).  For the samples 0, 0, 1, 2 the population variance is 11/16, below
1, and `StdDev` is 1 ns. -/
theorem stddev_counterexample :
    (Calculate binary64 [0, 0, 1, 1, 1, 1, 1, 1, 1, 1, 1, 2]).StdDev = 1 ∧
      (Calculate exactArith [0, 0, 1, 1, 1, 1, 1, 1, 1, 1, 1, 2]).StdDev = 1 ∧
      (Calculate binary64 [0, 0, 1, 1, 1, 1, 1, 1, 1, 1, 1, 2]).Mean = 0 ∧
      populationVariance [0, 0, 1, 1, 1, 1, 1, 1, 1, 1, 1, 2] = 35 / 144 ∧
      populationVariance [0, 0, 1, 1, 1, 1, 1, 1, 1, 1, 1, 2] < (1 / 2) ^ 2 ∧
      (Calculate binary64 [0, 0, 1, 2]).StdDev = 1 ∧
      populationVariance [0, 0, 1, 2] = 11 / 16 ∧
      populationVariance [0, 0, 1, 2] < 1 ^ 2 := by
  refine ⟨by decide!, by decide!, by decide!, by decide!, by decide!, by decide!,
    by decide!, by decide!⟩

/-! ## Ranking in the formatters -/

theorem sortByMean_spec : SortSliceSpec sortByMean := by
  intro l
  refine ⟨List.perm_insertionSort _ l, ?_⟩
  haveI : IsTotal ResolverResult (fun a b => a.Stats.Mean ≤ b.Stats.Mean) :=
    ⟨fun a b => le_total a.Stats.Mean b.Stats.Mean⟩
  haveI : IsTrans ResolverResult (fun a b => a.Stats.Mean ≤ b.Stats.Mean) :=
    ⟨fun _ _ _ h1 h2 => le_trans h1 h2⟩
  have h := List.sorted_insertionSort (fun a b : ResolverResult => a.Stats.Mean ≤ b.Stats.Mean) l
  refine List.Pairwise.imp ?_ h
  intro a b hab
  simp only [lessMean, decide_eq_false_iff_not, not_lt]
  exact hab

theorem length_filter_successes (results : List ResolverResult) :
    results.length =
      (results.filter (fun r => decide (r.Successes > 0))).length +
        (results.filter (fun r => decide (r.Successes = 0))).length := by
  induction results with
  | nil => rfl
  | cons r rs ih =>
    by_cases h : r.Successes = 0
    · have h2 : ¬ r.Successes > 0 := by omega
      simp only [gt_iff_lt] at ih h2 ⊢
      simp [List.filter_cons, h, h2]
      omega
    · have h2 : r.Successes > 0 := by omega
      simp only [gt_iff_lt] at ih h2 ⊢
      simp [List.filter_cons, h, h2]
      omega

/-- C15. Ranking in rendered output: with `sort.Slice` meeting its contract, the rows of
the JSON formatter are built, in order, from a rearrangement of exactly the results with
`Successes > 0` that is ordered by non-decreasing `Stats.Mean`; the row at position `i`
has `Rank = i + 1` and carries the identity and counts of the result at that position;
the table and CSV formatters build their rows from the same ranked list; the JSON
summary has `total_resolvers = len(results)` and `successful_only = k`, the number of
rows, and their difference (the table's `failedCount`) is the number of results that
failed every query. -/
theorem format_ranking (F : FloatModel)
    (sortSlice : List ResolverResult → List ResolverResult)
    (hsort : SortSliceSpec sortSlice) (results : List ResolverResult) :
    (sortSlice (validResults results)).Perm
        (results.filter (fun r => decide (r.Successes > 0))) ∧
      (sortSlice (validResults results)).Pairwise
        (fun a b => a.Stats.Mean ≤ b.Stats.Mean) ∧
      (JSONFormatter.Format F sortSlice results).Results =
        (sortSlice (validResults results)).mapIdx (fun i r => jsonRow F i r) ∧
      (∀ (i : Nat) (row : JSONResult),
        (JSONFormatter.Format F sortSlice results).Results[i]? = some row →
          row.Rank = i + 1 ∧ row.Rank ≤ (sortSlice (validResults results)).length ∧
            ∃ r, (sortSlice (validResults results))[i]? = some r ∧ r ∈ results ∧
              r.Successes > 0 ∧ row = jsonRow F i r ∧ row.Name = r.Resolver.Name ∧
              row.Address = r.Address ∧ row.Successes = r.Successes) ∧
      TableFormatter.rows sortSlice results =
        (sortSlice (validResults results)).mapIdx tableCells ∧
      CSVFormatter.rows sortSlice results =
        (sortSlice (validResults results)).mapIdx csvCells ∧
      (JSONFormatter.Format F sortSlice results).Summary.TotalResolvers = results.length ∧
      (JSONFormatter.Format F sortSlice results).Summary.SuccessfulOnly =
        (JSONFormatter.Format F sortSlice results).Results.length ∧
      (JSONFormatter.Format F sortSlice results).Summary.SuccessfulOnly =
        (results.filter (fun r => decide (r.Successes > 0))).length ∧
      (JSONFormatter.Format F sortSlice results).Summary.TotalResolvers -
          (JSONFormatter.Format F sortSlice results).Summary.SuccessfulOnly =
        (results.filter (fun r => decide (r.Successes = 0))).length ∧
      TableFormatter.failedCount sortSlice results =
        ((results.filter (fun r => decide (r.Successes = 0))).length : Int) := by
  obtain ⟨hperm, hsorted⟩ := hsort (validResults results)
  have hlen : (sortSlice (validResults results)).length =
      (results.filter (fun r => decide (r.Successes > 0))).length := hperm.length_eq
  have hcount := length_filter_successes results
  have hpair : (sortSlice (validResults results)).Pairwise
      (fun a b => a.Stats.Mean ≤ b.Stats.Mean) := by
    refine List.Pairwise.imp ?_ hsorted
    intro a b hab
    simpa [lessMean] using hab
  refine ⟨hperm, hpair, rfl, ?_, rfl, rfl, rfl, ?_, hlen, ?_, ?_⟩
  · intro i row hrow
    have hrow2 : ((sortSlice (validResults results)).mapIdx (fun i r => jsonRow F i r))[i]? =
        some row := hrow
    rw [List.getElem?_mapIdx] at hrow2
    cases hr : (sortSlice (validResults results))[i]? with
    | none => rw [hr] at hrow2; simp at hrow2
    | some r =>
      rw [hr] at hrow2
      simp only [Option.map_some', Option.some.injEq] at hrow2
      have hmem : r ∈ validResults results :=
        hperm.mem_iff.mp (List.getElem?_mem hr)
      have hmem2 := List.mem_filter.mp hmem
      have hi : i < (sortSlice (validResults results)).length := by
        by_contra hcon
        rw [List.getElem?_eq_none (by omega)] at hr
        simp at hr
      subst hrow2
      exact ⟨rfl, hi, r, rfl, hmem2.1, by simpa using hmem2.2, rfl, rfl, rfl, rfl⟩
  · show (sortSlice (validResults results)).length =
      ((sortSlice (validResults results)).mapIdx (fun i r => jsonRow F i r)).length
    rw [List.length_mapIdx]
  · show results.length - (sortSlice (validResults results)).length = _
    rw [hlen]; omega
  · unfold TableFormatter.failedCount
    rw [hlen]; omega

theorem format_ranking_witness :
    SortSliceSpec sortByMean ∧
      (JSONFormatter.Format binary64 sortByMean sampleResults).Summary.SuccessfulOnly =
        (sampleResults.filter (fun r => decide (r.Successes > 0))).length ∧
      (JSONFormatter.Format binary64 sortByMean sampleResults).Summary = ⟨3, 2⟩ ∧
      (JSONFormatter.Format binary64 sortByMean sampleResults).Results.map
          (fun row => (row.Rank, row.Name, row.Address, row.AvgMs, row.SuccessRate)) =
        [(1, "gamma", "192.0.2.3", 10, some 75), (2, "alpha", "192.0.2.1", 30, some 100)] ∧
      TableFormatter.rows sortByMean sampleResults =
        [["1", "gamma", "192.0.2.3"], ["2", "alpha", "192.0.2.1"]] ∧
      CSVFormatter.rows sortByMean sampleResults =
        [["1", "gamma", "C", "192.0.2.3"], ["2", "alpha", "A", "192.0.2.1"]] ∧
      TableFormatter.failedCount sortByMean sampleResults = 1 :=
  ⟨sortByMean_spec,
    (format_ranking binary64 sortByMean sortByMean_spec sampleResults).2.2.2.2.2.2.2.2.1,
    by decide!, by decide!, by decide!, by decide!, by decide!⟩

/-! ## Properties of `Run` -/

theorem countP_set (p : TaskPC → Bool) (l : List TaskPC) (i : Nat) (old x : TaskPC)
    (h : l[i]? = some old) :
    (l.set i x).countP p + (if p old then 1 else 0) =
      l.countP p + (if p x then 1 else 0) := by
  induction l generalizing i with
  | nil => simp at h
  | cons a l ih =>
    cases i with
    | zero =>
      simp only [List.getElem?_cons_zero, Option.some.injEq] at h
      subst h
      simp only [List.set_cons_zero, List.countP_cons]
      omega
    | succ i =>
      simp only [List.getElem?_cons_succ] at h
      have := ih i h
      simp only [List.set_cons_succ, List.countP_cons]
      omega

/-- Every step of `step` is an instance of one of the rules. -/
theorem step_sound (b : Benchmark) (env : RunEnv) (a : Action) (s s1 : RunState)
    (h : step b env a s = some s1) : Step b env a s s1 := by
  cases a <;> simp only [step] at h
  case dispatch =>
    split_ifs at h with hg; cases h; exact Step.dispatch s hg.1 hg.2
  case startCloser =>
    split_ifs at h with hg; cases h; exact Step.startCloser s hg.1 hg.2
  case acquire i =>
    split_ifs at h with hg; cases h; exact Step.acquire s i hg.1 hg.2
  case probe i =>
    split at h
    · rename_i r address htask
      split_ifs at h with hg; cases h; exact Step.probe s i r address htask hg.1 hg.2
    · cases h
  case send i =>
    split at h
    · rename_i r hpc
      split_ifs at h with hg; cases h; exact Step.send s i r hpc hg.1 hg.2
    · cases h
  case lock i =>
    split_ifs at h with hg; cases h; exact Step.lock s i hg.1 hg.2
  case increment i =>
    split_ifs at h with hg; cases h; exact Step.increment s i hg
  case emit i =>
    split at h
    · rename_i r address htask
      split_ifs at h with hg; cases h; exact Step.emit s i r address htask hg
    · cases h
  case unlock i =>
    split_ifs at h with hg; cases h; exact Step.unlock s i hg
  case release i =>
    split_ifs at h with hg; cases h; exact Step.release s i hg.1 hg.2
  case wgDone i =>
    split_ifs at h with hg; cases h; exact Step.wgDone s i hg.1 hg.2
  case waited =>
    split_ifs at h with hg; cases h; exact Step.waited s hg.1 hg.2
  case close =>
    split_ifs at h with hg; cases h; exact Step.close s hg
  case receive =>
    split at h
    · rename_i r rest hchan
      split_ifs at h with hg; cases h; exact Step.receive s r rest hchan hg
    · cases h
  case ret =>
    split_ifs at h with hg; cases h; exact Step.ret s hg.1 hg.2.1 hg.2.2

/-- Every instance of a rule is a step of `step`. -/
theorem step_complete (b : Benchmark) (env : RunEnv) (a : Action) (s s1 : RunState)
    (h : Step b env a s s1) : step b env a s = some s1 := by
  cases h <;> simp [step, *]

theorem unst_set (pcs : List TaskPC) (d i : Nat) (old new : TaskPC)
    (h : ∀ j pc, pcs[j]? = some pc → (pc = .unstarted ↔ d ≤ j))
    (hpc : pcs[i]? = some old) (hold : old ≠ .unstarted) (hnew : new ≠ .unstarted) :
    ∀ j pc, (pcs.set i new)[j]? = some pc → (pc = .unstarted ↔ d ≤ j) := by
  intro j pc hj
  by_cases h1 : i = j
  · subst h1
    have hlt : i < pcs.length := by
      by_contra hcon
      rw [List.getElem?_eq_none (by omega)] at hpc
      cases hpc
    rw [List.getElem?_set_self hlt] at hj
    cases hj
    have := h i old hpc
    constructor
    · intro h3; exact absurd h3 hnew
    · intro h3; exact absurd (this.mpr h3) hold
  · rw [List.getElem?_set_ne h1] at hj
    exact h j pc hj

theorem sendres_set (b : Benchmark) (env : RunEnv) (pcs : List TaskPC) (i : Nat)
    (new : TaskPC) (h : ∀ j r, pcs[j]? = some (.send r) → r = taskResult b env j)
    (hnew : ∀ r, new = .send r → r = taskResult b env i) :
    ∀ j r, (pcs.set i new)[j]? = some (.send r) → r = taskResult b env j := by
  intro j r hj
  by_cases h1 : i = j
  · subst h1
    by_cases hlt : i < pcs.length
    · rw [List.getElem?_set_self hlt] at hj
      cases hj
      exact hnew r rfl
    · rw [List.getElem?_eq_none (by simpa using hlt)] at hj
      cases hj
  · rw [List.getElem?_set_ne h1] at hj
    exact h j r hj

theorem inv_initial (b : Benchmark) (env : RunEnv) (s0 : RunState)
    (h : initial b = some s0) : Inv b env s0 := by
  unfold initial at h
  split_ifs at h with hc
  cases h
  have hcount : ∀ (p : TaskPC → Bool) (n : Nat), p .unstarted = false →
      (List.replicate n TaskPC.unstarted).countP p = 0 := by
    intro p n hp
    rw [List.countP_eq_zero]
    intro a ha
    rw [List.eq_of_mem_replicate ha, hp]
    simp
  refine ⟨by omega, by simp, by simp, ?_, ?_, by simpa using (by omega), ?_, ?_, by simp,
    by simp, by simp, by simp, ?_, ?_, by simp⟩
  · intro i pc hi
    simp only [List.getElem?_replicate] at hi
    split_ifs at hi
    cases hi
    simp
  · exact (hcount holdsSlot _ (by decide)).symm
  · exact (hcount isLive _ (by decide)).symm
  · exact hcount holdsMutex _ (by decide)
  · intro _; exact hcount inProgressBlock _ (by decide)
  · intro i r hi
    simp only [List.getElem?_replicate] at hi
    split_ifs at hi
    cases hi

/-- Every step preserves the invariant. -/
theorem inv_step (b : Benchmark) (env : RunEnv) (a : Action) (s s1 : RunState)
    (hinv : Inv b env s) (h : Step b env a s s1) : Inv b env s1 := by
  cases h
  case dispatch hmain hlt =>
    have hd : s.pcs[s.dispatched]? = some .unstarted := by
      have hl : s.dispatched < s.pcs.length := by rw [hinv.len]; exact hlt
      have h1 : s.pcs[s.dispatched]? = some s.pcs[s.dispatched] := List.getElem?_eq_getElem hl
      rw [h1, (hinv.unst _ _ h1).mpr le_rfl]
    have hcl : s.closer = .unstarted := hinv.started.mp hmain
    have c1 := countP_set holdsSlot s.pcs s.dispatched _ TaskPC.acquire hd
    have c2 := countP_set isLive s.pcs s.dispatched _ TaskPC.acquire hd
    have c3 := countP_set holdsMutex s.pcs s.dispatched _ TaskPC.acquire hd
    have c4 := countP_set inProgressBlock s.pcs s.dispatched _ TaskPC.acquire hd
    simp [holdsSlot, isLive, holdsMutex, inProgressBlock, TaskPC.rank] at c1 c2 c3 c4
    exact
      { conc := hinv.conc
        len := by simp [hinv.len]
        disp := hlt
        unst := by
          intro j pc hj
          dsimp only at hj ⊢
          by_cases h1 : s.dispatched = j
          · subst h1
            have hl : s.dispatched < s.pcs.length := by rw [hinv.len]; exact hlt
            rw [List.getElem?_set_self hl] at hj
            cases hj
            simp
          · rw [List.getElem?_set_ne h1] at hj
            rw [hinv.unst j pc hj]
            omega
        sem_eq := by have := hinv.sem_eq; dsimp only; omega
        sem_le := hinv.sem_le
        wg_eq := by have := hinv.wg_eq; dsimp only; omega
        mu_eq := by dsimp only; rw [c3]; exact hinv.mu_eq
        started := hinv.started
        all := fun hne => absurd hmain hne
        joined := by
          dsimp only
          rw [hcl]
          intro hc
          rcases hc with hc | hc <;> cases hc
        closed := hinv.closed
        noprog := fun hp => by have := hinv.noprog hp; dsimp only; omega
        sendres := sendres_set b env _ _ _ hinv.sendres (by simp)
        returned := hinv.returned }
  case startCloser hmain hall =>
    have hcl : s.closer = .unstarted := hinv.started.mp hmain
    have hclosed : s.closed = false := by
      cases hc : s.closed
      · rfl
      · have := hinv.closed.mp hc
        rw [hcl] at this
        cases this
    exact
      { conc := hinv.conc
        len := hinv.len
        disp := hinv.disp
        unst := hinv.unst
        sem_eq := hinv.sem_eq
        sem_le := hinv.sem_le
        wg_eq := hinv.wg_eq
        mu_eq := hinv.mu_eq
        started := by simp
        all := fun _ => hall
        joined := by simp
        closed := by simp [hclosed]
        noprog := hinv.noprog
        sendres := hinv.sendres
        returned := by simp }

  case acquire i hpc hfree =>
    have c1 := countP_set holdsSlot s.pcs i _ TaskPC.probing hpc
    have c2 := countP_set isLive s.pcs i _ TaskPC.probing hpc
    have c3 := countP_set holdsMutex s.pcs i _ TaskPC.probing hpc
    have c4 := countP_set inProgressBlock s.pcs i _ TaskPC.probing hpc
    simp [holdsSlot, isLive, holdsMutex, inProgressBlock, TaskPC.rank] at c1 c2 c3 c4
    exact
      { conc := hinv.conc
        len := by simp [hinv.len]
        disp := hinv.disp
        unst := unst_set _ _ _ _ _ hinv.unst hpc (by simp) (by simp)
        sem_eq := by have := hinv.sem_eq; dsimp only; omega
        sem_le := by have := hinv.sem_le; dsimp only; omega
        wg_eq := by have := hinv.wg_eq; dsimp only; omega
        mu_eq := by dsimp only; rw [c3]; exact hinv.mu_eq
        started := hinv.started
        all := hinv.all
        joined := hinv.joined
        closed := hinv.closed
        noprog := fun hp => by have := hinv.noprog hp; dsimp only; omega
        sendres := sendres_set b env _ _ _ hinv.sendres (by simp)
        returned := hinv.returned }
  case probe i r address htask hcap hpc =>
    have c1 := countP_set holdsSlot s.pcs i _
      (TaskPC.send (testResolver env.F b.config.toConfig (env.worlds i) r address)) hpc
    have c2 := countP_set isLive s.pcs i _
      (TaskPC.send (testResolver env.F b.config.toConfig (env.worlds i) r address)) hpc
    have c3 := countP_set holdsMutex s.pcs i _
      (TaskPC.send (testResolver env.F b.config.toConfig (env.worlds i) r address)) hpc
    have c4 := countP_set inProgressBlock s.pcs i _
      (TaskPC.send (testResolver env.F b.config.toConfig (env.worlds i) r address)) hpc
    simp [holdsSlot, isLive, holdsMutex, inProgressBlock, TaskPC.rank] at c1 c2 c3 c4
    exact
      { conc := hinv.conc
        len := by simp [hinv.len]
        disp := hinv.disp
        unst := unst_set _ _ _ _ _ hinv.unst hpc (by simp) (by simp)
        sem_eq := by have := hinv.sem_eq; dsimp only; omega
        sem_le := hinv.sem_le
        wg_eq := by have := hinv.wg_eq; dsimp only; omega
        mu_eq := by dsimp only; rw [c3]; exact hinv.mu_eq
        started := hinv.started
        all := hinv.all
        joined := hinv.joined
        closed := hinv.closed
        noprog := fun hp => by have := hinv.noprog hp; dsimp only; omega
        sendres := sendres_set b env _ _ _ hinv.sendres (by
          intro r1 hr1
          cases hr1
          simp [taskResult, htask])
        returned := hinv.returned }
  case send i result hpc hopen hroom =>
    have c1 := countP_set holdsSlot s.pcs i _ (afterSend env.progress) hpc
    have c2 := countP_set isLive s.pcs i _ (afterSend env.progress) hpc
    have c3 := countP_set holdsMutex s.pcs i _ (afterSend env.progress) hpc
    have c4 := countP_set inProgressBlock s.pcs i _ (afterSend env.progress) hpc
    have hmain : s.main ≠ .returned := by
      intro hm
      rw [(hinv.returned hm).1] at hopen
      cases hopen
    cases hprog : env.progress <;>
      simp [hprog, afterSend, holdsSlot, isLive, holdsMutex, inProgressBlock, TaskPC.rank]
        at c1 c2 c3 c4
    all_goals
      exact
        { conc := hinv.conc
          len := by simp [hinv.len]
          disp := hinv.disp
          unst := unst_set _ _ _ _ _ hinv.unst hpc (by simp)
            (by cases env.progress <;> simp [afterSend])
          sem_eq := by have := hinv.sem_eq; dsimp only [afterSend]; omega
          sem_le := hinv.sem_le
          wg_eq := by have := hinv.wg_eq; dsimp only [afterSend]; omega
          mu_eq := by dsimp only [afterSend]; rw [c3]; exact hinv.mu_eq
          started := hinv.started
          all := hinv.all
          joined := hinv.joined
          closed := hinv.closed
          noprog := fun hp => by
            have h0 := hinv.noprog hp
            dsimp only [afterSend]
            first
              | omega
              | exact absurd hp (by rw [hprog]; decide)
          sendres := sendres_set b env _ _ _ hinv.sendres
            (by cases env.progress <;> simp [afterSend])
          returned := fun hm => absurd hm hmain }
  case lock i hpc hmu =>
    have c1 := countP_set holdsSlot s.pcs i _ TaskPC.increment hpc
    have c2 := countP_set isLive s.pcs i _ TaskPC.increment hpc
    have c3 := countP_set holdsMutex s.pcs i _ TaskPC.increment hpc
    have c4 := countP_set inProgressBlock s.pcs i _ TaskPC.increment hpc
    simp [holdsSlot, isLive, holdsMutex, inProgressBlock, TaskPC.rank] at c1 c2 c3 c4
    have hm := hinv.mu_eq
    simp only [hmu, Bool.false_eq_true, if_false] at hm
    exact
      { conc := hinv.conc
        len := by simp [hinv.len]
        disp := hinv.disp
        unst := unst_set _ _ _ _ _ hinv.unst hpc (by simp) (by simp)
        sem_eq := by have := hinv.sem_eq; dsimp only; omega
        sem_le := hinv.sem_le
        wg_eq := by have := hinv.wg_eq; dsimp only; omega
        mu_eq := by dsimp only; rw [c3, hm]; rfl
        started := hinv.started
        all := hinv.all
        joined := hinv.joined
        closed := hinv.closed
        noprog := fun hp => by have := hinv.noprog hp; dsimp only; omega
        sendres := sendres_set b env _ _ _ hinv.sendres (by simp)
        returned := hinv.returned }

  case increment i hpc =>
    have c1 := countP_set holdsSlot s.pcs i _ TaskPC.emit hpc
    have c2 := countP_set isLive s.pcs i _ TaskPC.emit hpc
    have c3 := countP_set holdsMutex s.pcs i _ TaskPC.emit hpc
    have c4 := countP_set inProgressBlock s.pcs i _ TaskPC.emit hpc
    simp [holdsSlot, isLive, holdsMutex, inProgressBlock, TaskPC.rank] at c1 c2 c3 c4
    exact
      { conc := hinv.conc
        len := by simp [hinv.len]
        disp := hinv.disp
        unst := unst_set _ _ _ _ _ hinv.unst hpc (by simp) (by simp)
        sem_eq := by have := hinv.sem_eq; dsimp only; omega
        sem_le := by have := hinv.sem_le; dsimp only; omega
        wg_eq := by have := hinv.wg_eq; dsimp only; omega
        mu_eq := by dsimp only; rw [c3]; exact hinv.mu_eq
        started := hinv.started
        all := hinv.all
        joined := hinv.joined
        closed := hinv.closed
        noprog := fun hp => by have := hinv.noprog hp; dsimp only; omega
        sendres := sendres_set b env _ _ _ hinv.sendres (by simp)
        returned := hinv.returned }
  case emit i r address htask hpc =>
    have c1 := countP_set holdsSlot s.pcs i _ TaskPC.unlock hpc
    have c2 := countP_set isLive s.pcs i _ TaskPC.unlock hpc
    have c3 := countP_set holdsMutex s.pcs i _ TaskPC.unlock hpc
    have c4 := countP_set inProgressBlock s.pcs i _ TaskPC.unlock hpc
    simp [holdsSlot, isLive, holdsMutex, inProgressBlock, TaskPC.rank] at c1 c2 c3 c4
    exact
      { conc := hinv.conc
        len := by simp [hinv.len]
        disp := hinv.disp
        unst := unst_set _ _ _ _ _ hinv.unst hpc (by simp) (by simp)
        sem_eq := by have := hinv.sem_eq; dsimp only; omega
        sem_le := hinv.sem_le
        wg_eq := by have := hinv.wg_eq; dsimp only; omega
        mu_eq := by dsimp only; rw [c3]; exact hinv.mu_eq
        started := hinv.started
        all := hinv.all
        joined := hinv.joined
        closed := hinv.closed
        noprog := fun hp => by have := hinv.noprog hp; dsimp only; omega
        sendres := sendres_set b env _ _ _ hinv.sendres (by simp)
        returned := hinv.returned }
  case unlock i hpc =>
    have c1 := countP_set holdsSlot s.pcs i _ TaskPC.release hpc
    have c2 := countP_set isLive s.pcs i _ TaskPC.release hpc
    have c3 := countP_set holdsMutex s.pcs i _ TaskPC.release hpc
    have c4 := countP_set inProgressBlock s.pcs i _ TaskPC.release hpc
    simp [holdsSlot, isLive, holdsMutex, inProgressBlock, TaskPC.rank] at c1 c2 c3 c4
    have hm := hinv.mu_eq
    have hmu : s.mu = true := by
      cases hc : s.mu
      · rw [hc] at hm
        simp only [Bool.false_eq_true, if_false] at hm
        omega
      · rfl
    simp only [hmu, if_true] at hm
    exact
      { conc := hinv.conc
        len := by simp [hinv.len]
        disp := hinv.disp
        unst := unst_set _ _ _ _ _ hinv.unst hpc (by simp) (by simp)
        sem_eq := by have := hinv.sem_eq; dsimp only; omega
        sem_le := hinv.sem_le
        wg_eq := by have := hinv.wg_eq; dsimp only; omega
        mu_eq := by
          dsimp only
          simp only [Bool.false_eq_true, if_false]
          omega
        started := hinv.started
        all := hinv.all
        joined := hinv.joined
        closed := hinv.closed
        noprog := fun hp => by have := hinv.noprog hp; dsimp only; omega
        sendres := sendres_set b env _ _ _ hinv.sendres (by simp)
        returned := hinv.returned }

  case release i hpc hsem =>
    have c1 := countP_set holdsSlot s.pcs i _ TaskPC.wgDone hpc
    have c2 := countP_set isLive s.pcs i _ TaskPC.wgDone hpc
    have c3 := countP_set holdsMutex s.pcs i _ TaskPC.wgDone hpc
    have c4 := countP_set inProgressBlock s.pcs i _ TaskPC.wgDone hpc
    simp [holdsSlot, isLive, holdsMutex, inProgressBlock, TaskPC.rank] at c1 c2 c3 c4
    exact
      { conc := hinv.conc
        len := by simp [hinv.len]
        disp := hinv.disp
        unst := unst_set _ _ _ _ _ hinv.unst hpc (by simp) (by simp)
        sem_eq := by have := hinv.sem_eq; dsimp only; omega
        sem_le := by have := hinv.sem_le; dsimp only; omega
        wg_eq := by have := hinv.wg_eq; dsimp only; omega
        mu_eq := by dsimp only; rw [c3]; exact hinv.mu_eq
        started := hinv.started
        all := hinv.all
        joined := hinv.joined
        closed := hinv.closed
        noprog := fun hp => by have := hinv.noprog hp; dsimp only; omega
        sendres := sendres_set b env _ _ _ hinv.sendres (by simp)
        returned := hinv.returned }
  case wgDone i hpc hwg =>
    have c1 := countP_set holdsSlot s.pcs i _ TaskPC.exited hpc
    have c2 := countP_set isLive s.pcs i _ TaskPC.exited hpc
    have c3 := countP_set holdsMutex s.pcs i _ TaskPC.exited hpc
    have c4 := countP_set inProgressBlock s.pcs i _ TaskPC.exited hpc
    simp [holdsSlot, isLive, holdsMutex, inProgressBlock, TaskPC.rank] at c1 c2 c3 c4
    exact
      { conc := hinv.conc
        len := by simp [hinv.len]
        disp := hinv.disp
        unst := unst_set _ _ _ _ _ hinv.unst hpc (by simp) (by simp)
        sem_eq := by have := hinv.sem_eq; dsimp only; omega
        sem_le := by have := hinv.sem_le; dsimp only; omega
        wg_eq := by have := hinv.wg_eq; dsimp only; omega
        mu_eq := by dsimp only; rw [c3]; exact hinv.mu_eq
        started := hinv.started
        all := hinv.all
        joined := fun hc => by have := hinv.joined hc; omega
        closed := hinv.closed
        noprog := fun hp => by have := hinv.noprog hp; dsimp only; omega
        sendres := sendres_set b env _ _ _ hinv.sendres (by simp)
        returned := hinv.returned }
  case waited hpc hwg =>
    have hmain : s.main ≠ .dispatch := by
      intro hm
      have := hinv.started.mp hm
      rw [hpc] at this
      cases this
    have hclosed : s.closed = false := by
      cases hc : s.closed
      · rfl
      · have := hinv.closed.mp hc
        rw [hpc] at this
        cases this
    exact
      { conc := hinv.conc
        len := hinv.len
        disp := hinv.disp
        unst := hinv.unst
        sem_eq := hinv.sem_eq
        sem_le := hinv.sem_le
        wg_eq := hinv.wg_eq
        mu_eq := hinv.mu_eq
        started := by simp [hmain]
        all := hinv.all
        joined := fun _ => hwg
        closed := by simp [hclosed]
        noprog := hinv.noprog
        sendres := hinv.sendres
        returned := fun hm => by
          have := hinv.returned hm
          rw [hclosed] at this
          cases this.1 }
  case close hpc =>
    have hmain : s.main ≠ .dispatch := by
      intro hm
      have := hinv.started.mp hm
      rw [hpc] at this
      cases this
    have hret : s.main ≠ .returned := by
      intro hm
      have := hinv.closed.mp (hinv.returned hm).1
      rw [hpc] at this
      cases this
    exact
      { conc := hinv.conc
        len := hinv.len
        disp := hinv.disp
        unst := hinv.unst
        sem_eq := hinv.sem_eq
        sem_le := hinv.sem_le
        wg_eq := hinv.wg_eq
        mu_eq := hinv.mu_eq
        started := by simp [hmain]
        all := hinv.all
        joined := fun _ => hinv.joined (Or.inl hpc)
        closed := by simp
        noprog := hinv.noprog
        sendres := hinv.sendres
        returned := fun hm => absurd hm hret }
  case receive result rest hchan hmain =>
    exact
      { conc := hinv.conc
        len := hinv.len
        disp := hinv.disp
        unst := hinv.unst
        sem_eq := hinv.sem_eq
        sem_le := hinv.sem_le
        wg_eq := hinv.wg_eq
        mu_eq := hinv.mu_eq
        started := hinv.started
        all := hinv.all
        joined := hinv.joined
        closed := hinv.closed
        noprog := hinv.noprog
        sendres := hinv.sendres
        returned := fun hm => by
          dsimp only at hm
          rw [hmain] at hm
          cases hm }
  case ret hmain hempty hclosed =>
    have hcl : s.closer ≠ .unstarted := by
      intro hc
      have := hinv.started.mpr hc
      rw [hmain] at this
      cases this
    exact
      { conc := hinv.conc
        len := hinv.len
        disp := hinv.disp
        unst := hinv.unst
        sem_eq := hinv.sem_eq
        sem_le := hinv.sem_le
        wg_eq := hinv.wg_eq
        mu_eq := hinv.mu_eq
        started := by simp [hcl]
        all := fun _ => hinv.all (by rw [hmain]; simp)
        joined := hinv.joined
        closed := hinv.closed
        noprog := hinv.noprog
        sendres := hinv.sendres
        returned := fun _ => ⟨hclosed, hempty⟩ }

theorem exec_append (b : Benchmark) (env : RunEnv) (a1 a2 : List Action) (s : RunState) :
    exec b env (a1 ++ a2) s = (exec b env a1 s).bind (exec b env a2) := by
  induction a1 generalizing s with
  | nil => rfl
  | cons a rest ih =>
    simp only [List.cons_append, exec]
    cases step b env a s with
    | none => rfl
    | some s1 => exact ih s1

/-- A schedule extended by one step: the state before the step is reached by the
schedule, and the step is an instance of a rule. -/
theorem reaches_snoc (b : Benchmark) (env : RunEnv) (acts : List Action) (a : Action)
    (s1 : RunState) (h : Reaches b env (acts ++ [a]) s1) :
    ∃ s, Reaches b env acts s ∧ Step b env a s s1 := by
  obtain ⟨s0, h0, h1⟩ := h
  rw [exec_append] at h1
  cases hs : exec b env acts s0 with
  | none => rw [hs] at h1; cases h1
  | some s =>
    rw [hs] at h1
    have h2 : exec b env [a] s = some s1 := h1
    simp only [exec] at h2
    cases hst : step b env a s with
    | none => rw [hst] at h2; cases h2
    | some s2 =>
      rw [hst] at h2
      cases h2
      exact ⟨s, ⟨s0, h0, hs⟩, step_sound b env a s _ hst⟩

theorem reaches_nil (b : Benchmark) (env : RunEnv) (s : RunState)
    (h : Reaches b env [] s) : initial b = some s := by
  obtain ⟨s0, h0, h1⟩ := h
  cases h1
  exact h0

/-- The invariant holds in every state that a call of `Run` reaches. -/
theorem inv_reaches (b : Benchmark) (env : RunEnv) (acts : List Action) (s : RunState)
    (h : Reaches b env acts s) : Inv b env s := by
  induction acts using List.reverseRecOn generalizing s with
  | nil => exact inv_initial b env s (reaches_nil b env s h)
  | append_singleton acts a ih =>
    obtain ⟨s0, hr, hst⟩ := reaches_snoc b env acts a s h
    exact inv_step b env a s0 s (ih s0 hr) hst

/-- How the set of tasks at or beyond a given rank changes when one task moves: an
action of the family `A` has been taken by task `i` exactly if its program counter is
at rank `k` or beyond (and the side condition `c` holds), provided the action taken
is of the family exactly when the move crosses rank `k`. -/
theorem crossed_set (A : Nat → Action) (k : Nat) (c : Prop) (acts : List Action)
    (a0 : Action) (pcs : List TaskPC) (j : Nat) (old new : TaskPC)
    (hpc : pcs[j]? = some old) (hle : old.rank ≤ new.rank)
    (ha0 : ∀ i, A i = a0 ↔ (i = j ∧ old.rank < k ∧ k ≤ new.rank ∧ c))
    (ih : ∀ i, A i ∈ acts ↔ c ∧ ∃ pc, pcs[i]? = some pc ∧ k ≤ pc.rank) :
    ∀ i, A i ∈ acts ++ [a0] ↔ c ∧ ∃ pc, (pcs.set j new)[i]? = some pc ∧ k ≤ pc.rank := by
  intro i
  have hlt : j < pcs.length := by
    by_contra hcon
    rw [List.getElem?_eq_none (by omega)] at hpc
    cases hpc
  rw [List.mem_append, List.mem_singleton, ih i, ha0 i]
  by_cases hij : i = j
  · subst hij
    rw [List.getElem?_set_self hlt, hpc]
    simp only [Option.some.injEq, exists_eq_left', true_and]
    constructor
    · rintro (⟨h1, h2⟩ | ⟨h2, h3, h4⟩)
      · exact ⟨h1, by omega⟩
      · exact ⟨h4, h3⟩
    · rintro ⟨h1, h2⟩
      by_cases h3 : k ≤ old.rank
      · exact Or.inl ⟨h1, h3⟩
      · exact Or.inr ⟨by omega, h2, h1⟩
  · rw [List.getElem?_set_ne (Ne.symm hij)]
    simp [hij]

theorem crossed_same (A : Nat → Action) (k : Nat) (c : Prop) (acts : List Action)
    (a0 : Action) (pcs : List TaskPC) (ha0 : ∀ i, A i ≠ a0)
    (ih : ∀ i, A i ∈ acts ↔ c ∧ ∃ pc, pcs[i]? = some pc ∧ k ≤ pc.rank) :
    ∀ i, A i ∈ acts ++ [a0] ↔ c ∧ ∃ pc, pcs[i]? = some pc ∧ k ≤ pc.rank := by
  intro i
  rw [List.mem_append, List.mem_singleton, ih i]
  simp [ha0 i]

theorem progress_of_inBlock (b : Benchmark) (env : RunEnv) (s : RunState) (i : Nat)
    (pc : TaskPC) (hinv : Inv b env s) (hpc : s.pcs[i]? = some pc)
    (hb : inProgressBlock pc = true) : env.progress = true := by
  cases hp : env.progress
  · have h0 := hinv.noprog hp
    rw [List.countP_eq_zero] at h0
    exact absurd hb (h0 pc (List.getElem?_mem hpc))
  · rfl

theorem progressed_initial (b : Benchmark) (env : RunEnv) (s0 : RunState)
    (h : initial b = some s0) : Progressed env [] s0 := by
  unfold initial at h
  split_ifs at h with hc
  cases h
  have key : ∀ (i k : Nat) (c : Prop), 1 ≤ k →
      ¬ (c ∧ ∃ pc, (List.replicate (addressTasks b).length TaskPC.unstarted)[i]? = some pc ∧
        k ≤ pc.rank) := by
    rintro i k c hk ⟨-, pc, hpc, hr⟩
    have := List.eq_of_mem_replicate (List.getElem?_mem hpc)
    rw [this] at hr
    simp [TaskPC.rank] at hr
    omega
  constructor <;> intro i <;> simp only [List.not_mem_nil, false_iff] <;>
    exact key i _ _ (by norm_num)

/-- Every step preserves the relation between the schedule and the state. -/
theorem progressed_step (b : Benchmark) (env : RunEnv) (acts : List Action) (a : Action)
    (s s1 : RunState) (hinv : Inv b env s) (hp : Progressed env acts s)
    (h : Step b env a s s1) : Progressed env (acts ++ [a]) s1 := by
  cases h
  case dispatch hmain hlt =>
    have hpc : s.pcs[s.dispatched]? = some .unstarted := by
      have hl : s.dispatched < s.pcs.length := by rw [hinv.len]; exact hlt
      have h1 : s.pcs[s.dispatched]? = some s.pcs[s.dispatched] := List.getElem?_eq_getElem hl
      rw [h1, (hinv.unst _ _ h1).mpr le_rfl]
    exact
      { acquired := crossed_set Action.acquire 2 True acts _ s.pcs s.dispatched _ TaskPC.acquire hpc
          (by simp [TaskPC.rank]) (by intro i; simp [TaskPC.rank]) hp.acquired
        probed := crossed_set Action.probe 3 True acts _ s.pcs s.dispatched _ TaskPC.acquire hpc
          (by simp [TaskPC.rank]) (by intro i; simp [TaskPC.rank]) hp.probed
        sent := crossed_set Action.send 4 True acts _ s.pcs s.dispatched _ TaskPC.acquire hpc
          (by simp [TaskPC.rank]) (by intro i; simp [TaskPC.rank]) hp.sent
        incremented := crossed_set Action.increment 6 (env.progress = true) acts _ s.pcs s.dispatched _ TaskPC.acquire hpc
          (by simp [TaskPC.rank]) (by intro i; simp [TaskPC.rank]) hp.incremented
        emitted := crossed_set Action.emit 7 (env.progress = true) acts _ s.pcs s.dispatched _ TaskPC.acquire hpc
          (by simp [TaskPC.rank]) (by intro i; simp [TaskPC.rank]) hp.emitted
        released := crossed_set Action.release 9 True acts _ s.pcs s.dispatched _ TaskPC.acquire hpc
          (by simp [TaskPC.rank]) (by intro i; simp [TaskPC.rank]) hp.released }
  case startCloser hmain hall =>
    exact
      { acquired := crossed_same Action.acquire 2 True acts _ s.pcs (by intro i; simp) hp.acquired
        probed := crossed_same Action.probe 3 True acts _ s.pcs (by intro i; simp) hp.probed
        sent := crossed_same Action.send 4 True acts _ s.pcs (by intro i; simp) hp.sent
        incremented := crossed_same Action.increment 6 (env.progress = true) acts _ s.pcs (by intro i; simp) hp.incremented
        emitted := crossed_same Action.emit 7 (env.progress = true) acts _ s.pcs (by intro i; simp) hp.emitted
        released := crossed_same Action.release 9 True acts _ s.pcs (by intro i; simp) hp.released }
  case acquire i hpc hfree =>
    exact
      { acquired := crossed_set Action.acquire 2 True acts _ s.pcs i _ TaskPC.probing hpc
          (by simp [TaskPC.rank]) (by intro i; simp [TaskPC.rank]) hp.acquired
        probed := crossed_set Action.probe 3 True acts _ s.pcs i _ TaskPC.probing hpc
          (by simp [TaskPC.rank]) (by intro i; simp [TaskPC.rank]) hp.probed
        sent := crossed_set Action.send 4 True acts _ s.pcs i _ TaskPC.probing hpc
          (by simp [TaskPC.rank]) (by intro i; simp [TaskPC.rank]) hp.sent
        incremented := crossed_set Action.increment 6 (env.progress = true) acts _ s.pcs i _ TaskPC.probing hpc
          (by simp [TaskPC.rank]) (by intro i; simp [TaskPC.rank]) hp.incremented
        emitted := crossed_set Action.emit 7 (env.progress = true) acts _ s.pcs i _ TaskPC.probing hpc
          (by simp [TaskPC.rank]) (by intro i; simp [TaskPC.rank]) hp.emitted
        released := crossed_set Action.release 9 True acts _ s.pcs i _ TaskPC.probing hpc
          (by simp [TaskPC.rank]) (by intro i; simp [TaskPC.rank]) hp.released }
  case probe i r address htask hcap hpc =>
    exact
      { acquired := crossed_set Action.acquire 2 True acts _ s.pcs i _ (TaskPC.send (testResolver env.F b.config.toConfig (env.worlds i) r address)) hpc
          (by simp [TaskPC.rank]) (by intro i; simp [TaskPC.rank]) hp.acquired
        probed := crossed_set Action.probe 3 True acts _ s.pcs i _ (TaskPC.send (testResolver env.F b.config.toConfig (env.worlds i) r address)) hpc
          (by simp [TaskPC.rank]) (by intro i; simp [TaskPC.rank]) hp.probed
        sent := crossed_set Action.send 4 True acts _ s.pcs i _ (TaskPC.send (testResolver env.F b.config.toConfig (env.worlds i) r address)) hpc
          (by simp [TaskPC.rank]) (by intro i; simp [TaskPC.rank]) hp.sent
        incremented := crossed_set Action.increment 6 (env.progress = true) acts _ s.pcs i _ (TaskPC.send (testResolver env.F b.config.toConfig (env.worlds i) r address)) hpc
          (by simp [TaskPC.rank]) (by intro i; simp [TaskPC.rank]) hp.incremented
        emitted := crossed_set Action.emit 7 (env.progress = true) acts _ s.pcs i _ (TaskPC.send (testResolver env.F b.config.toConfig (env.worlds i) r address)) hpc
          (by simp [TaskPC.rank]) (by intro i; simp [TaskPC.rank]) hp.emitted
        released := crossed_set Action.release 9 True acts _ s.pcs i _ (TaskPC.send (testResolver env.F b.config.toConfig (env.worlds i) r address)) hpc
          (by simp [TaskPC.rank]) (by intro i; simp [TaskPC.rank]) hp.released }
  case send i result hpc hopen hroom =>
    cases hprog : env.progress
    all_goals
      exact
        { acquired := crossed_set Action.acquire 2 True acts _ s.pcs i _ _ hpc
            (by simp [TaskPC.rank, afterSend]) (by intro i; simp [TaskPC.rank, afterSend, hprog]) hp.acquired
          probed := crossed_set Action.probe 3 True acts _ s.pcs i _ _ hpc
            (by simp [TaskPC.rank, afterSend]) (by intro i; simp [TaskPC.rank, afterSend, hprog]) hp.probed
          sent := crossed_set Action.send 4 True acts _ s.pcs i _ _ hpc
            (by simp [TaskPC.rank, afterSend]) (by intro i; simp [TaskPC.rank, afterSend, hprog]) hp.sent
          incremented := crossed_set Action.increment 6 (env.progress = true) acts _ s.pcs i _ _ hpc
            (by simp [TaskPC.rank, afterSend]) (by intro i; simp [TaskPC.rank, afterSend, hprog]) hp.incremented
          emitted := crossed_set Action.emit 7 (env.progress = true) acts _ s.pcs i _ _ hpc
            (by simp [TaskPC.rank, afterSend]) (by intro i; simp [TaskPC.rank, afterSend, hprog]) hp.emitted
          released := crossed_set Action.release 9 True acts _ s.pcs i _ _ hpc
            (by simp [TaskPC.rank, afterSend]) (by intro i; simp [TaskPC.rank, afterSend, hprog]) hp.released }
  case lock i hpc hmu =>
    have hprog : env.progress = true := progress_of_inBlock b env s i _ hinv hpc (by decide)
    exact
      { acquired := crossed_set Action.acquire 2 True acts _ s.pcs i _ TaskPC.increment hpc
          (by simp [TaskPC.rank]) (by intro i; simp [TaskPC.rank, hprog]) hp.acquired
        probed := crossed_set Action.probe 3 True acts _ s.pcs i _ TaskPC.increment hpc
          (by simp [TaskPC.rank]) (by intro i; simp [TaskPC.rank, hprog]) hp.probed
        sent := crossed_set Action.send 4 True acts _ s.pcs i _ TaskPC.increment hpc
          (by simp [TaskPC.rank]) (by intro i; simp [TaskPC.rank, hprog]) hp.sent
        incremented := crossed_set Action.increment 6 (env.progress = true) acts _ s.pcs i _ TaskPC.increment hpc
          (by simp [TaskPC.rank]) (by intro i; simp [TaskPC.rank, hprog]) hp.incremented
        emitted := crossed_set Action.emit 7 (env.progress = true) acts _ s.pcs i _ TaskPC.increment hpc
          (by simp [TaskPC.rank]) (by intro i; simp [TaskPC.rank, hprog]) hp.emitted
        released := crossed_set Action.release 9 True acts _ s.pcs i _ TaskPC.increment hpc
          (by simp [TaskPC.rank]) (by intro i; simp [TaskPC.rank, hprog]) hp.released }
  case increment i hpc =>
    have hprog : env.progress = true := progress_of_inBlock b env s i _ hinv hpc (by decide)
    exact
      { acquired := crossed_set Action.acquire 2 True acts _ s.pcs i _ TaskPC.emit hpc
          (by simp [TaskPC.rank]) (by intro i; simp [TaskPC.rank, hprog]) hp.acquired
        probed := crossed_set Action.probe 3 True acts _ s.pcs i _ TaskPC.emit hpc
          (by simp [TaskPC.rank]) (by intro i; simp [TaskPC.rank, hprog]) hp.probed
        sent := crossed_set Action.send 4 True acts _ s.pcs i _ TaskPC.emit hpc
          (by simp [TaskPC.rank]) (by intro i; simp [TaskPC.rank, hprog]) hp.sent
        incremented := crossed_set Action.increment 6 (env.progress = true) acts _ s.pcs i _ TaskPC.emit hpc
          (by simp [TaskPC.rank]) (by intro i; simp [TaskPC.rank, hprog]) hp.incremented
        emitted := crossed_set Action.emit 7 (env.progress = true) acts _ s.pcs i _ TaskPC.emit hpc
          (by simp [TaskPC.rank]) (by intro i; simp [TaskPC.rank, hprog]) hp.emitted
        released := crossed_set Action.release 9 True acts _ s.pcs i _ TaskPC.emit hpc
          (by simp [TaskPC.rank]) (by intro i; simp [TaskPC.rank, hprog]) hp.released }
  case emit i r address htask hpc =>
    have hprog : env.progress = true := progress_of_inBlock b env s i _ hinv hpc (by decide)
    exact
      { acquired := crossed_set Action.acquire 2 True acts _ s.pcs i _ TaskPC.unlock hpc
          (by simp [TaskPC.rank]) (by intro i; simp [TaskPC.rank, hprog]) hp.acquired
        probed := crossed_set Action.probe 3 True acts _ s.pcs i _ TaskPC.unlock hpc
          (by simp [TaskPC.rank]) (by intro i; simp [TaskPC.rank, hprog]) hp.probed
        sent := crossed_set Action.send 4 True acts _ s.pcs i _ TaskPC.unlock hpc
          (by simp [TaskPC.rank]) (by intro i; simp [TaskPC.rank, hprog]) hp.sent
        incremented := crossed_set Action.increment 6 (env.progress = true) acts _ s.pcs i _ TaskPC.unlock hpc
          (by simp [TaskPC.rank]) (by intro i; simp [TaskPC.rank, hprog]) hp.incremented
        emitted := crossed_set Action.emit 7 (env.progress = true) acts _ s.pcs i _ TaskPC.unlock hpc
          (by simp [TaskPC.rank]) (by intro i; simp [TaskPC.rank, hprog]) hp.emitted
        released := crossed_set Action.release 9 True acts _ s.pcs i _ TaskPC.unlock hpc
          (by simp [TaskPC.rank]) (by intro i; simp [TaskPC.rank, hprog]) hp.released }
  case unlock i hpc =>
    have hprog : env.progress = true := progress_of_inBlock b env s i _ hinv hpc (by decide)
    exact
      { acquired := crossed_set Action.acquire 2 True acts _ s.pcs i _ TaskPC.release hpc
          (by simp [TaskPC.rank]) (by intro i; simp [TaskPC.rank, hprog]) hp.acquired
        probed := crossed_set Action.probe 3 True acts _ s.pcs i _ TaskPC.release hpc
          (by simp [TaskPC.rank]) (by intro i; simp [TaskPC.rank, hprog]) hp.probed
        sent := crossed_set Action.send 4 True acts _ s.pcs i _ TaskPC.release hpc
          (by simp [TaskPC.rank]) (by intro i; simp [TaskPC.rank, hprog]) hp.sent
        incremented := crossed_set Action.increment 6 (env.progress = true) acts _ s.pcs i _ TaskPC.release hpc
          (by simp [TaskPC.rank]) (by intro i; simp [TaskPC.rank, hprog]) hp.incremented
        emitted := crossed_set Action.emit 7 (env.progress = true) acts _ s.pcs i _ TaskPC.release hpc
          (by simp [TaskPC.rank]) (by intro i; simp [TaskPC.rank, hprog]) hp.emitted
        released := crossed_set Action.release 9 True acts _ s.pcs i _ TaskPC.release hpc
          (by simp [TaskPC.rank]) (by intro i; simp [TaskPC.rank, hprog]) hp.released }
  case release i hpc hsem =>
    exact
      { acquired := crossed_set Action.acquire 2 True acts _ s.pcs i _ TaskPC.wgDone hpc
          (by simp [TaskPC.rank]) (by intro i; simp [TaskPC.rank]) hp.acquired
        probed := crossed_set Action.probe 3 True acts _ s.pcs i _ TaskPC.wgDone hpc
          (by simp [TaskPC.rank]) (by intro i; simp [TaskPC.rank]) hp.probed
        sent := crossed_set Action.send 4 True acts _ s.pcs i _ TaskPC.wgDone hpc
          (by simp [TaskPC.rank]) (by intro i; simp [TaskPC.rank]) hp.sent
        incremented := crossed_set Action.increment 6 (env.progress = true) acts _ s.pcs i _ TaskPC.wgDone hpc
          (by simp [TaskPC.rank]) (by intro i; simp [TaskPC.rank]) hp.incremented
        emitted := crossed_set Action.emit 7 (env.progress = true) acts _ s.pcs i _ TaskPC.wgDone hpc
          (by simp [TaskPC.rank]) (by intro i; simp [TaskPC.rank]) hp.emitted
        released := crossed_set Action.release 9 True acts _ s.pcs i _ TaskPC.wgDone hpc
          (by simp [TaskPC.rank]) (by intro i; simp [TaskPC.rank]) hp.released }
  case wgDone i hpc hwg =>
    exact
      { acquired := crossed_set Action.acquire 2 True acts _ s.pcs i _ TaskPC.exited hpc
          (by simp [TaskPC.rank]) (by intro i; simp [TaskPC.rank]) hp.acquired
        probed := crossed_set Action.probe 3 True acts _ s.pcs i _ TaskPC.exited hpc
          (by simp [TaskPC.rank]) (by intro i; simp [TaskPC.rank]) hp.probed
        sent := crossed_set Action.send 4 True acts _ s.pcs i _ TaskPC.exited hpc
          (by simp [TaskPC.rank]) (by intro i; simp [TaskPC.rank]) hp.sent
        incremented := crossed_set Action.increment 6 (env.progress = true) acts _ s.pcs i _ TaskPC.exited hpc
          (by simp [TaskPC.rank]) (by intro i; simp [TaskPC.rank]) hp.incremented
        emitted := crossed_set Action.emit 7 (env.progress = true) acts _ s.pcs i _ TaskPC.exited hpc
          (by simp [TaskPC.rank]) (by intro i; simp [TaskPC.rank]) hp.emitted
        released := crossed_set Action.release 9 True acts _ s.pcs i _ TaskPC.exited hpc
          (by simp [TaskPC.rank]) (by intro i; simp [TaskPC.rank]) hp.released }
  case waited hpc hwg =>
    exact
      { acquired := crossed_same Action.acquire 2 True acts _ s.pcs (by intro i; simp) hp.acquired
        probed := crossed_same Action.probe 3 True acts _ s.pcs (by intro i; simp) hp.probed
        sent := crossed_same Action.send 4 True acts _ s.pcs (by intro i; simp) hp.sent
        incremented := crossed_same Action.increment 6 (env.progress = true) acts _ s.pcs (by intro i; simp) hp.incremented
        emitted := crossed_same Action.emit 7 (env.progress = true) acts _ s.pcs (by intro i; simp) hp.emitted
        released := crossed_same Action.release 9 True acts _ s.pcs (by intro i; simp) hp.released }
  case close hpc =>
    exact
      { acquired := crossed_same Action.acquire 2 True acts _ s.pcs (by intro i; simp) hp.acquired
        probed := crossed_same Action.probe 3 True acts _ s.pcs (by intro i; simp) hp.probed
        sent := crossed_same Action.send 4 True acts _ s.pcs (by intro i; simp) hp.sent
        incremented := crossed_same Action.increment 6 (env.progress = true) acts _ s.pcs (by intro i; simp) hp.incremented
        emitted := crossed_same Action.emit 7 (env.progress = true) acts _ s.pcs (by intro i; simp) hp.emitted
        released := crossed_same Action.release 9 True acts _ s.pcs (by intro i; simp) hp.released }
  case receive result rest hchan hmain =>
    exact
      { acquired := crossed_same Action.acquire 2 True acts _ s.pcs (by intro i; simp) hp.acquired
        probed := crossed_same Action.probe 3 True acts _ s.pcs (by intro i; simp) hp.probed
        sent := crossed_same Action.send 4 True acts _ s.pcs (by intro i; simp) hp.sent
        incremented := crossed_same Action.increment 6 (env.progress = true) acts _ s.pcs (by intro i; simp) hp.incremented
        emitted := crossed_same Action.emit 7 (env.progress = true) acts _ s.pcs (by intro i; simp) hp.emitted
        released := crossed_same Action.release 9 True acts _ s.pcs (by intro i; simp) hp.released }
  case ret hmain hempty hclosed =>
    exact
      { acquired := crossed_same Action.acquire 2 True acts _ s.pcs (by intro i; simp) hp.acquired
        probed := crossed_same Action.probe 3 True acts _ s.pcs (by intro i; simp) hp.probed
        sent := crossed_same Action.send 4 True acts _ s.pcs (by intro i; simp) hp.sent
        incremented := crossed_same Action.increment 6 (env.progress = true) acts _ s.pcs (by intro i; simp) hp.incremented
        emitted := crossed_same Action.emit 7 (env.progress = true) acts _ s.pcs (by intro i; simp) hp.emitted
        released := crossed_same Action.release 9 True acts _ s.pcs (by intro i; simp) hp.released }

theorem progressed_reaches (b : Benchmark) (env : RunEnv) (acts : List Action)
    (s : RunState) (h : Reaches b env acts s) : Progressed env acts s := by
  induction acts using List.reverseRecOn generalizing s with
  | nil => exact progressed_initial b env s (reaches_nil b env s h)
  | append_singleton acts a ih =>
    obtain ⟨s0, hr, hst⟩ := reaches_snoc b env acts a s h
    exact progressed_step b env acts a s0 s (inv_reaches b env acts s0 hr) (ih s0 hr) hst

/-- C14. Concurrency bound: in every state that a call of `Run` reaches, the number of
tasks inside `testResolver` is at most the number of tasks holding a slot, which is the
number of tokens in `sem` and at most `Concurrency`.  A task is inside `testResolver`
exactly between its acquire and the return of its probe, and holds a slot exactly
between its acquire and its release; the probe comes after the acquire, and the
release after the probe, the publication of the result and (with a progress channel)
the emission of the progress event. -/
theorem run_concurrency_bound (b : Benchmark) (env : RunEnv) (acts : List Action)
    (s : RunState) (h : Reaches b env acts s) :
    ((s.pcs.countP isProbing : Nat) : Int) ≤ b.config.Concurrency ∧
      s.pcs.countP isProbing ≤ s.pcs.countP holdsSlot ∧
      s.pcs.countP holdsSlot = s.sem ∧
      (s.sem : Int) ≤ b.config.Concurrency ∧
      (∀ i pc, s.pcs[i]? = some pc →
        (isProbing pc = true ↔ Action.acquire i ∈ acts ∧ Action.probe i ∉ acts) ∧
        (holdsSlot pc = true ↔ Action.acquire i ∈ acts ∧ Action.release i ∉ acts)) ∧
      (∀ i, Action.probe i ∈ acts → Action.acquire i ∈ acts) ∧
      (∀ i, Action.release i ∈ acts →
        Action.probe i ∈ acts ∧ Action.send i ∈ acts ∧
          (env.progress = true → Action.emit i ∈ acts)) := by
  have hinv := inv_reaches b env acts s h
  have hp := progressed_reaches b env acts s h
  have hmono : s.pcs.countP isProbing ≤ s.pcs.countP holdsSlot := by
    apply List.countP_mono_left
    intro pc _ hpc
    simp only [isProbing, holdsSlot, decide_eq_true_eq] at hpc ⊢
    omega
  have hsem := hinv.sem_eq
  have hle := hinv.sem_le
  refine ⟨by omega, hmono, hsem.symm, hle, ?_, ?_, ?_⟩
  · intro i pc hpc
    rw [hp.acquired i, hp.probed i, hp.released i, hpc]
    simp only [isProbing, holdsSlot, decide_eq_true_eq, Option.some.injEq, exists_eq_left',
      true_and, not_le]
    constructor <;> constructor <;> intro h1 <;> omega
  · intro i hi
    obtain ⟨-, pc, hpc, hr⟩ := (hp.probed i).mp hi
    exact (hp.acquired i).mpr ⟨trivial, pc, hpc, by omega⟩
  · intro i hi
    obtain ⟨-, pc, hpc, hr⟩ := (hp.released i).mp hi
    exact ⟨(hp.probed i).mpr ⟨trivial, pc, hpc, by omega⟩,
      (hp.sent i).mpr ⟨trivial, pc, hpc, by omega⟩,
      fun hprog => (hp.emitted i).mpr ⟨hprog, pc, hpc, by omega⟩⟩

theorem run_concurrency_bound_witness :
    Reaches (poolBenchmark 1 false) (poolEnv true)
        [.dispatch, .dispatch, .startCloser, .acquire 1]
        { main := .collect, closer := .wait, pcs := [.acquire, .probing], dispatched := 2,
          wg := 2, sem := 1 } ∧
      ((([TaskPC.acquire, TaskPC.probing].countP isProbing : Nat) : Int) ≤
        (poolBenchmark 1 false).config.Concurrency) ∧
      [TaskPC.acquire, TaskPC.probing].countP isProbing = 1 ∧
      step (poolBenchmark 1 false) (poolEnv true) (.acquire 0)
        { main := .collect, closer := .wait, pcs := [.acquire, .probing], dispatched := 2,
          wg := 2, sem := 1 } = none :=
  ⟨⟨_, rfl, rfl⟩,
    (run_concurrency_bound (poolBenchmark 1 false) (poolEnv true)
      [.dispatch, .dispatch, .startCloser, .acquire 1]
      { main := .collect, closer := .wait, pcs := [.acquire, .probing], dispatched := 2,
        wg := 2, sem := 1 } ⟨_, rfl, rfl⟩).1,
    by decide, by decide⟩

theorem orders_snoc_other (acts : List Action) (a : Action)
    (h1 : ∀ i, a ≠ .send i) (h2 : ∀ i, a ≠ .increment i) (h3 : ∀ i, a ≠ .emit i) :
    sendOrder (acts ++ [a]) = sendOrder acts ∧
      incrementOrder (acts ++ [a]) = incrementOrder acts ∧
      emitOrder (acts ++ [a]) = emitOrder acts := by
  cases a <;> simp [sendOrder, incrementOrder, emitOrder, List.filterMap_append] at h1 h2 h3 ⊢

theorem orders_snoc_send (acts : List Action) (i : Nat) :
    sendOrder (acts ++ [.send i]) = sendOrder acts ++ [i] ∧
      incrementOrder (acts ++ [.send i]) = incrementOrder acts ∧
      emitOrder (acts ++ [.send i]) = emitOrder acts := by
  simp [sendOrder, incrementOrder, emitOrder, List.filterMap_append]

theorem orders_snoc_increment (acts : List Action) (i : Nat) :
    sendOrder (acts ++ [.increment i]) = sendOrder acts ∧
      incrementOrder (acts ++ [.increment i]) = incrementOrder acts ++ [i] ∧
      emitOrder (acts ++ [.increment i]) = emitOrder acts := by
  simp [sendOrder, incrementOrder, emitOrder, List.filterMap_append]

theorem orders_snoc_emit (acts : List Action) (i : Nat) :
    sendOrder (acts ++ [.emit i]) = sendOrder acts ∧
      incrementOrder (acts ++ [.emit i]) = incrementOrder acts ∧
      emitOrder (acts ++ [.emit i]) = emitOrder acts ++ [i] := by
  simp [sendOrder, incrementOrder, emitOrder, List.filterMap_append]

theorem getElem?_set_other (pcs : List TaskPC) (i j : Nat) (new x : TaskPC)
    (h : (pcs.set i new)[j]? = some x) (hne : x ≠ new) : pcs[j]? = some x := by
  by_cases hij : i = j
  · subst hij
    by_cases hlt : i < pcs.length
    · rw [List.getElem?_set_self hlt] at h
      cases h
      exact absurd rfl hne
    · rw [List.getElem?_eq_none (by simpa using hlt)] at h
      cases h
  · rwa [List.getElem?_set_ne hij] at h

/-- The tasks holding the mutex are those at the emit and those elsewhere in the
critical section. -/
theorem countP_holdsMutex (l : List TaskPC) :
    l.countP holdsMutex =
      l.countP atEmit + l.countP (fun pc => decide (pc.rank = 5 ∨ pc.rank = 7)) := by
  induction l with
  | nil => rfl
  | cons a l ih =>
    simp only [List.countP_cons, ih]
    cases a <;> simp [holdsMutex, atEmit, TaskPC.rank] <;> omega

theorem countP_pos_of_getElem? (p : TaskPC → Bool) (l : List TaskPC) (i : Nat)
    (pc : TaskPC) (h : l[i]? = some pc) (hp : p pc = true) : 0 < l.countP p :=
  List.countP_pos_iff.mpr ⟨pc, List.getElem?_mem h, hp⟩

/-- While a task stands at the increment or at the unlock, no task stands at the
emit. -/
theorem no_emit_of_critical (b : Benchmark) (env : RunEnv) (s : RunState) (i : Nat)
    (pc : TaskPC) (hinv : Inv b env s) (hpc : s.pcs[i]? = some pc)
    (hr : pc.rank = 5 ∨ pc.rank = 7) : s.pcs.countP atEmit = 0 := by
  have h1 := countP_holdsMutex s.pcs
  have h2 := countP_pos_of_getElem? (fun pc => decide (pc.rank = 5 ∨ pc.rank = 7)) s.pcs i pc
    hpc (by simpa using hr)
  have h3 := hinv.mu_eq
  split_ifs at h3 <;> omega

/-- While a task stands at the emit, it is the only one. -/
theorem one_emit (b : Benchmark) (env : RunEnv) (s : RunState) (i : Nat)
    (hinv : Inv b env s) (hpc : s.pcs[i]? = some .emit) : s.pcs.countP atEmit = 1 := by
  have h1 := countP_holdsMutex s.pcs
  have h2 := countP_pos_of_getElem? atEmit s.pcs i _ hpc (by decide)
  have h3 := hinv.mu_eq
  split_ifs at h3 <;> omega

theorem not_emit_of_countP (l : List TaskPC) (h : l.countP atEmit = 0) (j : Nat) :
    l[j]? ≠ some .emit := by
  intro hj
  have := countP_pos_of_getElem? atEmit l j _ hj (by decide)
  omega

/-- A step that is no send, increment, emit or receive, and moves one task between
program counters other than the emit, leaves the published data as they are. -/
theorem logged_move (b : Benchmark) (env : RunEnv) (acts : List Action) (a : Action)
    (s s1 : RunState) (i : Nat) (old new : TaskPC) (hL : Logged b env acts s)
    (h1 : ∀ i, a ≠ .send i) (h2 : ∀ i, a ≠ .increment i) (h3 : ∀ i, a ≠ .emit i)
    (hpc : s.pcs[i]? = some old) (hold : atEmit old = false) (hnew : atEmit new = false)
    (hpcs : s1.pcs = s.pcs.set i new) (hprog : s1.progress = s.progress)
    (hcur : s1.current = s.current) (hres : s1.results = s.results)
    (hchan : s1.resultsChan = s.resultsChan) : Logged b env (acts ++ [a]) s1 := by
  obtain ⟨o1, o2, o3⟩ := orders_snoc_other acts a h1 h2 h3
  have hc := countP_set atEmit s.pcs i old new hpc
  rw [hold, hnew] at hc
  simp only [Bool.false_eq_true, if_false, add_zero] at hc
  have hne : TaskPC.emit ≠ new := by
    intro h; rw [← h] at hnew; revert hnew; decide
  exact
    { log := by rw [o3, hprog]; exact hL.log
      counter := by rw [o3, hcur, hpcs, hc]; exact hL.counter
      pending := by
        intro j hj
        rw [hpcs] at hj
        rw [o2, o3]
        exact hL.pending j (getElem?_set_other _ _ _ _ _ hj hne)
      settled := by
        intro h0
        rw [hpcs, hc] at h0
        rw [o2, o3]
        exact hL.settled h0
      queue := by rw [o1, hres, hchan]; exact hL.queue }

/-- A step that moves no task and is no receive leaves the published data as they
are. -/
theorem logged_same (b : Benchmark) (env : RunEnv) (acts : List Action) (a : Action)
    (s s1 : RunState) (hL : Logged b env acts s)
    (h1 : ∀ i, a ≠ .send i) (h2 : ∀ i, a ≠ .increment i) (h3 : ∀ i, a ≠ .emit i)
    (hpcs : s1.pcs = s.pcs) (hprog : s1.progress = s.progress)
    (hcur : s1.current = s.current)
    (hq : s1.results ++ s1.resultsChan = s.results ++ s.resultsChan) :
    Logged b env (acts ++ [a]) s1 := by
  obtain ⟨o1, o2, o3⟩ := orders_snoc_other acts a h1 h2 h3
  exact
    { log := by rw [o3, hprog]; exact hL.log
      counter := by rw [o3, hcur, hpcs]; exact hL.counter
      pending := by rw [o2, o3, hpcs]; exact hL.pending
      settled := by rw [o2, o3, hpcs]; exact hL.settled
      queue := by rw [o1, hq]; exact hL.queue }

theorem logged_initial (b : Benchmark) (env : RunEnv) (s0 : RunState)
    (h : initial b = some s0) : Logged b env [] s0 := by
  unfold initial at h
  split_ifs at h with hc
  cases h
  have h0 : (List.replicate (addressTasks b).length TaskPC.unstarted).countP atEmit = 0 := by
    rw [List.countP_eq_zero]
    intro a ha
    rw [List.eq_of_mem_replicate ha]
    decide
  exact
    { log := rfl
      counter := by simp [emitOrder, h0]
      pending := by
        intro j hj
        exact absurd hj (not_emit_of_countP _ h0 j)
      settled := fun _ => rfl
      queue := rfl }

/-- Every step preserves the relation between the published data and the schedule. -/
theorem logged_step (b : Benchmark) (env : RunEnv) (acts : List Action) (a : Action)
    (s s1 : RunState) (hinv : Inv b env s) (hL : Logged b env acts s)
    (h : Step b env a s s1) : Logged b env (acts ++ [a]) s1 := by
  cases h
  case dispatch hmain hlt =>
    have hpc : s.pcs[s.dispatched]? = some .unstarted := by
      have hl : s.dispatched < s.pcs.length := by rw [hinv.len]; exact hlt
      have h1 : s.pcs[s.dispatched]? = some s.pcs[s.dispatched] := List.getElem?_eq_getElem hl
      rw [h1, (hinv.unst _ _ h1).mpr le_rfl]
    exact logged_move b env acts _ s _ s.dispatched _ TaskPC.acquire hL (by simp) (by simp)
      (by simp) hpc (by decide) (by decide) rfl rfl rfl rfl rfl
  case startCloser hmain hall =>
    exact logged_same b env acts _ s _ hL (by simp) (by simp) (by simp) rfl rfl rfl rfl
  case acquire i hpc hfree =>
    exact logged_move b env acts _ s _ i _ TaskPC.probing hL (by simp) (by simp) (by simp) hpc
      (by decide) (by decide) rfl rfl rfl rfl rfl
  case probe i r address htask hcap hpc =>
    exact logged_move b env acts _ s _ i _
      (TaskPC.send (testResolver env.F b.config.toConfig (env.worlds i) r address)) hL (by simp)
      (by simp) (by simp) hpc (by decide) (by simp [atEmit, TaskPC.rank]) rfl rfl rfl rfl rfl
  case send i result hpc hopen hroom =>
    obtain ⟨o1, o2, o3⟩ := orders_snoc_send acts i
    have hc := countP_set atEmit s.pcs i _ (afterSend env.progress) hpc
    have hnew : atEmit (afterSend env.progress) = false := by
      cases env.progress <;> decide
    rw [hnew] at hc
    simp only [atEmit, TaskPC.rank, Nat.reduceEqDiff, decide_False, Bool.false_eq_true,
      if_false, add_zero] at hc
    have hne : TaskPC.emit ≠ afterSend env.progress := by
      cases env.progress <;> decide
    have hres := hinv.sendres i result hpc
    exact
      { log := by rw [o3]; exact hL.log
        counter := by
          rw [o3]
          show s.current = _ + List.countP atEmit (s.pcs.set i (afterSend env.progress))
          have hcc : List.countP atEmit (s.pcs.set i (afterSend env.progress)) =
              List.countP atEmit s.pcs := hc
          rw [hcc]; exact hL.counter
        pending := by
          intro j hj
          rw [o2, o3]
          exact hL.pending j (getElem?_set_other _ _ _ _ _ hj hne)
        settled := by
          intro h0
          have hcc : List.countP atEmit (s.pcs.set i (afterSend env.progress)) =
              List.countP atEmit s.pcs := hc
          rw [o2, o3]
          exact hL.settled (by rw [← hcc]; exact h0)
        queue := by
          rw [o1, List.map_append, ← hL.queue, hres]
          simp }
  case lock i hpc hmu =>
    exact logged_move b env acts _ s _ i _ TaskPC.increment hL (by simp) (by simp) (by simp) hpc
      (by decide) (by decide) rfl rfl rfl rfl rfl
  case increment i hpc =>
    obtain ⟨o1, o2, o3⟩ := orders_snoc_increment acts i
    have hc := countP_set atEmit s.pcs i _ TaskPC.emit hpc
    simp only [atEmit, TaskPC.rank, Nat.reduceEqDiff, decide_False, Bool.false_eq_true,
      if_false, add_zero, decide_True, if_true] at hc
    have h0 := no_emit_of_critical b env s i _ hinv hpc (Or.inl rfl)
    have hcc : List.countP atEmit (s.pcs.set i TaskPC.emit) = List.countP atEmit s.pcs + 1 := hc
    exact
      { log := by rw [o3]; exact hL.log
        counter := by
          rw [o3]
          show s.current + 1 = _ + List.countP atEmit (s.pcs.set i TaskPC.emit)
          rw [hcc, hL.counter]; omega
        pending := by
          intro j hj
          rw [o2, o3, hL.settled h0]
          by_cases hij : i = j
          · rw [hij]
          · exfalso
            have hj2 : (s.pcs.set i TaskPC.emit)[j]? = some TaskPC.emit := hj
            rw [List.getElem?_set_ne hij] at hj2
            exact not_emit_of_countP _ h0 j hj2
        settled := by
          intro h1
          have h2 : List.countP atEmit (s.pcs.set i TaskPC.emit) = 0 := h1
          omega
        queue := by rw [o1]; exact hL.queue }
  case emit i r address htask hpc =>
    obtain ⟨o1, o2, o3⟩ := orders_snoc_emit acts i
    have hc := countP_set atEmit s.pcs i _ TaskPC.unlock hpc
    simp only [atEmit, TaskPC.rank, Nat.reduceEqDiff, decide_False, Bool.false_eq_true,
      if_false, add_zero, decide_True, if_true] at hc
    have h1 := one_emit b env s i hinv hpc
    have hcc : List.countP atEmit (s.pcs.set i TaskPC.unlock) = 0 := by omega
    have hcur : s.current = (emitOrder acts).length + 1 := by rw [hL.counter, h1]
    exact
      { log := by
          rw [o3, List.mapIdx_concat, ← hL.log]
          show s.progress ++ [_] = _
          rw [hcur]
          simp [taskEvent, htask]
        counter := by
          rw [o3]
          show s.current = _ + List.countP atEmit (s.pcs.set i TaskPC.unlock)
          rw [hcc, hcur]; simp
        pending := by
          intro j hj
          exact absurd hj (not_emit_of_countP _ hcc j)
        settled := by
          intro _
          rw [o2, o3]
          exact hL.pending i hpc
        queue := by rw [o1]; exact hL.queue }
  case unlock i hpc =>
    exact logged_move b env acts _ s _ i _ TaskPC.release hL (by simp) (by simp) (by simp) hpc
      (by decide) (by decide) rfl rfl rfl rfl rfl
  case release i hpc hsem =>
    exact logged_move b env acts _ s _ i _ TaskPC.wgDone hL (by simp) (by simp) (by simp) hpc
      (by decide) (by decide) rfl rfl rfl rfl rfl
  case wgDone i hpc hwg =>
    exact logged_move b env acts _ s _ i _ TaskPC.exited hL (by simp) (by simp) (by simp) hpc
      (by decide) (by decide) rfl rfl rfl rfl rfl
  case waited hpc hwg =>
    exact logged_same b env acts _ s _ hL (by simp) (by simp) (by simp) rfl rfl rfl rfl
  case close hpc =>
    exact logged_same b env acts _ s _ hL (by simp) (by simp) (by simp) rfl rfl rfl rfl
  case receive result rest hchan hmain =>
    exact logged_same b env acts _ s _ hL (by simp) (by simp) (by simp) rfl rfl rfl
      (by simp [hchan])
  case ret hmain hempty hclosed =>
    exact logged_same b env acts _ s _ hL (by simp) (by simp) (by simp) rfl rfl rfl rfl

theorem logged_reaches (b : Benchmark) (env : RunEnv) (acts : List Action)
    (s : RunState) (h : Reaches b env acts s) : Logged b env acts s := by
  induction acts using List.reverseRecOn generalizing s with
  | nil => exact logged_initial b env s (reaches_nil b env s h)
  | append_singleton acts a ih =>
    obtain ⟨s0, hr, hst⟩ := reaches_snoc b env acts a s h
    exact logged_step b env acts a s0 s (inv_reaches b env acts s0 hr) (ih s0 hr) hst

theorem foldl_add_length (f : Resolver → List String) (l : List Resolver) (n : Nat) :
    l.foldl (fun total res => total + (f res).length) n =
      n + (l.flatMap (fun res => (f res).map (fun addr => (res, addr)))).length := by
  induction l generalizing n with
  | nil => simp
  | cons r l ih =>
    rw [List.foldl_cons, ih, List.flatMap_cons, List.length_append, List.length_map]
    omega

/-- The count computed up front is the number of address tasks. -/
theorem countTotal_eq (b : Benchmark) : countTotal b = (addressTasks b).length := by
  unfold countTotal addressTasks
  rw [foldl_add_length]
  simp

theorem mem_sendOrder (acts : List Action) (i : Nat) :
    i ∈ sendOrder acts ↔ Action.send i ∈ acts := by
  unfold sendOrder
  rw [List.mem_filterMap]
  constructor
  · rintro ⟨a, ha, h⟩
    cases a <;> simp at h
    subst h
    exact ha
  · intro h
    exact ⟨_, h, rfl⟩

theorem mem_incrementOrder (acts : List Action) (i : Nat) :
    i ∈ incrementOrder acts ↔ Action.increment i ∈ acts := by
  unfold incrementOrder
  rw [List.mem_filterMap]
  constructor
  · rintro ⟨a, ha, h⟩
    cases a <;> simp at h
    subst h
    exact ha
  · intro h
    exact ⟨_, h, rfl⟩

theorem mem_emitOrder (acts : List Action) (i : Nat) :
    i ∈ emitOrder acts ↔ Action.emit i ∈ acts := by
  unfold emitOrder
  rw [List.mem_filterMap]
  constructor
  · rintro ⟨a, ha, h⟩
    cases a <;> simp at h
    subst h
    exact ha
  · intro h
    exact ⟨_, h, rfl⟩

/-- The program counter at which a step of a task is taken. -/
theorem step_rank (b : Benchmark) (env : RunEnv) (s s1 : RunState) (i : Nat) :
    (Step b env (.send i) s s1 → ∃ pc, s.pcs[i]? = some pc ∧ pc.rank = 3) ∧
      (Step b env (.increment i) s s1 → ∃ pc, s.pcs[i]? = some pc ∧ pc.rank = 5) ∧
      (Step b env (.emit i) s s1 → ∃ pc, s.pcs[i]? = some pc ∧ pc.rank = 6) := by
  refine ⟨?_, ?_, ?_⟩
  · intro h
    cases h
    exact ⟨_, ‹_ = some (TaskPC.send _)›, rfl⟩
  · intro h
    cases h
    exact ⟨_, ‹_ = some TaskPC.increment›, rfl⟩
  · intro h
    cases h
    exact ⟨_, ‹_ = some TaskPC.emit›, rfl⟩

/-- No task sends its result twice, increments the counter twice, or sends its event
twice. -/
theorem orders_nodup (b : Benchmark) (env : RunEnv) (acts : List Action) (s : RunState)
    (h : Reaches b env acts s) :
    (sendOrder acts).Nodup ∧ (incrementOrder acts).Nodup ∧ (emitOrder acts).Nodup := by
  induction acts using List.reverseRecOn generalizing s with
  | nil => simp [sendOrder, incrementOrder, emitOrder]
  | append_singleton acts a ih =>
    obtain ⟨s0, hr, hst⟩ := reaches_snoc b env acts a s h
    obtain ⟨n1, n2, n3⟩ := ih s0 hr
    have hp := progressed_reaches b env acts s0 hr
    by_cases hs : ∃ i, a = .send i
    · obtain ⟨i, rfl⟩ := hs
      obtain ⟨o1, o2, o3⟩ := orders_snoc_send acts i
      obtain ⟨pc, hpc, hrk⟩ := (step_rank b env s0 s i).1 hst
      rw [o1, o2, o3]
      refine ⟨?_, n2, n3⟩
      rw [List.nodup_append]
      refine ⟨n1, List.nodup_singleton i, ?_⟩
      rw [List.disjoint_singleton, mem_sendOrder, hp.sent i, hpc]
      simp only [Option.some.injEq, exists_eq_left', true_and]
      omega
    by_cases hi : ∃ i, a = .increment i
    · obtain ⟨i, rfl⟩ := hi
      obtain ⟨o1, o2, o3⟩ := orders_snoc_increment acts i
      obtain ⟨pc, hpc, hrk⟩ := (step_rank b env s0 s i).2.1 hst
      rw [o1, o2, o3]
      refine ⟨n1, ?_, n3⟩
      rw [List.nodup_append]
      refine ⟨n2, List.nodup_singleton i, ?_⟩
      rw [List.disjoint_singleton, mem_incrementOrder, hp.incremented i, hpc]
      simp only [Option.some.injEq, exists_eq_left']
      omega
    by_cases he : ∃ i, a = .emit i
    · obtain ⟨i, rfl⟩ := he
      obtain ⟨o1, o2, o3⟩ := orders_snoc_emit acts i
      obtain ⟨pc, hpc, hrk⟩ := (step_rank b env s0 s i).2.2 hst
      rw [o1, o2, o3]
      refine ⟨n1, n2, ?_⟩
      rw [List.nodup_append]
      refine ⟨n3, List.nodup_singleton i, ?_⟩
      rw [List.disjoint_singleton, mem_emitOrder, hp.emitted i, hpc]
      simp only [Option.some.injEq, exists_eq_left']
      omega
    · obtain ⟨o1, o2, o3⟩ := orders_snoc_other acts a
        (fun i h => hs ⟨i, h⟩) (fun i h => hi ⟨i, h⟩) (fun i h => he ⟨i, h⟩)
      rw [o1, o2, o3]
      exact ⟨n1, n2, n3⟩

/-- When `Run` has returned, every task goroutine has ended. -/
theorem all_exited (b : Benchmark) (env : RunEnv) (s : RunState) (hinv : Inv b env s)
    (hmain : s.main = .returned) :
    ∀ i, i < (addressTasks b).length → s.pcs[i]? = some .exited := by
  intro i hi
  have hclosed := (hinv.returned hmain).1
  have hwg := hinv.joined (Or.inr (hinv.closed.mp hclosed))
  have hall := hinv.all (by rw [hmain]; simp)
  have hlive := hinv.wg_eq
  rw [hwg] at hlive
  have hl : i < s.pcs.length := by rw [hinv.len]; exact hi
  have h1 : s.pcs[i]? = some s.pcs[i] := List.getElem?_eq_getElem hl
  have h2 := (List.countP_eq_zero.mp hlive.symm) _ (List.getElem?_mem h1)
  have h3 := hinv.unst i _ h1
  rw [h1]
  generalize s.pcs[i] = pc at h2 h3
  cases pc <;> simp [isLive, TaskPC.rank] at h2 ⊢
  have := h3.mp rfl
  omega

theorem taskEvent_fields (b : Benchmark) (i c : Nat) (hi : i < (addressTasks b).length) :
    (taskEvent b i c).Current = c ∧ (taskEvent b i c).Total = (addressTasks b).length := by
  have h1 : (addressTasks b)[i]? = some (addressTasks b)[i] := List.getElem?_eq_getElem hi
  unfold taskEvent
  rw [h1]
  exact ⟨rfl, countTotal_eq b⟩

/-- The events built from a list of tasks, in order: their `Current` values count up
from 1, and each carries the number of tasks as `Total`. -/
theorem mapIdx_taskEvent (b : Benchmark) (order : List Nat)
    (hv : ∀ i ∈ order, i < (addressTasks b).length) :
    ((order.mapIdx (fun k i => taskEvent b i (k + 1))).map Progress.Current =
        List.range' 1 order.length) ∧
      ∀ e ∈ order.mapIdx (fun k i => taskEvent b i (k + 1)),
        e.Total = (addressTasks b).length := by
  induction order using List.reverseRecOn with
  | nil => simp
  | append_singleton l a ih =>
    obtain ⟨ih1, ih2⟩ := ih (fun i hi => hv i (List.mem_append_left _ hi))
    have ha := taskEvent_fields b a (l.length + 1) (hv a (by simp))
    rw [List.mapIdx_concat]
    constructor
    · rw [List.map_append, ih1, List.length_append, List.length_singleton,
        List.range'_concat]
      simp [ha.1, Nat.add_comm]
    · intro e he
      rcases List.mem_append.mp he with h1 | h1
      · exact ih2 e h1
      · rw [List.mem_singleton] at h1
        rw [h1]; exact ha.2

/-- A duplicate-free list of task indices has at most as many entries as there are
tasks. -/
theorem nodup_length_le (order : List Nat) (n : Nat) (hn : order.Nodup)
    (hv : ∀ i ∈ order, i < n) : order.length ≤ n := by
  have hsub : order ⊆ List.range n := fun i hi => List.mem_range.mpr (hv i hi)
  have := (List.subperm_of_subset hn hsub).length_le
  simpa using this

theorem exists_emit_of_countP (l : List TaskPC) (h : 0 < l.countP atEmit) :
    ∃ j : Nat, l[j]? = some TaskPC.emit := by
  obtain ⟨pc, hmem, hpc⟩ := List.countP_pos_iff.mp h
  obtain ⟨j, hj⟩ := List.mem_iff_getElem?.mp hmem
  refine ⟨j, ?_⟩
  rw [hj]
  cases pc <;> simp [atEmit, TaskPC.rank] at hpc ⊢

/-- The tasks that have sent their event are tasks. -/
theorem emitOrder_valid (b : Benchmark) (env : RunEnv) (acts : List Action) (s : RunState)
    (h : Reaches b env acts s) : ∀ i ∈ emitOrder acts, i < (addressTasks b).length := by
  intro i hi
  have hp := progressed_reaches b env acts s h
  have hinv := inv_reaches b env acts s h
  obtain ⟨-, pc, hpc, -⟩ := (hp.emitted i).mp ((mem_emitOrder acts i).mp hi)
  have hl : i < s.pcs.length := by
    by_contra hcon
    rw [List.getElem?_eq_none (by omega)] at hpc
    cases hpc
  rw [← hinv.len]; exact hl

/-- C13 (amended). Progress events: in every state that a call of `Run` reaches, the
`Current` values of the events sent so far are 1, 2, ..., in this order (none repeated,
none skipped), every event carries `Total` = the number of address tasks, and there
are at most that many events, so `Current = Total` holds for the event at position
`Total` and for no other.  The k-th event is the event of the k-th task to send one;
no task sends two; and the tasks send their events in the order in which they
incremented the counter.  When as many events have been sent as there are tasks (so
that `Current = Total` has been emitted), every task has left its probe, published its
result and sent its event.  Once `Run` has returned with a progress channel, every task
has sent its event, and the last event, if there is a task at all, has
`Current = Total` and is the event of the task that incremented the counter last.
Without a progress channel no event is sent. -/
theorem run_progress_log (b : Benchmark) (env : RunEnv) (acts : List Action)
    (s : RunState) (h : Reaches b env acts s) :
    s.progress.map Progress.Current = List.range' 1 s.progress.length ∧
      (∀ e ∈ s.progress, e.Total = (addressTasks b).length) ∧
      s.progress.length ≤ (addressTasks b).length ∧
      (∀ k e, s.progress[k]? = some e →
        (e.Current = e.Total ↔ k + 1 = (addressTasks b).length)) ∧
      s.progress = (emitOrder acts).mapIdx (fun k i => taskEvent b i (k + 1)) ∧
      (emitOrder acts).Nodup ∧
      emitOrder acts <+: incrementOrder acts ∧
      (env.progress = false → s.progress = []) ∧
      (s.progress.length = (addressTasks b).length →
        ∀ i, i < (addressTasks b).length →
          Action.probe i ∈ acts ∧ Action.send i ∈ acts ∧ Action.emit i ∈ acts) ∧
      (s.main = .returned → env.progress = true →
        s.progress.length = (addressTasks b).length ∧
          emitOrder acts = incrementOrder acts ∧
          (emitOrder acts).Perm (List.range (addressTasks b).length) ∧
          ∀ e, s.progress.getLast? = some e →
            e.Current = e.Total ∧
              ∃ i, (incrementOrder acts).getLast? = some i ∧
                e = taskEvent b i (addressTasks b).length) := by
  have hinv := inv_reaches b env acts s h
  have hp := progressed_reaches b env acts s h
  have hL := logged_reaches b env acts s h
  obtain ⟨-, -, hnodup⟩ := orders_nodup b env acts s h
  have hvalid := emitOrder_valid b env acts s h
  obtain ⟨hcur, htot⟩ := mapIdx_taskEvent b (emitOrder acts) hvalid
  have hlen : s.progress.length = (emitOrder acts).length := by
    rw [hL.log, List.length_mapIdx]
  have hle := nodup_length_le (emitOrder acts) _ hnodup hvalid
  have hpre : emitOrder acts <+: incrementOrder acts := by
    rcases Nat.eq_zero_or_pos (s.pcs.countP atEmit) with h0 | h0
    · rw [hL.settled h0]
    · obtain ⟨j, hj⟩ := exists_emit_of_countP s.pcs h0
      rw [hL.pending j hj]
      exact List.prefix_append _ _
  have hcur2 : s.progress.map Progress.Current = List.range' 1 s.progress.length := by
    rw [hlen, hL.log]; exact hcur
  have htot2 : ∀ e ∈ s.progress, e.Total = (addressTasks b).length := by
    rw [hL.log]; exact htot
  refine ⟨hcur2, htot2, by omega, ?_, hL.log, hnodup, hpre, ?_, ?_, ?_⟩
  · intro k e hk
    have hmem : e ∈ s.progress := List.getElem?_mem hk
    have h1 : (s.progress.map Progress.Current)[k]? = some e.Current := by
      rw [List.getElem?_map, hk]; rfl
    rw [hcur2, List.getElem?_range'] at h1
    · simp only [Option.some.injEq] at h1
      rw [htot2 e hmem]
      omega
    · by_contra hcon
      rw [List.getElem?_eq_none (by omega)] at hk
      cases hk
  · intro hprog
    have hnone : emitOrder acts = [] := by
      rw [List.eq_nil_iff_forall_not_mem]
      intro i hi
      have := ((hp.emitted i).mp ((mem_emitOrder acts i).mp hi)).1
      rw [hprog] at this
      cases this
    rw [hL.log, hnone]
    rfl
  · intro hfull i hi
    have hsub : emitOrder acts ⊆ List.range (addressTasks b).length :=
      fun j hj => List.mem_range.mpr (hvalid j hj)
    have hperm := (List.subperm_of_subset hnodup hsub).perm_of_length_le
      (by rw [List.length_range]; omega)
    have hmem : i ∈ emitOrder acts := hperm.mem_iff.mpr (List.mem_range.mpr hi)
    have hemit := (mem_emitOrder acts i).mp hmem
    obtain ⟨-, pc, hpc, hr⟩ := (hp.emitted i).mp hemit
    exact ⟨(hp.probed i).mpr ⟨trivial, pc, hpc, by omega⟩,
      (hp.sent i).mpr ⟨trivial, pc, hpc, by omega⟩, hemit⟩
  · intro hmain hprog
    have hex := all_exited b env s hinv hmain
    have hperm : (emitOrder acts).Perm (List.range (addressTasks b).length) := by
      rw [List.perm_ext_iff_of_nodup hnodup (List.nodup_range _)]
      intro i
      rw [List.mem_range]
      constructor
      · exact hvalid i
      · intro hi
        rw [mem_emitOrder, hp.emitted i]
        exact ⟨hprog, _, hex i hi, by decide⟩
    have hlenT : (emitOrder acts).length = (addressTasks b).length := by
      rw [hperm.length_eq, List.length_range]
    have h0 : s.pcs.countP atEmit = 0 := by
      rw [List.countP_eq_zero]
      intro pc hpc
      obtain ⟨j, hj⟩ := List.mem_iff_getElem?.mp hpc
      have hjl : j < (addressTasks b).length := by
        by_contra hcon
        rw [List.getElem?_eq_none (by rw [hinv.len]; omega)] at hj
        cases hj
      rw [hex j hjl] at hj
      cases hj
      decide
    have heq := hL.settled h0
    refine ⟨by omega, heq.symm, hperm, ?_⟩
    intro e he
    rw [hL.log] at he
    rcases List.eq_nil_or_concat (emitOrder acts) with hnil | ⟨init, i, hcat⟩
    · rw [hnil] at he
      cases he
    · rw [List.concat_eq_append] at hcat
      have hi : i < (addressTasks b).length := hvalid i (by rw [hcat]; simp)
      have hinit : init.length + 1 = (addressTasks b).length := by
        rw [← hlenT, hcat]; simp
      rw [hcat, List.mapIdx_concat, List.getLast?_append] at he
      simp only [List.getLast?_singleton, Option.or_some, Option.some.injEq] at he
      subst he
      obtain ⟨f1, f2⟩ := taskEvent_fields b i (init.length + 1) hi
      refine ⟨by rw [f1, f2, hinit], i, ?_, by rw [hinit]⟩
      rw [heq, hcat]
      simp

theorem reaches_stateAfter (b : Benchmark) (env : RunEnv) (acts : List Action)
    (h : ((initial b).bind (exec b env acts)).isSome = true) :
    Reaches b env acts (stateAfter b env acts) := by
  unfold stateAfter
  cases h0 : initial b with
  | none => rw [h0] at h; cases h
  | some s0 =>
    rw [h0] at h
    change (exec b env acts s0).isSome = true at h
    cases h1 : exec b env acts s0 with
    | none => rw [h1] at h; cases h
    | some s => exact ⟨s0, h0, by simp [h1]⟩

theorem run_progress_log_witness :
    Reaches (poolBenchmark 1 false) (poolEnv true) serialSchedule
        (stateAfter (poolBenchmark 1 false) (poolEnv true) serialSchedule) ∧
      (stateAfter (poolBenchmark 1 false) (poolEnv true) serialSchedule).progress.map
          Progress.Current =
        List.range' 1
          (stateAfter (poolBenchmark 1 false) (poolEnv true) serialSchedule).progress.length ∧
      (stateAfter (poolBenchmark 1 false) (poolEnv true) serialSchedule).main = .returned ∧
      (stateAfter (poolBenchmark 1 false) (poolEnv true) serialSchedule).progress =
        [{ Resolver := "beta", Address := "192.0.2.2", Total := 2, Current := 1 },
          { Resolver := "alpha", Address := "192.0.2.1", Total := 2, Current := 2 }] :=
  ⟨reaches_stateAfter _ _ _ (by decide!),
    (run_progress_log (poolBenchmark 1 false) (poolEnv true) serialSchedule _
      (reaches_stateAfter _ _ _ (by decide!))).1,
    by decide!, by decide!⟩

/-- The loops of `testResolver` never change the `Resolver` and `Address` fields. -/
theorem rangeDomains_identity (F : FloatModel) (w : World) (addr : String)
    (ds : List String) :
    ∀ s : LoopState,
      ((rangeDomains F w addr ds s).result F).Resolver = s.result.Resolver ∧
        ((rangeDomains F w addr ds s).result F).Address = s.result.Address := by
  induction ds with
  | nil => intro s; exact ⟨rfl, rfl⟩
  | cons d rest ih =>
    intro s
    rw [rangeDomains_cons]
    split_ifs
    · exact ⟨rfl, rfl⟩
    · simp only [Flow.result, bailout, finish]
      exact ⟨(capture_fields _ _).2.2.2.2.2.1, (capture_fields _ _).2.2.2.2.2.2⟩
    · obtain ⟨h1, h2⟩ := ih
        { result := record s.result (Query (w.exchange s.result.Queries) addr d TypeA)
          consecutiveFailures := consecutive s.consecutiveFailures
            (Query (w.exchange s.result.Queries) addr d TypeA) }
      rw [h1, h2]
      exact ⟨(record_fields _ _).2.2.2.2.2.1, (record_fields _ _).2.2.2.2.2.2⟩

/-- The result of `testResolver` names the resolver and the address it was called
with. -/
theorem testResolver_identity (F : FloatModel) (config : Config) (w : World)
    (res : Resolver) (addr : String) :
    (testResolver F config w res addr).Resolver = res ∧
      (testResolver F config w res addr).Address = addr := by
  rw [testResolver_result]
  exact rangeDomains_identity F w addr (schedule config) (initialState res addr)

/-- The results of the tasks name the `(resolver, address)` pairs of the tasks, in
order. -/
theorem taskResult_identity (b : Benchmark) (env : RunEnv) :
    ((List.range (addressTasks b).length).map (taskResult b env)).map
        (fun r => (r.Resolver, r.Address)) = addressTasks b := by
  apply List.ext_getElem?
  intro i
  rw [List.getElem?_map, List.getElem?_map]
  by_cases hi : i < (addressTasks b).length
  · obtain ⟨⟨r, a⟩, h1⟩ : ∃ p, (addressTasks b)[i]? = some p :=
      ⟨_, List.getElem?_eq_getElem hi⟩
    rw [List.getElem?_range hi, h1]
    simp only [Option.map_some', taskResult, h1, Option.some.injEq]
    obtain ⟨f1, f2⟩ := testResolver_identity env.F b.config.toConfig (env.worlds i) r a
    rw [f1, f2]
  · rw [List.getElem?_eq_none (by simpa using hi), List.getElem?_eq_none (by simpa using hi)]
    rfl

theorem sum_map_set (f : TaskPC → Nat) (l : List TaskPC) (i : Nat) (old x : TaskPC)
    (h : l[i]? = some old) :
    ((l.set i x).map f).sum + f old = (l.map f).sum + f x := by
  induction l generalizing i with
  | nil => simp at h
  | cons a l ih =>
    cases i with
    | zero =>
      simp only [List.getElem?_cons_zero, Option.some.injEq] at h
      subst h
      simp only [List.set_cons_zero, List.map_cons, List.sum_cons]
      omega
    | succ i =>
      simp only [List.getElem?_cons_succ] at h
      have := ih i h
      simp only [List.set_cons_succ, List.map_cons, List.sum_cons]
      omega

/-- Every step uses up at least one of the steps left. -/
theorem stepsLeft_step (b : Benchmark) (env : RunEnv) (a : Action) (s s1 : RunState)
    (hinv : Inv b env s) (h : Step b env a s s1) : stepsLeft s1 < stepsLeft s := by
  cases h
  case dispatch hmain hlt =>
    have hpc : s.pcs[s.dispatched]? = some .unstarted := by
      have hl : s.dispatched < s.pcs.length := by rw [hinv.len]; exact hlt
      have h1 : s.pcs[s.dispatched]? = some s.pcs[s.dispatched] := List.getElem?_eq_getElem hl
      rw [h1, (hinv.unst _ _ h1).mpr le_rfl]
    have hs := sum_map_set TaskPC.left s.pcs s.dispatched _ TaskPC.acquire hpc
    simp only [TaskPC.left, TaskPC.rank] at hs
    simp only [stepsLeft]
    omega
  case startCloser hmain hall =>
    have hcl : s.closer = .unstarted := hinv.started.mp hmain
    simp only [stepsLeft, hmain, hcl]
    omega
  case acquire i hpc hfree =>
    have hs := sum_map_set TaskPC.left s.pcs i _ TaskPC.probing hpc
    simp only [TaskPC.left, TaskPC.rank] at hs
    simp only [stepsLeft]
    omega
  case probe i r address htask hcap hpc =>
    have hs := sum_map_set TaskPC.left s.pcs i _ (TaskPC.send (testResolver env.F b.config.toConfig (env.worlds i) r address)) hpc
    simp only [TaskPC.left, TaskPC.rank] at hs
    simp only [stepsLeft]
    omega
  case send i result hpc hopen hroom =>
    have hs1 := sum_map_set TaskPC.left s.pcs i _ TaskPC.lock hpc
    have hs2 := sum_map_set TaskPC.left s.pcs i _ TaskPC.release hpc
    simp only [TaskPC.left, TaskPC.rank] at hs1 hs2
    simp only [stepsLeft, List.length_append, List.length_singleton]
    cases env.progress <;> simp only [afterSend] <;> omega
  case lock i hpc hmu =>
    have hs := sum_map_set TaskPC.left s.pcs i _ TaskPC.increment hpc
    simp only [TaskPC.left, TaskPC.rank] at hs
    simp only [stepsLeft]
    omega
  case increment i hpc =>
    have hs := sum_map_set TaskPC.left s.pcs i _ TaskPC.emit hpc
    simp only [TaskPC.left, TaskPC.rank] at hs
    simp only [stepsLeft]
    omega
  case emit i r address htask hpc =>
    have hs := sum_map_set TaskPC.left s.pcs i _ TaskPC.unlock hpc
    simp only [TaskPC.left, TaskPC.rank] at hs
    simp only [stepsLeft]
    omega
  case unlock i hpc =>
    have hs := sum_map_set TaskPC.left s.pcs i _ TaskPC.release hpc
    simp only [TaskPC.left, TaskPC.rank] at hs
    simp only [stepsLeft]
    omega
  case release i hpc hsem =>
    have hs := sum_map_set TaskPC.left s.pcs i _ TaskPC.wgDone hpc
    simp only [TaskPC.left, TaskPC.rank] at hs
    simp only [stepsLeft]
    omega
  case wgDone i hpc hwg =>
    have hs := sum_map_set TaskPC.left s.pcs i _ TaskPC.exited hpc
    simp only [TaskPC.left, TaskPC.rank] at hs
    simp only [stepsLeft]
    omega
  case waited hpc hwg =>
    simp only [stepsLeft, hpc]
    omega
  case close hpc =>
    simp only [stepsLeft, hpc]
    omega
  case receive result rest hchan hmain =>
    simp only [stepsLeft, hchan, List.length_cons]
    omega
  case ret hmain hempty hclosed =>
    simp only [stepsLeft, hmain]
    omega

/-- A schedule of a call of `Run` with `T` tasks has at most `20 T + 4` steps. -/
theorem schedule_bounded (b : Benchmark) (env : RunEnv) (acts : List Action)
    (s : RunState) (h : Reaches b env acts s) :
    acts.length + stepsLeft s ≤ 20 * (addressTasks b).length + 4 := by
  induction acts using List.reverseRecOn generalizing s with
  | nil =>
    have h0 := reaches_nil b env s h
    unfold initial at h0
    split_ifs at h0
    cases h0
    have hsum : ∀ n : Nat, ((List.replicate n TaskPC.unstarted).map
        TaskPC.left).sum = 10 * n := by
      intro n
      induction n with
      | zero => rfl
      | succ n ih =>
        rw [List.replicate_succ, List.map_cons, List.sum_cons, ih]
        simp only [TaskPC.left, TaskPC.rank]
        omega
    simp only [stepsLeft, hsum, List.length_nil]
    omega
  | append_singleton acts a ih =>
    obtain ⟨s0, hr, hst⟩ := reaches_snoc b env acts a s h
    have h1 := ih s0 hr
    have h2 := stepsLeft_step b env a s0 s (inv_reaches b env acts s0 hr) hst
    rw [List.length_append, List.length_singleton]
    omega

theorem exists_of_countP_pos (p : TaskPC → Bool) (l : List TaskPC) (h : 0 < l.countP p) :
    ∃ (j : Nat) (pc : TaskPC), l[j]? = some pc ∧ p pc = true := by
  obtain ⟨pc, hmem, hpc⟩ := List.countP_pos_iff.mp h
  obtain ⟨j, hj⟩ := List.mem_iff_getElem?.mp hmem
  exact ⟨j, pc, hj, hpc⟩

theorem task_of_pc (b : Benchmark) (env : RunEnv) (s : RunState) (hinv : Inv b env s)
    (j : Nat) (pc : TaskPC) (h : s.pcs[j]? = some pc) :
    ∃ r address, (addressTasks b)[j]? = some (r, address) := by
  have hl : j < (addressTasks b).length := by
    rw [← hinv.len]
    by_contra hcon
    rw [List.getElem?_eq_none (by omega)] at h
    cases h
  exact ⟨(addressTasks b)[j].1, (addressTasks b)[j].2, List.getElem?_eq_getElem hl⟩

/-- If there is a task, `resultsChan` has room for a result. -/
theorem resultsCap_pos (b : Benchmark) (h : 0 < (addressTasks b).length) :
    0 < resultsCap b := by
  unfold resultsCap
  unfold addressTasks at h
  cases hr : b.resolvers with
  | nil => rw [hr] at h; simp at h
  | cons r rs => simp

/-- A task that holds the mutex can take its next step. -/
theorem mutex_holder_enabled (b : Benchmark) (env : RunEnv) (s : RunState)
    (hinv : Inv b env s) (j : Nat) (pc : TaskPC) (hpc : s.pcs[j]? = some pc)
    (hm : holdsMutex pc = true) : ∃ a s1, step b env a s = some s1 := by
  obtain ⟨r, address, htask⟩ := task_of_pc b env s hinv j pc hpc
  cases pc <;> simp [holdsMutex, TaskPC.rank] at hm
  · exact ⟨_, _, step_complete b env _ _ _ (Step.increment s j hpc)⟩
  · exact ⟨_, _, step_complete b env _ _ _ (Step.emit s j r address htask hpc)⟩
  · exact ⟨_, _, step_complete b env _ _ _ (Step.unlock s j hpc)⟩

/-- While `resultsChan` is open and has room and the capacity passed to `make` is not
negative, some task that holds a slot can take a step. -/
theorem slot_holder_enabled (b : Benchmark) (env : RunEnv) (s : RunState)
    (hinv : Inv b env s) (hcap : 0 ≤ rttCapacity b) (hopen : s.closed = false)
    (hroom : s.resultsChan.length < resultsCap b) (j : Nat) (pc : TaskPC)
    (hpc : s.pcs[j]? = some pc) (hh : holdsSlot pc = true) :
    ∃ a s1, step b env a s = some s1 := by
  obtain ⟨r, address, htask⟩ := task_of_pc b env s hinv j pc hpc
  have hsem : 0 < s.sem := by
    rw [hinv.sem_eq]
    exact countP_pos_of_getElem? holdsSlot s.pcs j pc hpc hh
  cases pc <;> simp [holdsSlot, TaskPC.rank] at hh
  case probing => exact ⟨_, _, step_complete b env _ _ _ (Step.probe s j r address htask hpc hcap)⟩
  case send result =>
    exact ⟨_, _, step_complete b env _ _ _ (Step.send s j result hpc hopen hroom)⟩
  case lock =>
    cases hmu : s.mu
    · exact ⟨_, _, step_complete b env _ _ _ (Step.lock s j hpc hmu)⟩
    · have h1 := hinv.mu_eq
      rw [hmu] at h1
      simp only [if_true] at h1
      obtain ⟨k, pck, hk, hkm⟩ := exists_of_countP_pos holdsMutex s.pcs (by omega)
      exact mutex_holder_enabled b env s hinv k pck hk hkm
  case increment => exact mutex_holder_enabled b env s hinv j _ hpc (by decide)
  case emit => exact mutex_holder_enabled b env s hinv j _ hpc (by decide)
  case unlock => exact mutex_holder_enabled b env s hinv j _ hpc (by decide)
  case release => exact ⟨_, _, step_complete b env _ _ _ (Step.release s j hpc hsem)⟩

/-- With at least one slot and a capacity for `make` that is not negative, a call of
`Run` that has not returned can take a step: it never gets stuck. -/
theorem never_stuck (b : Benchmark) (env : RunEnv) (s : RunState) (hinv : Inv b env s)
    (hC : 1 ≤ b.config.Concurrency) (hcap : 0 ≤ rttCapacity b)
    (hmain : s.main ≠ .returned) :
    ∃ a s1, step b env a s = some s1 := by
  cases hm : s.main with
  | returned => exact absurd hm hmain
  | dispatch =>
    by_cases hlt : s.dispatched < (addressTasks b).length
    · exact ⟨_, _, step_complete b env _ _ _ (Step.dispatch s hm hlt)⟩
    · have := hinv.disp
      exact ⟨_, _, step_complete b env _ _ _ (Step.startCloser s hm (by omega))⟩
  | collect =>
    cases hchan : s.resultsChan with
    | cons result rest =>
      exact ⟨_, _, step_complete b env _ _ _ (Step.receive s result rest hchan hm)⟩
    | nil =>
      cases hclosed : s.closed with
      | true => exact ⟨_, _, step_complete b env _ _ _ (Step.ret s hm hchan hclosed)⟩
      | false =>
        have hne : s.closer ≠ .unstarted := by
          intro hc
          have := hinv.started.mpr hc
          rw [hm] at this
          cases this
        have hne2 : s.closer ≠ .exited := by
          intro hc
          have := hinv.closed.mpr hc
          rw [hclosed] at this
          cases this
        cases hcl : s.closer with
        | unstarted => exact absurd hcl hne
        | exited => exact absurd hcl hne2
        | close => exact ⟨_, _, step_complete b env _ _ _ (Step.close s hcl)⟩
        | wait =>
          rcases Nat.eq_zero_or_pos s.wg with hwg | hwg
          · exact ⟨_, _, step_complete b env _ _ _ (Step.waited s hcl hwg)⟩
          · have hlive : 0 < s.pcs.countP isLive := by rw [← hinv.wg_eq]; exact hwg
            obtain ⟨j, pc, hpc, hl⟩ := exists_of_countP_pos isLive s.pcs hlive
            obtain ⟨r, address, htask⟩ := task_of_pc b env s hinv j pc hpc
            have hT : 0 < (addressTasks b).length := by
              by_contra hcon
              rw [List.getElem?_eq_none (by omega)] at htask
              cases htask
            have hroom : s.resultsChan.length < resultsCap b := by
              rw [hchan]; exact resultsCap_pos b hT
            by_cases hh : holdsSlot pc = true
            · exact slot_holder_enabled b env s hinv hcap hclosed hroom j pc hpc hh
            · cases pc <;> simp [holdsSlot, isLive, TaskPC.rank] at hh hl
              · by_cases hfree : (s.sem : Int) < b.config.Concurrency
                · exact ⟨_, _, step_complete b env _ _ _ (Step.acquire s j hpc hfree)⟩
                · have hsem : 0 < s.pcs.countP holdsSlot := by
                    rw [← hinv.sem_eq]; omega
                  obtain ⟨k, pck, hk, hkh⟩ := exists_of_countP_pos holdsSlot s.pcs hsem
                  exact slot_holder_enabled b env s hinv hcap hclosed hroom k pck hk hkh
              · exact ⟨_, _, step_complete b env _ _ _ (Step.wgDone s j hpc hwg)⟩

theorem reaches_step (b : Benchmark) (env : RunEnv) (acts : List Action) (a : Action)
    (s s1 : RunState) (h : Reaches b env acts s) (hs : step b env a s = some s1) :
    Reaches b env (acts ++ [a]) s1 := by
  obtain ⟨s0, h0, h1⟩ := h
  refine ⟨s0, h0, ?_⟩
  rw [exec_append, h1]
  simp [exec, hs]

/-- A call of `Run` returns a slice under a schedule exactly if the schedule leads to a
state in which the caller has returned; the slice is `results` of that state. -/
theorem run_eq_some_iff (b : Benchmark) (env : RunEnv) (acts : List Action)
    (results : List ResolverResult) :
    b.Run env acts = some results ↔
      ∃ s, Reaches b env acts s ∧ s.main = .returned ∧ s.results = results := by
  unfold Benchmark.Run Reaches
  cases h0 : initial b with
  | none => simp
  | some s0 =>
    cases h1 : exec b env acts s0 with
    | none => simp [h1]
    | some s =>
      simp only [Option.some.injEq, exists_eq_left', h1]
      by_cases hm : s.main = .returned
      · simp [hm]
      · simp [hm]

/-- With at least one slot and a capacity for `make` that is not negative, every
schedule of a call of `Run` can be continued to one under which the call returns. -/
theorem run_completes (b : Benchmark) (env : RunEnv) (hC : 1 ≤ b.config.Concurrency)
    (hcap : 0 ≤ rttCapacity b) :
    ∀ (n : Nat) (acts : List Action) (s : RunState), Reaches b env acts s →
      stepsLeft s ≤ n → ∃ post results, b.Run env (acts ++ post) = some results := by
  intro n
  induction n with
  | zero =>
    intro acts s h hn
    have hinv := inv_reaches b env acts s h
    by_cases hm : s.main = .returned
    · exact ⟨[], s.results, by
        rw [List.append_nil, run_eq_some_iff]; exact ⟨s, h, hm, rfl⟩⟩
    · obtain ⟨a, s1, hs⟩ := never_stuck b env s hinv hC hcap hm
      have := stepsLeft_step b env a s s1 hinv (step_sound b env a s s1 hs)
      omega
  | succ n ih =>
    intro acts s h hn
    have hinv := inv_reaches b env acts s h
    by_cases hm : s.main = .returned
    · exact ⟨[], s.results, by
        rw [List.append_nil, run_eq_some_iff]; exact ⟨s, h, hm, rfl⟩⟩
    · obtain ⟨a, s1, hs⟩ := never_stuck b env s hinv hC hcap hm
      have hlt := stepsLeft_step b env a s s1 hinv (step_sound b env a s s1 hs)
      obtain ⟨post, results, hrun⟩ := ih (acts ++ [a]) s1 (reaches_step b env acts a s s1 h hs)
        (by omega)
      exact ⟨a :: post, results, by rw [← hrun]; simp⟩

/-- Taking a slot needs a slot: a schedule with an acquire has `Concurrency ≥ 1`. -/
theorem acquire_needs_slot (b : Benchmark) (env : RunEnv) (acts : List Action)
    (s : RunState) (h : Reaches b env acts s) (i : Nat) (hi : Action.acquire i ∈ acts) :
    1 ≤ b.config.Concurrency := by
  induction acts using List.reverseRecOn generalizing s with
  | nil => simp at hi
  | append_singleton acts a ih =>
    obtain ⟨s0, hr, hst⟩ := reaches_snoc b env acts a s h
    rcases List.mem_append.mp hi with h1 | h1
    · exact ih s0 hr h1
    · rw [List.mem_singleton] at h1
      subst h1
      cases hst
      rename_i hfree
      omega

/-- Without a slot, a call of `Run` with at least one task never returns. -/
theorem never_returns (b : Benchmark) (env : RunEnv) (hC : b.config.Concurrency ≤ 0)
    (hT : 0 < (addressTasks b).length) (acts : List Action) : b.Run env acts = none := by
  cases hrun : b.Run env acts with
  | none => rfl
  | some results =>
    exfalso
    obtain ⟨s, h, hm, -⟩ := (run_eq_some_iff b env acts results).mp hrun
    have hinv := inv_reaches b env acts s h
    have hp := progressed_reaches b env acts s h
    have hex := all_exited b env s hinv hm 0 hT
    have hacq : Action.acquire 0 ∈ acts := (hp.acquired 0).mpr ⟨trivial, _, hex, by decide⟩
    have := acquire_needs_slot b env acts s h 0 hacq
    omega

/-- A call of `testResolver` that returns was given a capacity that is not negative. -/
theorem probe_needs_capacity (b : Benchmark) (env : RunEnv) (acts : List Action)
    (s : RunState) (h : Reaches b env acts s) (i : Nat) (hi : Action.probe i ∈ acts) :
    0 ≤ rttCapacity b := by
  induction acts using List.reverseRecOn generalizing s with
  | nil => simp at hi
  | append_singleton acts a ih =>
    obtain ⟨s0, hr, hst⟩ := reaches_snoc b env acts a s h
    rcases List.mem_append.mp hi with h1 | h1
    · exact ih s0 hr h1
    · rw [List.mem_singleton] at h1
      subst h1
      cases hst
      assumption

/-- With a negative capacity for `make`, a call of `Run` with at least one task never
returns. -/
theorem never_returns_of_panic (b : Benchmark) (env : RunEnv) (hcap : rttCapacity b < 0)
    (hT : 0 < (addressTasks b).length) (acts : List Action) : b.Run env acts = none := by
  cases hrun : b.Run env acts with
  | none => rfl
  | some results =>
    exfalso
    obtain ⟨s, h, hm, -⟩ := (run_eq_some_iff b env acts results).mp hrun
    have hinv := inv_reaches b env acts s h
    have hp := progressed_reaches b env acts s h
    have hex := all_exited b env s hinv hm 0 hT
    have hprobe : Action.probe 0 ∈ acts := (hp.probed 0).mpr ⟨trivial, _, hex, by decide⟩
    have := probe_needs_capacity b env acts s h 0 hprobe
    omega

/-- When `Run` has returned, `results` holds the result of every task once, in the
order in which the tasks sent them. -/
theorem results_at_return (b : Benchmark) (env : RunEnv) (acts : List Action)
    (s : RunState) (h : Reaches b env acts s) (hm : s.main = .returned) :
    s.results = (sendOrder acts).map (taskResult b env) ∧
      (sendOrder acts).Perm (List.range (addressTasks b).length) := by
  have hinv := inv_reaches b env acts s h
  have hp := progressed_reaches b env acts s h
  have hL := logged_reaches b env acts s h
  obtain ⟨hnodup, -, -⟩ := orders_nodup b env acts s h
  have hq := hL.queue
  rw [(hinv.returned hm).2, List.append_nil] at hq
  refine ⟨hq, ?_⟩
  rw [List.perm_ext_iff_of_nodup hnodup (List.nodup_range _)]
  intro i
  rw [List.mem_range, mem_sendOrder, hp.sent i]
  constructor
  · rintro ⟨-, pc, hpc, -⟩
    rw [← hinv.len]
    by_contra hcon
    rw [List.getElem?_eq_none (by omega)] at hpc
    cases hpc
  · intro hi
    exact ⟨trivial, _, all_exited b env s hinv hm i hi, by decide⟩

theorem countTotal_eq_sum (b : Benchmark) :
    countTotal b =
      (b.resolvers.map (fun r => (r.AllAddresses b.config.IncludeIPv6).length)).sum := by
  have key : ∀ (l : List Resolver) (n : Nat),
      l.foldl (fun total res => total + (res.AllAddresses b.config.IncludeIPv6).length) n =
        n + (l.map (fun r => (r.AllAddresses b.config.IncludeIPv6).length)).sum := by
    intro l
    induction l with
    | nil => intro n; simp
    | cons r l ih =>
      intro n
      rw [List.foldl_cons, ih, List.map_cons, List.sum_cons]
      omega
  unfold countTotal
  rw [key]
  simp

/-- C12 (amended). One result per address task: for every resolver list and every
configuration with `Concurrency ≥ 1` and `Iterations × len(Domains) ≥ 0`, `AllAddresses`
is the IPv4 list, followed by the IPv6 list when `IncludeIPv6` is set; the total
computed up front is the number of `(resolver, address)` tasks; whenever `Run` returns,
the slice it returns is a rearrangement of the results of the probes of all tasks, one
per task whatever its number of successes, it names exactly the `(resolver, address)`
pairs of the tasks, and its length is that total; and `Run` does return: every schedule
has at most `20 × total + 4` steps, a call that has not returned can always take a
step, and every schedule can be continued to one under which the call returns. -/
theorem run_one_result_per_task (b : Benchmark) (env : RunEnv)
    (hC : 1 ≤ b.config.Concurrency)
    (hcap : 0 ≤ b.config.Iterations * (b.config.Domains.length : Int)) :
    (∀ r : Resolver, r.AllAddresses true = r.IPv4 ++ r.IPv6 ∧ r.AllAddresses false = r.IPv4) ∧
      countTotal b = (addressTasks b).length ∧
      countTotal b =
        (b.resolvers.map (fun r => (r.AllAddresses b.config.IncludeIPv6).length)).sum ∧
      (∀ acts results, b.Run env acts = some results →
        results.Perm ((List.range (addressTasks b).length).map (taskResult b env)) ∧
          (results.map (fun r => (r.Resolver, r.Address))).Perm (addressTasks b) ∧
          results.length = countTotal b) ∧
      (∀ acts s, Reaches b env acts s →
        acts.length ≤ 20 * countTotal b + 4 ∧
          (s.main ≠ .returned → ∃ a s1, step b env a s = some s1) ∧
          ∃ post results, b.Run env (acts ++ post) = some results) := by
  refine ⟨fun r => ⟨by simp [Resolver.AllAddresses], by simp [Resolver.AllAddresses]⟩,
    countTotal_eq b, countTotal_eq_sum b, ?_, ?_⟩
  · intro acts results hrun
    obtain ⟨s, h, hm, hres⟩ := (run_eq_some_iff b env acts results).mp hrun
    obtain ⟨h1, h2⟩ := results_at_return b env acts s h hm
    have hperm : results.Perm ((List.range (addressTasks b).length).map (taskResult b env)) := by
      rw [← hres, h1]
      exact h2.map _
    refine ⟨hperm, ?_, ?_⟩
    · have := hperm.map (fun r => (r.Resolver, r.Address))
      rwa [taskResult_identity] at this
    · rw [hperm.length_eq, List.length_map, List.length_range, countTotal_eq]
  · intro acts s h
    have hinv := inv_reaches b env acts s h
    have hb := schedule_bounded b env acts s h
    refine ⟨by rw [countTotal_eq]; omega, fun hm => never_stuck b env s hinv hC hcap hm, ?_⟩
    exact run_completes b env hC hcap (stepsLeft s) acts s h le_rfl

theorem run_one_result_per_task_witness :
    1 ≤ (poolBenchmark 2 true).config.Concurrency ∧
      0 ≤ (poolBenchmark 2 true).config.Iterations *
        ((poolBenchmark 2 true).config.Domains.length : Int) ∧
      (((poolBenchmark 2 true).Run (poolEnv false) threeTaskSchedule).map
          (fun results => results.map (fun r => (r.Resolver.Name, r.Address, r.Successes)))) =
        some [("beta", "192.0.2.2", 0), ("alpha", "192.0.2.1", 1), ("beta", "2001:db8::2", 0)] ∧
      countTotal (poolBenchmark 2 true) = 3 ∧
      (addressTasks (poolBenchmark 2 true)).map (fun t => (t.1.Name, t.2)) =
        [("alpha", "192.0.2.1"), ("beta", "192.0.2.2"), ("beta", "2001:db8::2")] ∧
      (addressTasks (poolBenchmark 2 false)).map (fun t => (t.1.Name, t.2)) =
        [("alpha", "192.0.2.1"), ("beta", "192.0.2.2")] ∧
      countTotal (poolBenchmark 2 true) = (addressTasks (poolBenchmark 2 true)).length :=
  ⟨by decide, by decide, by decide!, by decide, by decide, by decide,
    (run_one_result_per_task (poolBenchmark 2 true) (poolEnv false) (by decide)
      (by decide)).2.1⟩

/-- C12 as stated fails for a configuration without a slot, and for one with a negative
iteration count.  With `Concurrency = 0` the channel `sem` is unbuffered and nobody
receives from it before a task has sent on it: every task blocks at `sem <- struct{}{}`,
the wait group never reaches zero, and `Run` returns under no schedule (after the two
dispatches and the start of the closing goroutine no goroutine can take a step).  With
a negative `Concurrency` the `make` of `sem` panics.  With `Iterations = -1` and one
domain the slice capacity is `-1`: the `make` that opens `testResolver` panics in the
first task that takes a slot, no call of `testResolver` returns, and `Run` returns
under no schedule (once both tasks have taken their slots no goroutine can take a
step). -/
theorem run_counterexample :
    (∀ acts, (poolBenchmark 0 false).Run (poolEnv false) acts = none) ∧
      (∀ acts, (poolBenchmark 0 false).Run (poolEnv true) acts = none) ∧
      (stateAfter (poolBenchmark 0 false) (poolEnv false)
          [.dispatch, .dispatch, .startCloser]).pcs = [.acquire, .acquire] ∧
      (stateAfter (poolBenchmark 0 false) (poolEnv false)
          [.dispatch, .dispatch, .startCloser]).main = .collect ∧
      (∀ a, step (poolBenchmark 0 false) (poolEnv false) a
        (stateAfter (poolBenchmark 0 false) (poolEnv false)
          [.dispatch, .dispatch, .startCloser]) = none) ∧
      (∀ acts, (poolBenchmark (-1) false).Run (poolEnv false) acts = none) ∧
      1 ≤ negativeBenchmark.config.Concurrency ∧
      negativeBenchmark.config.Iterations = -1 ∧
      rttCapacity negativeBenchmark = -1 ∧
      (∀ acts, negativeBenchmark.Run (poolEnv false) acts = none) ∧
      (∀ acts, negativeBenchmark.Run (poolEnv true) acts = none) ∧
      (stateAfter negativeBenchmark (poolEnv false)
          [.dispatch, .dispatch, .startCloser, .acquire 0, .acquire 1]).pcs =
        [.probing, .probing] ∧
      (stateAfter negativeBenchmark (poolEnv false)
          [.dispatch, .dispatch, .startCloser, .acquire 0, .acquire 1]).main = .collect ∧
      (∀ a, step negativeBenchmark (poolEnv false) a
        (stateAfter negativeBenchmark (poolEnv false)
          [.dispatch, .dispatch, .startCloser, .acquire 0, .acquire 1]) = none) := by
  refine ⟨never_returns _ _ (by decide) (by decide), never_returns _ _ (by decide) (by decide),
    by decide, by decide, ?_, fun acts => rfl, by decide, by decide, by decide,
    never_returns_of_panic _ _ (by decide) (by decide),
    never_returns_of_panic _ _ (by decide) (by decide), by decide, by decide, ?_⟩
  · intro a
    have hs : stateAfter (poolBenchmark 0 false) (poolEnv false)
        [.dispatch, .dispatch, .startCloser] =
        { main := .collect, closer := .wait, pcs := [.acquire, .acquire], dispatched := 2,
          wg := 2 } := by decide
    rw [hs]
    cases a <;> simp [step, poolBenchmark, addressTasks, Resolver.AllAddresses]
    all_goals
      rename_i i
      rcases i with _ | _ | i <;> simp
  · intro a
    have hs : stateAfter negativeBenchmark (poolEnv false)
        [.dispatch, .dispatch, .startCloser, .acquire 0, .acquire 1] =
        { main := .collect, closer := .wait, pcs := [.probing, .probing], dispatched := 2,
          wg := 2, sem := 2 } := by decide
    rw [hs]
    cases a <;>
      simp [step, negativeBenchmark, addressTasks, Resolver.AllAddresses, rttCapacity]
    all_goals
      rename_i i
      rcases i with _ | _ | i <;> simp

/-- C13 as stated fails in its last clause, and for a benchmark without tasks.  Under
`overlapSchedule` task 0 ("alpha") is the first whose probe returns, the first to
publish its result and the first whose goroutine ends, and task 1 ("beta") the last in
all three; yet the event with `Current = Total = 2` is the event of task 0, which took
the mutex last.  With an empty resolver list `Run` returns without sending any event,
so `Current = Total` is never emitted. -/
theorem progress_counterexample :
    (stateAfter (poolBenchmark 2 false) (poolEnv true) overlapSchedule).main = .returned ∧
      (stateAfter (poolBenchmark 2 false) (poolEnv true) overlapSchedule).progress =
        [{ Resolver := "beta", Address := "192.0.2.2", Total := 2, Current := 1 },
          { Resolver := "alpha", Address := "192.0.2.1", Total := 2, Current := 2 }] ∧
      ((poolBenchmark 2 false).Run (poolEnv true) overlapSchedule).isSome = true ∧
      overlapSchedule.indexOf (.probe 0) < overlapSchedule.indexOf (.probe 1) ∧
      overlapSchedule.indexOf (.send 0) < overlapSchedule.indexOf (.send 1) ∧
      overlapSchedule.indexOf (.wgDone 0) < overlapSchedule.indexOf (.wgDone 1) ∧
      overlapSchedule.indexOf (.increment 1) < overlapSchedule.indexOf (.increment 0) ∧
      (stateAfter { config := { Concurrency := 1 } } (poolEnv true)
          [.startCloser, .waited, .close, .ret]).main = .returned ∧
      (stateAfter { config := { Concurrency := 1 } } (poolEnv true)
          [.startCloser, .waited, .close, .ret]).progress = [] := by
  refine ⟨by decide!, by decide!, by decide!, by decide, by decide, by decide, by decide,
    by decide!, by decide!⟩

end SpeedDNS
